import Mathlib

/-!
# snes_ntsc 0.1.0: table correction and blitters

A shallow embedding of `snes_ntsc.c` (table builder `snes_ntsc_init` with
`adjust_kernel`, and the two blitters `snes_ntsc_blit`, `snes_ntsc_blit_hires`)
together with the properties established about it.

Conventions of the embedding.

* `ntsc_rgb_t` is an unsigned 32-bit word.  The header `snes_ntsc.h` is not part
  of the sources, but the blitters store one `ntsc_rgb_t` per two 16-bit pixels
  and advance `out` by 8 words per 32 output bytes, which fixes the width.  Words
  are natural numbers; every `+`, `-` and `<<` of the source is reduced modulo `2^32`.
* A pointer into the emulator table is a word index into the flat array
  `emu->table`, a pointer into the input or output frame is a byte address.
* Floating point arithmetic is kept abstract (`FloatOps`).
-/

namespace SnesNtsc

/-! ## Machine words -/

/-- The modulus of `ntsc_rgb_t` arithmetic. -/
def wordMod : Nat := 2 ^ 32

/-- Unsigned 32-bit addition. -/
def add32 (a b : Nat) : Nat := (a + b) % wordMod

/-- Unsigned 32-bit subtraction. -/
def sub32 (a b : Nat) : Nat := (a % wordMod + (wordMod - b % wordMod)) % wordMod

/-- Unsigned 32-bit left shift. -/
def shl32 (a n : Nat) : Nat := (a <<< n) % wordMod

/-! ## Constants of the header and of the top of `snes_ntsc.c` -/

/-- Modelled from the spec: `snes_ntsc_entry_size` is declared in `snes_ntsc.h`, which is
not among the sources.  The table holds, per source colour, 3 burst phases times 3 column
alignments times a kernel of 16 packed values; `PIXEL` in the blitters addresses the three
alignments of a burst slice at offsets `+0`, `+16`, `+32`. -/
def snes_ntsc_entry_size : Nat := 144

/-- Modelled from the spec: `snes_color_count` is declared in `snes_ntsc.h`; `ENTRY`
produces 13-bit entry numbers (`00BBBBGG GGGRRRR0` halved). -/
def snes_color_count : Nat := 8192

/-- Number of burst phases. -/
def burst_count : Nat := 3

/-- Number of pixel alignments with respect to yiq quads. -/
def alignment_count : Nat := 3

/-- Words of one burst slice of an entry. -/
def burst_entry_size : Nat := snes_ntsc_entry_size / burst_count

/-- Words of one alignment of a burst slice. -/
def rgb_kernel_size : Nat := burst_entry_size / alignment_count

/-- The macro `MAKE_KMASK( x )`. -/
def MAKE_KMASK (x : Nat) : Nat := (x <<< 20) ||| (x <<< 10) ||| x

/-- The macro `MAKE_KRGB( r, g, b )` on signed channel values, as an unsigned 32-bit word.
`>> 5` on a signed int is the arithmetic shift (floor division by 32). -/
def MAKE_KRGB (r g b : Int) : Nat :=
  (((r + 16) / 32 * 2 ^ 20 + (g + 16) / 32 * 2 ^ 10 + (b + 16) / 32) % (wordMod : Int)).toNat

/-- The macro `CLAMP_RGB( io, adj )`: the new value of `io`. -/
def CLAMP_RGB (io adj : Nat) : Nat :=
  let sub := (io >>> (7 + adj)) &&& MAKE_KMASK 3
  let clamp := sub32 (MAKE_KMASK 0x202) sub
  (io ||| clamp) &&& sub32 clamp sub

/-! ## Pixel packing (`BIG_ENDIAN` not defined) -/

/-- The byte count `snes_entry_factor = snes_ntsc_entry_size / 2 * sizeof (ntsc_rgb_t)`. -/
def snes_entry_factor : Nat := snes_ntsc_entry_size / 2 * 4

/-- The macro `ENTRY( n )` relative to the pointer `table`, as a word index: the byte offset
`((n & 0x03FE) | (n >> 1 & 0x3C00)) * snes_entry_factor` divided by `sizeof (ntsc_rgb_t)`. -/
def ENTRY (table n : Nat) : Nat :=
  table + ((n &&& 0x03FE) ||| ((n >>> 1) &&& 0x3C00)) * snes_entry_factor / 4

/-- The macro `LO_PIXEL( in, adj )`. -/
def LO_PIXEL (inn adj : Nat) : Nat :=
  ((inn >>> (11 + adj)) &&& 0x0000F800) ||| ((inn >>> (6 + adj)) &&& 0x000007C0) |||
    ((inn >>> (2 + adj)) &&& 0x0000001F)

/-- The macro `HI_PIXEL( in, adj )`. -/
def HI_PIXEL (inn adj : Nat) : Nat :=
  ((shl32 inn (5 - adj)) &&& 0xF8000000) ||| ((shl32 inn (10 - adj)) &&& 0x07C00000) |||
    ((shl32 inn (14 - adj)) &&& 0x001F0000)

/-- The macro `RIGHT_PIXEL`, which is `HI_PIXEL` when `BIG_ENDIAN` is not defined. -/
def RIGHT_PIXEL (inn adj : Nat) : Nat := HI_PIXEL inn adj

/-- The macro `LEFT_PIXEL`, which is `LO_PIXEL` when `BIG_ENDIAN` is not defined. -/
def LEFT_PIXEL (inn adj : Nat) : Nat := LO_PIXEL inn adj

/-- The macro `MAKE_RGB( in, final, adj, rgb )`: the new value of `rgb`. -/
def MAKE_RGB (inn final adj rgb : Nat) : Nat :=
  let c := CLAMP_RGB inn adj
  if final ≠ 0 then rgb ||| RIGHT_PIXEL c adj else LEFT_PIXEL c adj

/-! ## Frames

The input frame is read through `inp`, which gives the `unsigned short` found at a byte
address.  The effect of a blitter on the output frame is the sequence of its 32-bit
stores, each a byte address and a word; `applyStores` performs them on a byte memory
(little endian, as `BIG_ENDIAN` is not defined). -/

/-- The pointers `k1 .. k5` that `snes_ntsc_blit` carries from chunk to chunk. -/
structure Taps where
  k1 : Nat
  k2 : Nat
  k3 : Nat
  k4 : Nat
  k5 : Nat
deriving DecidableEq, Repr

/-- The value of `raw` in the macro `PIXEL( x )` of `snes_ntsc_blit`. -/
def blit_raw (emu : Nat → Nat) (k0 k1 k2 k3 k4 k5 x : Nat) : Nat :=
  add32 (add32 (add32 (add32 (add32 (emu (k0 + x)) (emu (k1 + ((x + 14) % 16 + 16))))
    (emu (k2 + ((x + 11) % 16 + 32)))) (emu (k3 + (x + 8) % 16)))
    (emu (k4 + ((x + 6) % 16 + 16)))) (emu (k5 + ((x + 3) % 16 + 32)))

/-- The macro `PIXEL( x )` of `snes_ntsc_blit`, acting on the stores made so far and on `rgb`. -/
def PIXEL (emu : Nat → Nat) (out : Int) (k0 k1 k2 k3 k4 k5 x : Nat)
    (st : List (Int × Nat) × Nat) : List (Int × Nat) × Nat :=
  let raw := blit_raw emu k0 k1 k2 k3 k4 k5 x
  let stores :=
    if x ≠ 0 ∧ x &&& 1 = 0 then st.1 ++ [(out + 4 * ((x / 2 : Nat) - 1 : Int), st.2)] else st.1
  (stores, MAKE_RGB raw (x &&& 1) 0 st.2)

/-- Body of the loop `for ( n = chunk_count; n; --n )` of `snes_ntsc_blit`: the stores
`out [0] .. out [7]` and the pointers left for the next chunk. -/
def blit_chunk (emu : Nat → Nat) (inp : Int → Nat) (table : Nat) (in_ out : Int) (k : Taps) :
    List (Int × Nat) × Taps :=
  let k0 := ENTRY table (inp (in_ + 2 * 0))
  let s := PIXEL emu out k0 k.k1 k.k2 k.k3 k.k4 k.k5 0 ([], 0)
  let s := PIXEL emu out k0 k.k1 k.k2 k.k3 k.k4 k.k5 1 s
  let k1 := ENTRY table (inp (in_ + 2 * 1))
  let s := PIXEL emu out k0 k1 k.k2 k.k3 k.k4 k.k5 2 s
  let s := PIXEL emu out k0 k1 k.k2 k.k3 k.k4 k.k5 3 s
  let s := PIXEL emu out k0 k1 k.k2 k.k3 k.k4 k.k5 4 s
  let k2 := ENTRY table (inp (in_ + 2 * 2))
  let s := PIXEL emu out k0 k1 k2 k.k3 k.k4 k.k5 5 s
  let s := PIXEL emu out k0 k1 k2 k.k3 k.k4 k.k5 6 s
  let s := PIXEL emu out k0 k1 k2 k.k3 k.k4 k.k5 7 s
  let k3 := ENTRY table (inp (in_ + 2 * 3))
  let s := PIXEL emu out k0 k1 k2 k3 k.k4 k.k5 8 s
  let s := PIXEL emu out k0 k1 k2 k3 k.k4 k.k5 9 s
  let k4 := ENTRY table (inp (in_ + 2 * 4))
  let s := PIXEL emu out k0 k1 k2 k3 k4 k.k5 10 s
  let s := PIXEL emu out k0 k1 k2 k3 k4 k.k5 11 s
  let s := PIXEL emu out k0 k1 k2 k3 k4 k.k5 12 s
  let k5 := ENTRY table (inp (in_ + 2 * 5))
  let s := PIXEL emu out k0 k1 k2 k3 k4 k5 13 s
  let s := PIXEL emu out k0 k1 k2 k3 k4 k5 14 s
  let s := PIXEL emu out k0 k1 k2 k3 k4 k5 15 s
  (s.1 ++ [(out + 4 * 7, s.2)], ⟨k1, k2, k3, k4, k5⟩)

/-- The loop `for ( n = chunk_count; n; --n )`: stores, and `in`, `out`, `k1 .. k5` after it. -/
def blit_chunks (emu : Nat → Nat) (inp : Int → Nat) (table : Nat) :
    Nat → Int → Int → Taps → List (Int × Nat) × (Int × Int × Taps)
  | 0, in_, out, k => ([], in_, out, k)
  | n + 1, in_, out, k =>
    let r := blit_chunk emu inp table in_ out k
    let rest := blit_chunks emu inp table n (in_ + 2 * 6) (out + 4 * 8) r.2
    (r.1 ++ rest.1, rest.2)

/-- The block after the chunk loop of `snes_ntsc_blit`: the stores `out [0] .. out [5]`. -/
def blit_tail (emu : Nat → Nat) (inp : Int → Nat) (table : Nat) (in_ out : Int) (k : Taps) :
    List (Int × Nat) :=
  let k0 := ENTRY table (inp (in_ + 2 * 0))
  let s := PIXEL emu out k0 k.k1 k.k2 k.k3 k.k4 k.k5 0 ([], 0)
  let s := PIXEL emu out k0 k.k1 k.k2 k.k3 k.k4 k.k5 1 s
  let k1 := ENTRY table (inp (in_ + 2 * 1))
  let s := PIXEL emu out k0 k1 k.k2 k.k3 k.k4 k.k5 2 s
  let s := PIXEL emu out k0 k1 k.k2 k.k3 k.k4 k.k5 3 s
  let s := PIXEL emu out k0 k1 k.k2 k.k3 k.k4 k.k5 4 s
  let k2 := table
  let s := PIXEL emu out k0 k1 k2 k.k3 k.k4 k.k5 5 s
  let s := PIXEL emu out k0 k1 k2 k.k3 k.k4 k.k5 6 s
  let s := PIXEL emu out k0 k1 k2 k.k3 k.k4 k.k5 7 s
  let k3 := table
  let s := PIXEL emu out k0 k1 k2 k3 k.k4 k.k5 8 s
  let s := PIXEL emu out k0 k1 k2 k3 k.k4 k.k5 9 s
  let k4 := table
  let s := PIXEL emu out k0 k1 k2 k3 k4 k.k5 10 s
  let s := PIXEL emu out k0 k1 k2 k3 k4 k.k5 11 s
  s.1 ++ [(out + 4 * 5, s.2)]

/-- The constant `chunk_count = (unsigned) (width - 12) / 16` of both blitters. -/
def chunk_count (width : Int) : Nat := ((width - 12) % (wordMod : Int)).toNat / 16

/-- One pass of the body of `while ( height-- )` in `snes_ntsc_blit`, from the row's `in`
and `out`: the stores of the row, and `in`, `out` at the end of the body (before
`next_in_line`, `next_out_line` are added). -/
def blit_row (emu : Nat → Nat) (inp : Int → Nat) (burst : Nat) (chunks : Nat) (in_ out : Int) :
    List (Int × Nat) × (Int × Int) :=
  let table := burst * burst_entry_size
  let k1 := table
  let k2 := k1
  let k3 := k1
  let k4 := ENTRY table (inp (in_ + 2 * 0))
  let k5 := ENTRY table (inp (in_ + 2 * 1))
  let in_ := in_ + 2 * 2
  let r := blit_chunks emu inp table chunks in_ out ⟨k1, k2, k3, k4, k5⟩
  let t := blit_tail emu inp table r.2.1 r.2.2.1 r.2.2.2
  (r.1 ++ t, (r.2.1, r.2.2.1))

/-- The loop `while ( height-- )` of `snes_ntsc_blit`. -/
def blit_rows (emu : Nat → Nat) (inp : Int → Nat) (chunks : Nat) (next_in_line next_out_line : Int) :
    Nat → Int → Nat → Int → List (Int × Nat)
  | 0, _, _, _ => []
  | height + 1, in_, burst, out =>
    let r := blit_row emu inp burst chunks in_ out
    r.1 ++ blit_rows emu inp chunks next_in_line next_out_line height
      (r.2.1 + next_in_line) ((burst + 1) % 3) (r.2.2 + next_out_line)

/-- The stores of `snes_ntsc_blit( emu, in, in_pitch, burst, width, height, vout, out_pitch )`,
in program order. -/
def snes_ntsc_blit_stores (emu : Nat → Nat) (inp : Int → Nat) (in_ : Int) (in_pitch : Int)
    (burst : Nat) (width : Int) (height : Nat) (vout : Int) (out_pitch : Int) : List (Int × Nat) :=
  let chunks := chunk_count width
  let next_in_line : Int := in_pitch - (chunks * 6 + 2 : Nat) * 2
  let next_out_line : Int := out_pitch - (chunks : Int) * (16 * 2)
  blit_rows emu inp chunks next_in_line next_out_line height in_ burst vout

/-- The pointers `k1 .. k11` that `snes_ntsc_blit_hires` carries from chunk to chunk. -/
structure HiresTaps where
  k1 : Nat
  k2 : Nat
  k3 : Nat
  k4 : Nat
  k5 : Nat
  k6 : Nat
  k7 : Nat
  k8 : Nat
  k9 : Nat
  k10 : Nat
  k11 : Nat
deriving DecidableEq, Repr

/-- The value of `raw` in the macro `PIXEL( x )` of `snes_ntsc_blit_hires`. -/
def hires_raw (emu : Nat → Nat) (k0 : Nat) (k : HiresTaps) (x : Nat) : Nat :=
  add32 (add32 (add32 (add32 (add32 (add32 (add32 (add32 (add32 (add32 (add32
    (emu (k0 + ((x + 0) % 16 + 0))) (emu (k.k2 + ((x + 14) % 16 + 16))))
    (emu (k.k4 + ((x + 11) % 16 + 32)))) (emu (k.k6 + ((x + 8) % 16 + 0))))
    (emu (k.k8 + ((x + 6) % 16 + 16)))) (emu (k.k10 + ((x + 3) % 16 + 32))))
    (emu (k.k1 + ((x + 15) % 16 + 32)))) (emu (k.k3 + ((x + 12) % 16 + 0))))
    (emu (k.k5 + ((x + 10) % 16 + 16)))) (emu (k.k7 + ((x + 7) % 16 + 32))))
    (emu (k.k9 + ((x + 4) % 16 + 0)))) (emu (k.k11 + ((x + 2) % 16 + 16)))

/-- The macro `PIXEL( x )` of `snes_ntsc_blit_hires`. -/
def PIXEL_hires (emu : Nat → Nat) (out : Int) (k0 : Nat) (k : HiresTaps) (x : Nat)
    (st : List (Int × Nat) × Nat) : List (Int × Nat) × Nat :=
  let raw := hires_raw emu k0 k x
  let stores :=
    if x ≠ 0 ∧ x &&& 1 = 0 then st.1 ++ [(out + 4 * ((x / 2 : Nat) - 1 : Int), st.2)] else st.1
  (stores, MAKE_RGB raw (x &&& 1) 1 st.2)

/-- Body of the loop `for ( n = chunk_count; n; --n )` of `snes_ntsc_blit_hires`. -/
def hires_chunk (emu : Nat → Nat) (inp : Int → Nat) (table : Nat) (in_ out : Int)
    (k : HiresTaps) : List (Int × Nat) × HiresTaps :=
  let k0 := ENTRY table (inp (in_ + 2 * 0))
  let s := PIXEL_hires emu out k0 k 0 ([], 0)
  let k := { k with k1 := ENTRY table (inp (in_ + 2 * 1)) }
  let s := PIXEL_hires emu out k0 k 1 s
  let k := { k with k2 := ENTRY table (inp (in_ + 2 * 2)) }
  let s := PIXEL_hires emu out k0 k 2 s
  let s := PIXEL_hires emu out k0 k 3 s
  let k := { k with k3 := ENTRY table (inp (in_ + 2 * 3)) }
  let s := PIXEL_hires emu out k0 k 4 s
  let k := { k with k4 := ENTRY table (inp (in_ + 2 * 4)) }
  let s := PIXEL_hires emu out k0 k 5 s
  let k := { k with k5 := ENTRY table (inp (in_ + 2 * 5)) }
  let s := PIXEL_hires emu out k0 k 6 s
  let s := PIXEL_hires emu out k0 k 7 s
  let k := { k with k6 := ENTRY table (inp (in_ + 2 * 6)) }
  let s := PIXEL_hires emu out k0 k 8 s
  let k := { k with k7 := ENTRY table (inp (in_ + 2 * 7)) }
  let s := PIXEL_hires emu out k0 k 9 s
  let k := { k with k8 := ENTRY table (inp (in_ + 2 * 8)) }
  let s := PIXEL_hires emu out k0 k 10 s
  let s := PIXEL_hires emu out k0 k 11 s
  let k := { k with k9 := ENTRY table (inp (in_ + 2 * 9)) }
  let s := PIXEL_hires emu out k0 k 12 s
  let k := { k with k10 := ENTRY table (inp (in_ + 2 * 10)) }
  let s := PIXEL_hires emu out k0 k 13 s
  let k := { k with k11 := ENTRY table (inp (in_ + 2 * 11)) }
  let s := PIXEL_hires emu out k0 k 14 s
  let s := PIXEL_hires emu out k0 k 15 s
  (s.1 ++ [(out + 4 * 7, s.2)], k)

/-- The chunk loop of `snes_ntsc_blit_hires`. -/
def hires_chunks (emu : Nat → Nat) (inp : Int → Nat) (table : Nat) :
    Nat → Int → Int → HiresTaps → List (Int × Nat) × (Int × Int × HiresTaps)
  | 0, in_, out, k => ([], in_, out, k)
  | n + 1, in_, out, k =>
    let r := hires_chunk emu inp table in_ out k
    let rest := hires_chunks emu inp table n (in_ + 2 * 12) (out + 4 * 8) r.2
    (r.1 ++ rest.1, rest.2)

/-- The block after the chunk loop of `snes_ntsc_blit_hires`. -/
def hires_tail (emu : Nat → Nat) (inp : Int → Nat) (table : Nat) (in_ out : Int)
    (k : HiresTaps) : List (Int × Nat) :=
  let k0 := ENTRY table (inp (in_ + 2 * 0))
  let s := PIXEL_hires emu out k0 k 0 ([], 0)
  let k := { k with k1 := ENTRY table (inp (in_ + 2 * 1)) }
  let s := PIXEL_hires emu out k0 k 1 s
  let k := { k with k2 := ENTRY table (inp (in_ + 2 * 2)) }
  let s := PIXEL_hires emu out k0 k 2 s
  let s := PIXEL_hires emu out k0 k 3 s
  let k := { k with k3 := ENTRY table (inp (in_ + 2 * 3)) }
  let s := PIXEL_hires emu out k0 k 4 s
  let k := { k with k4 := table }
  let s := PIXEL_hires emu out k0 k 5 s
  let k := { k with k5 := table }
  let s := PIXEL_hires emu out k0 k 6 s
  let s := PIXEL_hires emu out k0 k 7 s
  let k := { k with k6 := table }
  let s := PIXEL_hires emu out k0 k 8 s
  let k := { k with k7 := table }
  let s := PIXEL_hires emu out k0 k 9 s
  let k := { k with k8 := table }
  let s := PIXEL_hires emu out k0 k 10 s
  let s := PIXEL_hires emu out k0 k 11 s
  s.1 ++ [(out + 4 * 5, s.2)]

/-- One pass of the body of `while ( height-- )` in `snes_ntsc_blit_hires`. -/
def hires_row (emu : Nat → Nat) (inp : Int → Nat) (burst : Nat) (chunks : Nat) (in_ out : Int) :
    List (Int × Nat) × (Int × Int) :=
  let table := burst * burst_entry_size
  let k1 := table
  let k8 := ENTRY table (inp (in_ + 2 * 0))
  let k9 := ENTRY table (inp (in_ + 2 * 1))
  let k10 := ENTRY table (inp (in_ + 2 * 2))
  let k11 := ENTRY table (inp (in_ + 2 * 3))
  let in_ := in_ + 2 * 4
  let r := hires_chunks emu inp table chunks in_ out ⟨k1, k1, k1, k1, k1, k1, k1, k8, k9, k10, k11⟩
  let t := hires_tail emu inp table r.2.1 r.2.2.1 r.2.2.2
  (r.1 ++ t, (r.2.1, r.2.2.1))

/-- The loop `while ( height-- )` of `snes_ntsc_blit_hires`. -/
def hires_rows (emu : Nat → Nat) (inp : Int → Nat) (chunks : Nat)
    (next_in_line next_out_line : Int) : Nat → Int → Nat → Int → List (Int × Nat)
  | 0, _, _, _ => []
  | height + 1, in_, burst, out =>
    let r := hires_row emu inp burst chunks in_ out
    r.1 ++ hires_rows emu inp chunks next_in_line next_out_line height
      (r.2.1 + next_in_line) ((burst + 1) % 3) (r.2.2 + next_out_line)

/-- The stores of `snes_ntsc_blit_hires`, in program order. -/
def snes_ntsc_blit_hires_stores (emu : Nat → Nat) (inp : Int → Nat) (in_ : Int) (in_pitch : Int)
    (burst : Nat) (width : Int) (height : Nat) (vout : Int) (out_pitch : Int) : List (Int × Nat) :=
  let chunks := chunk_count width
  let next_in_line : Int := in_pitch - (chunks * 12 + 4 : Nat) * 2
  let next_out_line : Int := out_pitch - (chunks : Int) * (16 * 2)
  hires_rows emu inp chunks next_in_line next_out_line height in_ burst vout

/-- Contents of an array, by index. -/
structure Arr (ι α : Type) where
  get : ι → α

/-- The array after the assignment `a [i] = v`. -/
def Arr.set {ι α : Type} [DecidableEq ι] (a : Arr ι α) (i : ι) (v : α) : Arr ι α :=
  ⟨fun j => if j = i then v else a.get j⟩

/-! ## Table correction: `adjust_kernel` -/

/-- The constant `bias = MAKE_KMASK( 0x100 )` of `adjust_kernel`. -/
def bias : Nat := MAKE_KMASK 0x100

/-- The value `((a + b + bias) >> 1 & mask) - (bias >> 1)` stored by the merge loop. -/
def merge_avg (a b : Nat) : Nat :=
  sub32 (((add32 (add32 a b) bias) >>> 1) &&& MAKE_KMASK 0x1FF) (bias >>> 1)

/-- Body of the loop `for ( i = 0; i < burst_entry_size; i++ )` of `adjust_kernel`, on the
table memory `mem` with `out` the pointer to the entry. -/
def merge_body (out : Nat) (mem : Arr Nat Nat) (i : Nat) : Arr Nat Nat :=
  let p := out + i
  let p0 := mem.get (p + burst_entry_size * 0)
  let p1 := mem.get (p + burst_entry_size * 1)
  let p2 := mem.get (p + burst_entry_size * 2)
  let mem := mem.set (p + burst_entry_size * 0) (merge_avg p0 p1)
  let mem := mem.set (p + burst_entry_size * 1) (merge_avg p1 p2)
  let mem := mem.set (p + burst_entry_size * 2) (merge_avg p2 p0)
  mem

/-- The statements `color = (color + bias) << shift; CLAMP_RGB( color, shift );
color = color >> shift & MAKE_KMASK( 0x7F )` of `adjust_kernel` (`shift = 2`) from the value
of `color + bias`; the correction loop does the same to `raw + first`. -/
def clamp_color (color : Nat) : Nat :=
  (CLAMP_RGB (shl32 color 2) 2 >>> 2) &&& MAKE_KMASK 0x7F

/-- The loop `while ( 1 )` of `adjust_kernel`, run for at most `fuel` tests of `error`:
the final value of `first`, or `none` when the fuel runs out. -/
def correct_loop (color raw : Nat) : Nat → Nat → Option Nat
  | 0, _ => none
  | fuel + 1, first =>
    let error := sub32 color (clamp_color (add32 raw first))
    if error = 0 then some first else correct_loop color raw fuel (add32 first error)

/-- Body of the loop `for ( i = 0; i < rgb_kernel_size / 2; i++ )` of `adjust_kernel`, with
`out` the pointer to the burst slice and `color` the clamped colour. -/
def adjust_body (fuel color out : Nat) (mem : Arr Nat Nat) (i : Nat) : Option (Arr Nat Nat) :=
  let first := mem.get (out + i)
  let raw :=
    add32 (add32 (add32 (add32 (add32 bias (mem.get (out + (((i + 14) &&& 15) + 16))))
      (mem.get (out + (((i + 11) &&& 15) + 32)))) (mem.get (out + (i + 8))))
      (mem.get (out + (i + 6 + 16)))) (mem.get (out + (i + 3 + 32)))
  match correct_loop color raw fuel first with
  | none => none
  | some first => some (mem.set (out + i) (add32 first bias))

/-- The function `adjust_kernel( color, merge_fields, out )` on the table memory `mem`; each
`while ( 1 )` loop is given `fuel` tests. -/
def adjust_kernel (fuel : Nat) (color : Nat) (merge_fields : Int) (mem : Arr Nat Nat)
    (out : Nat) : Option (Arr Nat Nat) :=
  let mem :=
    if merge_fields ≠ 0 then (List.range burst_entry_size).foldl (merge_body out) mem else mem
  let color := clamp_color (add32 color bias)
  (List.range burst_count).foldlM
    (fun mem burst =>
      (List.range (rgb_kernel_size / 2)).foldlM
        (adjust_body fuel color (out + burst * (rgb_kernel_size * alignment_count))) mem)
    mem

/-! ## Table generation: the signal model

Floating point is abstract: `FloatOps F` supplies the operations the source applies to
`float` and `double` values, and nothing is assumed about them. -/

/-- Operations on the floating point values of the source. -/
structure FloatOps (F : Type) where
  /-- A constant of the source, or the conversion of an `int`. -/
  lit : ℚ → F
  add : F → F → F
  sub : F → F → F
  mul : F → F → F
  div : F → F → F
  lt : F → F → Bool
  eq : F → F → Bool
  /-- The cast `(int) x`. -/
  toInt : F → Int
  exp : F → F
  sin : F → F
  cos : F → F
  pow : F → F → F

/-- Modelled from the spec: `snes_ntsc_setup_t` is declared in `snes_ntsc.h`; these are the
members `snes_ntsc.c` reads, the palette pointer being null when no table is supplied. -/
structure snes_ntsc_setup_t (F : Type) where
  hue : F
  saturation : F
  contrast : F
  brightness : F
  sharpness : F
  gamma : F
  merge_fields : Int
  bsnes_colortbl : Option (Nat → Nat)

/-- Samples of padding on each side of the composite signal. -/
def composite_border : Nat := 6

/-- Samples of the composite signal. -/
def composite_size : Nat := composite_border + 8 + composite_border

/-- Taps of the gaussian kernel. -/
def ntsc_kernel_size : Nat := composite_size * 2

/-- The struct `ntsc_to_rgb_t`; `rgb` is indexed by `short`, row `n` starting at `3 * n`. -/
structure ntsc_to_rgb_t (F : Type) where
  composite : Arr Nat F
  to_rgb : Arr Nat F
  decoder_matrix : Arr Nat F
  brightness : F
  contrast : F
  sharpness : F
  rgb : Arr Int Int
  kernel : Arr Int F

/-- Conversion of an `int` to `short`. -/
def toShort (z : Int) : Int := (z + 2 ^ 15) % 2 ^ 16 - 2 ^ 15

/-- The constant `rgb_unit`. -/
def rgb_unit {F : Type} (O : FloatOps F) : F := O.lit 0x1000

/-- The constant `pi`. -/
def pi {F : Type} (O : FloatOps F) : F := O.lit 3.14159265358979323846

/-- The function `rotate_matrix( in, s, c, out )`. -/
def rotate_matrix {F : Type} (O : FloatOps F) (inn : Arr Nat F) (s c : F) (out : Arr Nat F) :
    Arr Nat F :=
  (List.range 3).foldl
    (fun out n =>
      let i := inn.get (2 * n)
      let q := inn.get (2 * n + 1)
      let out := out.set (2 * n) (O.sub (O.mul i c) (O.mul q s))
      out.set (2 * n + 1) (O.add (O.mul i s) (O.mul q c)))
    out

/-- The table `to_rgb` of `ntsc_to_rgb_init`. -/
def to_rgb_const {F : Type} (O : FloatOps F) : Arr Nat F :=
  ⟨fun j => O.lit ([0.956, 0.621, -0.272, -0.647, -1.105, 1.702].getD j 0)⟩

/-- The constant `gaussian_factor`. -/
def gaussian_factor {F : Type} (O : FloatOps F) : F := O.lit 1.0

/-- One pass of the normalisation loop `for ( i = 0; i < 4; i++ )` of `ntsc_to_rgb_init`. -/
def normalize_phase {F : Type} (O : FloatOps F) (kernel : Arr Int F) (i : Nat) : Arr Int F :=
  let xs := (List.range ntsc_kernel_size).filter (fun x => i ≤ x ∧ (x - i) % 4 = 0)
  let sum := xs.foldl (fun sum x => O.add sum (kernel.get x)) (O.lit 0)
  let scale := O.div (O.lit 0.5) sum
  xs.foldl (fun kernel x => kernel.set (x : Int) (O.mul (kernel.get x) scale)) kernel

/-- The function `ntsc_to_rgb_init( ntsc, setup )`; `ntsc` is the struct before the call. -/
def ntsc_to_rgb_init {F : Type} (O : FloatOps F) (ntsc : ntsc_to_rgb_t F)
    (setup : snes_ntsc_setup_t F) : ntsc_to_rgb_t F :=
  let brightness := O.add (O.mul setup.brightness (O.mul (O.lit 0.4) (rgb_unit O))) (O.lit 1)
  let contrast := O.add (O.mul setup.contrast (O.lit 0.4)) (O.lit 1)
  let sharpness := O.add (O.lit 1)
    (if O.lt setup.sharpness (O.lit 0) then O.mul setup.sharpness (O.lit 0.5) else setup.sharpness)
  let composite := (List.range composite_size).foldl (fun c i => c.set i (O.lit 0))
    ntsc.composite
  let kernel := (List.range ntsc_kernel_size).foldl (fun k i => k.set (i : Int) (O.lit 0))
    ntsc.kernel
  let kernel := (List.range (2 * composite_border + 1)).foldl
    (fun k n =>
      let i : Int := (n : Int) - composite_border
      k.set ((ntsc_kernel_size / 2 : Nat) + i)
        (O.exp (O.mul (O.lit (i * i)) (O.mul (O.lit (-0.03125)) (gaussian_factor O)))))
    kernel
  let kernel := (List.range 4).foldl (normalize_phase O) kernel
  let hue := O.mul setup.hue (pi O)
  let sat := O.add setup.saturation (O.lit 1)
  let decoder_matrix := rotate_matrix O (to_rgb_const O) (O.mul (O.sin hue) sat)
    (O.mul (O.cos hue) sat) ntsc.decoder_matrix
  { ntsc with
    brightness := brightness, contrast := contrast, sharpness := sharpness,
    composite := composite, kernel := kernel, decoder_matrix := decoder_matrix,
    rgb := (List.range ((composite_size + 1) * 3)).foldl (fun r i => r.set (i : Int) 0) ntsc.rgb }

/-- The macro `PIXEL( get_y )` of `ntsc_to_rgb`, acting on the pointers `kernel`, `out` and on
the array `rgb` that `out` points into; `get_y` is given `i` and `q`. -/
def ntsc_PIXEL {F : Type} (O : FloatOps F) (ntsc : ntsc_to_rgb_t F) (f0 f1 f2 f3 : F)
    (get_y : F → F → F) (st : Int × Int × Arr Int Int) : Int × Int × Arr Int Int :=
  let kernel := st.1
  let out := st.2.1
  let i := O.add (O.mul (ntsc.kernel.get (kernel + 0)) f0) (O.mul (ntsc.kernel.get (kernel + -2)) f2)
  let q := O.add (O.mul (ntsc.kernel.get (kernel + -1)) f1) (O.mul (ntsc.kernel.get (kernel + -3)) f3)
  let y := get_y i q
  let r := O.add (O.add y (O.mul i (ntsc.to_rgb.get 0))) (O.mul q (ntsc.to_rgb.get 1))
  let g := O.add (O.add y (O.mul i (ntsc.to_rgb.get 2))) (O.mul q (ntsc.to_rgb.get 3))
  let b := O.add (O.add y (O.mul i (ntsc.to_rgb.get 4))) (O.mul q (ntsc.to_rgb.get 5))
  let rgb := st.2.2.set (out + 0) (toShort (O.toInt r))
  let rgb := rgb.set (out + 1) (toShort (O.toInt g))
  let rgb := rgb.set (out + 2) (toShort (O.toInt b))
  (kernel + 1, out + 3, rgb)

/-- The function `ntsc_to_rgb( ntsc, offset, out )`, where `out` points to the `short` of
index `out` of `ntsc->rgb`: the new contents of `ntsc->rgb`. -/
def ntsc_to_rgb {F : Type} (O : FloatOps F) (ntsc : ntsc_to_rgb_t F) (offset : Nat) (out : Int) :
    Arr Int Int :=
  let kernel : Int := (ntsc_kernel_size / 2 : Nat) - (offset : Int)
  let f0 := ntsc.composite.get offset
  let f1 := ntsc.composite.get (offset + 1)
  let f2 := ntsc.composite.get (offset + 2)
  let f3 := ntsc.composite.get (offset + 3)
  let st := (List.range (composite_size / 4)).foldl
    (fun st n =>
      let x := 4 * n
      let st := ntsc_PIXEL O ntsc f0 f1 f2 f3 (fun i _ => O.sub i (ntsc.composite.get (x + 0))) st
      let st := ntsc_PIXEL O ntsc f0 f1 f2 f3 (fun _ q => O.sub q (ntsc.composite.get (x + 1))) st
      let st := ntsc_PIXEL O ntsc f0 f1 f2 f3 (fun i _ => O.sub (ntsc.composite.get (x + 2)) i) st
      ntsc_PIXEL O ntsc f0 f1 f2 f3 (fun _ q => O.sub (ntsc.composite.get (x + 3)) q) st)
    (kernel, out, ntsc.rgb)
  st.2.2

/-- The function `sharpen( in, level, count, out )` with `in` and `out` pointing to the
`short`s of index `inn` and `out` of one array: the new contents of the array.  `int`
arithmetic is not reduced (overflow is undefined in the source). -/
def sharpen {F : Type} (O : FloatOps F) (rgb : Arr Int Int) (inn : Int) (level : F)
    (count : Nat) (out : Int) : Arr Int Int :=
  let accuracy : Nat := 16
  let middle : Int := O.toInt (O.mul level (O.lit (2 ^ accuracy)))
  let side : Int := (middle - 2 ^ accuracy) / 2
  let copy := fun (st : Int × Int × Arr Int Int) =>
    (st.1 + 1, st.2.1 + 1, st.2.2.set st.2.1 (st.2.2.get st.1))
  let st := copy (copy (copy (inn, out, rgb)))
  let st := (List.range ((count - 2) * 3)).foldl
    (fun (st : Int × Int × Arr Int Int) _ =>
      let i := st.1
      let v := (st.2.2.get (i + 0) * middle - st.2.2.get (i + -3) * side
        - st.2.2.get (i + 3) * side) / 2 ^ accuracy
      (i + 1, st.2.1 + 1, st.2.2.set st.2.1 (toShort v)))
    st
  (copy (copy (copy st))).2.2

/-- The function `gen_pixel( ntsc, ntsc_pos, rgb_pos, out )`, with `out` a word pointer into
the table memory `mem`: the struct, the memory and the returned pointer. -/
def gen_pixel {F : Type} (O : FloatOps F) (ntsc : ntsc_to_rgb_t F) (ntsc_pos rgb_pos : Nat)
    (mem : Arr Nat Nat) (out : Nat) : ntsc_to_rgb_t F × Arr Nat Nat × Nat :=
  let ntsc :=
    if O.eq ntsc.sharpness (O.lit 1.0) then
      { ntsc with rgb := ntsc_to_rgb O ntsc (composite_border + ntsc_pos) (3 * 0) }
    else
      let ntsc := { ntsc with rgb := ntsc_to_rgb O ntsc (composite_border + ntsc_pos) (3 * 1) }
      { ntsc with rgb := sharpen O ntsc.rgb (3 * 1) ntsc.sharpness composite_size (3 * 0) }
  let inn : Int := 3 * rgb_pos
  let mem := (List.range rgb_kernel_size).foldl
    (fun (mem : Arr Nat Nat) (n : Nat) =>
      let p : Int := inn + 3 * n
      mem.set (out + n)
        (MAKE_KRGB (ntsc.rgb.get (p + 0)) (ntsc.rgb.get (p + 1)) (ntsc.rgb.get (p + 2))))
    mem
  (ntsc, mem, out + rgb_kernel_size)

/-- The table `burst_phases` of `gen_pixel_phases`. -/
def burst_phases {F : Type} (O : FloatOps F) (burst j : Nat) : F :=
  O.lit (([[0.0, 1.0], [-0.866025, -0.5], [0.866025, -0.5]].getD burst []).getD j 0)

/-- Body of the loop over `burst` in `gen_pixel_phases`. -/
def gen_pixel_burst {F : Type} (O : FloatOps F) (y ci cq : F)
    (st : ntsc_to_rgb_t F × Arr Nat Nat × Nat) (burst : Nat) :
    ntsc_to_rgb_t F × Arr Nat Nat × Nat :=
  let ntsc := st.1
  let sin_b := burst_phases O burst 0
  let cos_b := burst_phases O burst 1
  let fi := O.sub (O.mul ci cos_b) (O.mul cq sin_b)
  let fq := O.add (O.mul ci sin_b) (O.mul cq cos_b)
  let ntsc := { ntsc with to_rgb := rotate_matrix O ntsc.decoder_matrix sin_b cos_b ntsc.to_rgb }
  let c := ntsc.composite
  let c := c.set (composite_border + 0) (O.add fi y)
  let c := c.set (composite_border + 1) (O.add fq y)
  let c := c.set (composite_border + 2) (O.mul (O.sub fi y) (O.lit (2 / 3)))
  let r := gen_pixel O { ntsc with composite := c } 0 0 st.2.1 st.2.2
  let ntsc := r.1
  let c := ntsc.composite
  let c := c.set (composite_border + 0) (O.lit 0)
  let c := c.set (composite_border + 1) (O.lit 0)
  let c := c.set (composite_border + 2) (O.mul (O.sub fi y) (O.lit (1 / 3)))
  let c := c.set (composite_border + 3) (O.sub fq y)
  let c := c.set (composite_border + 4) (O.add fi y)
  let c := c.set (composite_border + 5) (O.mul (O.add fq y) (O.lit (1 / 3)))
  let r := gen_pixel O { ntsc with composite := c } 2 2 r.2.1 r.2.2
  let ntsc := r.1
  let c := ntsc.composite
  let c := c.set (composite_border + 2) (O.lit 0)
  let c := c.set (composite_border + 3) (O.lit 0)
  let c := c.set (composite_border + 4) (O.lit 0)
  let c := c.set (composite_border + 5) (O.mul (O.add fq y) (O.lit (2 / 3)))
  let c := c.set (composite_border + 6) (O.sub fi y)
  let c := c.set (composite_border + 7) (O.sub fq y)
  let r := gen_pixel O { ntsc with composite := c } 4 5 r.2.1 r.2.2
  let ntsc := r.1
  let c := ntsc.composite
  let c := c.set (composite_border + 5) (O.lit 0)
  let c := c.set (composite_border + 6) (O.lit 0)
  let c := c.set (composite_border + 7) (O.lit 0)
  ({ ntsc with composite := c }, r.2.1, r.2.2)

/-- The function `gen_pixel_phases( ntsc, y, ci, cq, out )`: the struct and the table memory
after the call. -/
def gen_pixel_phases {F : Type} (O : FloatOps F) (ntsc : ntsc_to_rgb_t F) (y ci cq : F)
    (mem : Arr Nat Nat) (out : Nat) : ntsc_to_rgb_t F × Arr Nat Nat :=
  let st := (List.range burst_count).foldl (gen_pixel_burst O y ci cq) (ntsc, mem, out)
  (st.1, st.2.1)

/-- The red value `ir` that `snes_ntsc_init` takes for an entry. -/
def entry_ir (entry : Nat) : Nat := (entry <<< 1) &&& 0x1E

/-- The green value `ig` that `snes_ntsc_init` takes for an entry. -/
def entry_ig (entry : Nat) : Nat := (entry >>> 4) &&& 0x1F

/-- The blue value `ib` that `snes_ntsc_init` takes for an entry. -/
def entry_ib (entry : Nat) : Nat := (entry >>> 8) &&& 0x1E

/-- Body of the loop `for ( entry = 0; entry < snes_color_count; entry++ )` of
`snes_ntsc_init`; `emu` is the memory of `emu->table`.  The block that would read
`bsnes_colortbl` is commented out in the source, so nothing reads it here. -/
def init_entry {F : Type} (O : FloatOps F) (fuel : Nat) (setup : snes_ntsc_setup_t F)
    (to_float : Arr Nat F) (st : ntsc_to_rgb_t F × Arr Nat Nat) (entry : Nat) :
    Option (ntsc_to_rgb_t F × Arr Nat Nat) :=
  let ntsc := st.1
  let ir := entry_ir entry
  let ig := entry_ig entry
  let ib := entry_ib entry
  let r := to_float.get (ir &&& 0xFFFFFFFE)
  let g := to_float.get ig
  let b := to_float.get (ib &&& 0xFFFFFFFE)
  let y := O.add (O.add (O.mul r (O.lit 0.299)) (O.mul g (O.lit 0.587))) (O.mul b (O.lit 0.114))
  let i := O.sub (O.sub (O.mul r (O.lit 0.596)) (O.mul g (O.lit 0.275))) (O.mul b (O.lit 0.321))
  let q := O.add (O.sub (O.mul r (O.lit 0.212)) (O.mul g (O.lit 0.523))) (O.mul b (O.lit 0.311))
  let y := O.add (O.mul y ntsc.contrast) ntsc.brightness
  let out := entry * snes_ntsc_entry_size
  let gp := gen_pixel_phases O ntsc y i q st.2 out
  let ntsc := gp.1
  let r := O.add (O.add y (O.mul i (ntsc.decoder_matrix.get 0))) (O.mul q (ntsc.decoder_matrix.get 1))
  let g := O.add (O.add y (O.mul i (ntsc.decoder_matrix.get 2))) (O.mul q (ntsc.decoder_matrix.get 3))
  let b := O.add (O.add y (O.mul i (ntsc.decoder_matrix.get 4))) (O.mul q (ntsc.decoder_matrix.get 5))
  match adjust_kernel fuel (MAKE_KRGB (O.toInt r) (O.toInt g) (O.toInt b)) setup.merge_fields
      gp.2 out with
  | none => none
  | some mem => some (ntsc, mem)

/-- The function `snes_ntsc_init( emu, setup )`: the contents of `emu->table` after the call,
from its contents `emu` and the contents `ntsc` of the local struct before it.  The byte
order check at the end of the source is not part of the model. -/
def snes_ntsc_init {F : Type} (O : FloatOps F) (fuel : Nat) (ntsc : ntsc_to_rgb_t F)
    (emu : Arr Nat Nat) (setup : snes_ntsc_setup_t F) : Option (Arr Nat Nat) :=
  let ntsc := ntsc_to_rgb_init O ntsc setup
  let gamma := O.sub (O.lit 1)
    (O.mul setup.gamma (if O.lt (O.lit 0) setup.gamma then O.lit 0.5 else O.lit 1.5))
  let to_float := (List.range 32).foldl
    (fun (t : Arr Nat F) i =>
      t.set i (O.mul (O.pow (O.mul (O.div (O.lit 1) (O.lit 31.0)) (O.lit i)) gamma) (rgb_unit O)))
    ⟨fun _ => O.lit 0⟩
  let _bsnes_colortbl := setup.bsnes_colortbl
  ((List.range snes_color_count).foldlM (init_entry O fuel setup to_float) (ntsc, emu)).map
    (fun st => st.2)

/-! ## Vocabulary of the statements -/

/-- A word with the 10-bit fields `a`, `b`, `c` and `t` above them. -/
def pack (t a b c : Nat) : Nat := t * 2 ^ 30 + a * 2 ^ 20 + b * 2 ^ 10 + c

/-- The action of `CLAMP_RGB` on one 10-bit field `v`, where `s` is the value of the two
bits of the field that the macro tests. -/
def clampField (v s : Nat) : Nat := (v ||| (0x202 - s)) &&& (0x202 - 2 * s)

/-- Clamp of a biased 9-bit channel value `u = s + 0x100` to `0 .. 0x7F`. -/
def clamp7 (u : Nat) : Nat := if u < 256 then 0 else min (u - 256) 127

/-- The solid-field sum: `raw` of `PIXEL( x )` when all six pointers are `k`. -/
def solid_raw (g : Nat → Nat) (k x : Nat) : Nat := blit_raw g k k k k k k x

/-- Field `k` of a packed word: bits `10 k .. 10 k + 9` (0 blue, 1 green, 2 red). -/
def field (w k : Nat) : Nat := (w >>> (10 * k)) % 1024

/-- The signed channel `k` of a colour word such as `MAKE_KRGB` builds: the word plus
`bias` holds `s + 0x100` in the low nine bits of field `k`. -/
def channel (color k : Nat) : Int := ((field (add32 color bias) k % 512 : Nat) : Int) - 0x100

/-- Clamp of a signed channel value to `0 .. 0x7F`. -/
def clampCh (s : Int) : Nat := (min (max s 0) 0x7F).toNat

/-- The RGB565 pixel holding the top five bits of the 7-bit channels `r`, `g`, `b`
(bit 5, the low bit of the 6-bit green field, stays 0). -/
def rgb565 (r g b : Nat) : Nat := ((r >>> 2) <<< 11) ||| ((g >>> 2) <<< 6) ||| (b >>> 2)

/-- A word made of the pixels of two clamped sums, the left one in the low half. -/
def twoPixels (adj v : Nat) : Prop :=
  ∃ raw0 raw1 : Nat, v = LO_PIXEL (CLAMP_RGB raw0 adj) adj + 2 ^ 16 * LO_PIXEL (CLAMP_RGB raw1 adj) adj

/-- The table entry that `ENTRY( n )` selects, as the claim writes it. -/
def entry_of (n : Nat) : Nat :=
  ((n >>> 1) &&& 0xF) ||| (((n >>> 5) &&& 0x1F) <<< 4) ||| (((n >>> 11) &&& 0xF) <<< 9)

/-- Bound on the number of corrections still needed by one channel of the correction loop
of `adjust_kernel`: `u` is the biased 9-bit value of the channel in `raw + first`, `c` the
clamped target. -/
def stepsLeft (c u : Nat) : Nat :=
  if clamp7 u = c then 0 else if u < 256 then 257 - u else if u < 384 then 1 else u - 382

/-- The value of `color` in `adjust_kernel` after the block that clamps it. -/
def clamped_target (color : Nat) : Nat := clamp_color (add32 color bias)

/-- The packed word `(r << 20) + (g << 10) + b` of signed channels, as `MAKE_KRGB` sums it. -/
def packed (r g b : Int) : Nat := ((r * 2 ^ 20 + g * 2 ^ 10 + b) % (wordMod : Int)).toNat

/-- The pointers of `snes_ntsc_blit_hires` when all of them are `k`. -/
def solidTaps (k : Nat) : HiresTaps := ⟨k, k, k, k, k, k, k, k, k, k, k⟩

/-- The value of `raw` in `adjust_kernel` for tap `i` of the burst slice at `base`: the bias
plus the five taps that the solid sum at `i` adds to tap `i` itself. -/
def kernel_raw (g : Nat → Nat) (base i : Nat) : Nat :=
  add32 (add32 (add32 (add32 (add32 bias (g (base + (((i + 14) &&& 15) + 16))))
    (g (base + (((i + 11) &&& 15) + 32)))) (g (base + (i + 8))))
    (g (base + (i + 6 + 16)))) (g (base + (i + 3 + 32)))

/-- A table in which `bias` is added to taps 0..7 of alignment 0 of every burst slice of the
unbiased table `g`; slices are 48 words long and the table starts at `out`. -/
def withBias (out : Nat) (g : Nat → Nat) : Nat → Nat :=
  fun j => if (j - out) % burst_entry_size < rgb_kernel_size / 2 then add32 (g j) bias else g j

/-- The offsets within a burst slice of the six taps that `PIXEL( x )` of `snes_ntsc_blit`
sums, in the order of the source. -/
def std_offsets (x : Nat) : List Nat :=
  [x, (x + 14) % 16 + 16, (x + 11) % 16 + 32, (x + 8) % 16, (x + 6) % 16 + 16, (x + 3) % 16 + 32]

/-- The offsets within a burst slice of the twelve taps that `PIXEL( x )` of
`snes_ntsc_blit_hires` sums, in the order of the source. -/
def hires_offsets (x : Nat) : List Nat :=
  [(x + 0) % 16 + 0, (x + 14) % 16 + 16, (x + 11) % 16 + 32, (x + 8) % 16 + 0,
    (x + 6) % 16 + 16, (x + 3) % 16 + 32, (x + 15) % 16 + 32, (x + 12) % 16 + 0,
    (x + 10) % 16 + 16, (x + 7) % 16 + 32, (x + 4) % 16 + 0, (x + 2) % 16 + 16]

/-- Floating point on the values that are integers: sums, differences and products of small
integers are exact in `float` and `double`, so there `add`, `sub`, `mul`, the comparisons and
the cast `toInt` are those of the source.  A constant is cut to an integer; `div` and `pow`
are the integer ones and `exp`, `sin`, `cos` take their values at 0. -/
def intOps : FloatOps Int where
  lit := fun q => q.floor
  add := fun a b => a + b
  sub := fun a b => a - b
  mul := fun a b => a * b
  div := fun a b => a / b
  lt := fun a b => decide (a < b)
  eq := fun a b => decide (a = b)
  toInt := fun a => a
  exp := fun _ => 1
  sin := fun _ => 0
  cos := fun _ => 1
  pow := fun a b => a ^ b.toNat

/-- The operations `O` with a comparison `==` that never holds: with them `gen_pixel` takes
the branch that runs `sharpen`, whatever the sharpness. -/
def neverEq {F : Type} (O : FloatOps F) : FloatOps F := { O with eq := fun _ _ => false }

/-- A decoder state as `ntsc_to_rgb_init` leaves it for sharpness 1.0, with integer values:
kernel 1 on the taps `14 .. 26` and 0 elsewhere, all `to_rgb` coefficients 3, `rgb` cleared,
and the composite signal of the third alignment with `(fq + y) * (2 / 3) = 0`,
`fi - y = 0` and `fq - y = 64`. -/
def sharp_state : ntsc_to_rgb_t Int where
  composite := ⟨fun i => if i = 13 then 64 else 0⟩
  to_rgb := ⟨fun _ => 3⟩
  decoder_matrix := ⟨fun _ => 3⟩
  brightness := 1
  contrast := 1
  sharpness := 1
  rgb := ⟨fun _ => 0⟩
  kernel := ⟨fun i => if 14 ≤ i ∧ i ≤ 26 then 1 else 0⟩

/-- Exact arithmetic on rationals in place of floating point: constants, sums, differences,
products, quotients and comparisons are exact, and `toInt` cuts toward zero as the cast
`(int) x` does.  The functions `exp`, `sin` and `cos` have their values at 0, and `pow` its
values for the exponents 0 and 1. -/
def ratOps : FloatOps ℚ where
  lit := fun q => q
  add := fun a b => a + b
  sub := fun a b => a - b
  mul := fun a b => a * b
  div := fun a b => a / b
  lt := fun a b => decide (a < b)
  eq := fun a b => decide (a = b)
  toInt := fun a => if 0 ≤ a then a.floor else -((-a).floor)
  exp := fun _ => 1
  sin := fun _ => 0
  cos := fun _ => 1
  pow := fun a b => if b = 1 then a else 1

/-- The table `to_float` that `snes_ntsc_init` fills from `setup->gamma`. -/
def gamma_table {F : Type} (O : FloatOps F) (setup : snes_ntsc_setup_t F) : Arr Nat F :=
  let gamma := O.sub (O.lit 1)
    (O.mul setup.gamma (if O.lt (O.lit 0) setup.gamma then O.lit 0.5 else O.lit 1.5))
  (List.range 32).foldl
    (fun (t : Arr Nat F) i =>
      t.set i (O.mul (O.pow (O.mul (O.div (O.lit 1) (O.lit 31.0)) (O.lit i)) gamma) (rgb_unit O)))
    ⟨fun _ => O.lit 0⟩

/-- The values `y`, `i`, `q` that the loop of `snes_ntsc_init` has for `entry` when it calls
`gen_pixel_phases`; `y` is the luma `y * contrast + brightness`. -/
def entry_yiq {F : Type} (O : FloatOps F) (ntsc : ntsc_to_rgb_t F) (to_float : Arr Nat F)
    (entry : Nat) : F × F × F :=
  let r := to_float.get (entry_ir entry &&& 0xFFFFFFFE)
  let g := to_float.get (entry_ig entry)
  let b := to_float.get (entry_ib entry &&& 0xFFFFFFFE)
  let y := O.add (O.add (O.mul r (O.lit 0.299)) (O.mul g (O.lit 0.587))) (O.mul b (O.lit 0.114))
  let i := O.sub (O.sub (O.mul r (O.lit 0.596)) (O.mul g (O.lit 0.275))) (O.mul b (O.lit 0.321))
  let q := O.add (O.sub (O.mul r (O.lit 0.212)) (O.mul g (O.lit 0.523))) (O.mul b (O.lit 0.311))
  (O.add (O.mul y ntsc.contrast) ntsc.brightness, i, q)

/-- The values `(int) r`, `(int) g`, `(int) b` that the loop of `snes_ntsc_init` passes to
`MAKE_KRGB` for `entry`: the colour a solid area should decode to. -/
def entry_rgb {F : Type} (O : FloatOps F) (ntsc : ntsc_to_rgb_t F) (to_float : Arr Nat F)
    (entry : Nat) : Int × Int × Int :=
  let y := (entry_yiq O ntsc to_float entry).1
  let i := (entry_yiq O ntsc to_float entry).2.1
  let q := (entry_yiq O ntsc to_float entry).2.2
  (O.toInt (O.add (O.add y (O.mul i (ntsc.decoder_matrix.get 0)))
      (O.mul q (ntsc.decoder_matrix.get 1))),
    O.toInt (O.add (O.add y (O.mul i (ntsc.decoder_matrix.get 2)))
      (O.mul q (ntsc.decoder_matrix.get 3))),
    O.toInt (O.add (O.add y (O.mul i (ntsc.decoder_matrix.get 4)))
      (O.mul q (ntsc.decoder_matrix.get 5))))

/-- The colour word that the loop of `snes_ntsc_init` passes to `adjust_kernel` for `entry`. -/
def entry_color {F : Type} (O : FloatOps F) (ntsc : ntsc_to_rgb_t F) (to_float : Arr Nat F)
    (entry : Nat) : Nat :=
  MAKE_KRGB (entry_rgb O ntsc to_float entry).1 (entry_rgb O ntsc to_float entry).2.1
    (entry_rgb O ntsc to_float entry).2.2

/-- A value `z` whose rounded channel `(z + 16) >> 5` fits the signed nine bits that a field
of `MAKE_KRGB` holds next to the bias. -/
def fits_field (z : Int) : Prop := -0x100 ≤ (z + 16) / 32 ∧ (z + 16) / 32 ≤ 0xFF

/-- A setup with all parameters zero but contrast, saturation and brightness. -/
def bright_setup (contrast saturation brightness : ℚ) : snes_ntsc_setup_t ℚ where
  hue := 0
  saturation := saturation
  contrast := contrast
  brightness := brightness
  sharpness := 0
  gamma := 0
  merge_fields := 0
  bsnes_colortbl := none

/-- A decoder struct with every member cleared. -/
def blank_state : ntsc_to_rgb_t ℚ where
  composite := ⟨fun _ => 0⟩
  to_rgb := ⟨fun _ => 0⟩
  decoder_matrix := ⟨fun _ => 0⟩
  brightness := 0
  contrast := 0
  sharpness := 0
  rgb := ⟨fun _ => 0⟩
  kernel := ⟨fun _ => 0⟩

/-- The luma `y * contrast + brightness` that `snes_ntsc_init` computes for `entry`. -/
def init_luma {F : Type} (O : FloatOps F) (ntsc : ntsc_to_rgb_t F) (setup : snes_ntsc_setup_t F)
    (entry : Nat) : F :=
  (entry_yiq O (ntsc_to_rgb_init O ntsc setup) (gamma_table O setup) entry).1

/-- The values `(int) r`, `(int) g`, `(int) b` that `snes_ntsc_init` computes for `entry`. -/
def init_rgb {F : Type} (O : FloatOps F) (ntsc : ntsc_to_rgb_t F) (setup : snes_ntsc_setup_t F)
    (entry : Nat) : Int × Int × Int :=
  entry_rgb O (ntsc_to_rgb_init O ntsc setup) (gamma_table O setup) entry

/-- The colour word `MAKE_KRGB( (int) r, (int) g, (int) b )` that `snes_ntsc_init` computes
for `entry`. -/
def init_color {F : Type} (O : FloatOps F) (ntsc : ntsc_to_rgb_t F) (setup : snes_ntsc_setup_t F)
    (entry : Nat) : Nat :=
  entry_color O (ntsc_to_rgb_init O ntsc setup) (gamma_table O setup) entry

/-- The setup with every parameter zero, `merge_fields` false and no palette. -/
def zero_setup {F : Type} (O : FloatOps F) : snes_ntsc_setup_t F where
  hue := O.lit 0
  saturation := O.lit 0
  contrast := O.lit 0
  brightness := O.lit 0
  sharpness := O.lit 0
  gamma := O.lit 0
  merge_fields := 0
  bsnes_colortbl := none

/-- The facts about the arithmetic on the constants 0 and 1 that the black entry rests on;
all of them are exact in floating point. -/
structure ZeroOneLaws {F : Type} (O : FloatOps F) : Prop where
  mul_zero_left : ∀ x, O.mul (O.lit 0) x = O.lit 0
  mul_zero_right : ∀ x, O.mul x (O.lit 0) = O.lit 0
  add_zero_zero : O.add (O.lit 0) (O.lit 0) = O.lit 0
  sub_zero_zero : O.sub (O.lit 0) (O.lit 0) = O.lit 0
  sub_one_zero : O.sub (O.lit 1) (O.lit 0) = O.lit 1
  add_zero_one : O.add (O.lit 0) (O.lit 1) = O.lit 1
  add_one_zero : O.add (O.lit 1) (O.lit 0) = O.lit 1
  pow_zero_one : O.pow (O.lit 0) (O.lit 1) = O.lit 0
  toInt_one : O.toInt (O.lit 1) = 1

/-- Source pixel `j` of a row of `n` pixels at `in`, black (code 0) outside the row. -/
def src_row (inp : Int → Nat) (in_ : Int) (n : Nat) (j : Int) : Nat :=
  if 0 ≤ j ∧ j < n then inp (in_ + 2 * j) else 0

/-- The word of two output pixels that a blitter makes of the sums `raw0` and `raw1`. -/
def pixel_pair (adj raw0 raw1 : Nat) : Nat :=
  LEFT_PIXEL (CLAMP_RGB raw0 adj) adj ||| RIGHT_PIXEL (CLAMP_RGB raw1 adj) adj

/-- The words that hold the output samples `0 .. 2 n - 1` of a row at `out`, sample `p`
being made of the unclamped sum `raw p`. -/
def row_words (adj : Nat) (raw : Nat → Nat) (out : Int) (n : Nat) : List (Int × Nat) :=
  (List.range n).map (fun w : Nat => (out + 4 * (w : Int), pixel_pair adj (raw (2 * w)) (raw (2 * w + 1))))

/-- The first output sample that source pixel `j` influences in `snes_ntsc_blit_hires`:
`16 * floor ((j - 4) / 12) + [0, 1, 2, 4, 5, 6, 8, 9, 10, 12, 13, 14][(j - 4) mod 12]`. -/
def start_hires (j : Int) : Int :=
  16 * ((j - 4) / 12) +
    (([0, 1, 2, 4, 5, 6, 8, 9, 10, 12, 13, 14] : List Nat).getD ((j - 4) % 12).toNat 0 : Nat)

/-- The last source pixel whose window has begun at output sample `p` of the hires blitter. -/
def last_hires (p : Nat) : Int :=
  12 * (p / 16 : Nat) + 4 +
    (([0, 1, 2, 2, 3, 4, 5, 5, 6, 7, 8, 8, 9, 10, 11, 11] : List Nat).getD (p % 16) 0 : Nat)

/-- Tap number `p - start (j)` of alignment `[0, 2, 1][(j - 4) mod 3]`, in the burst slice at
`table`, of the entry of the source pixel `S j`. -/
def tap_hires (emu : Nat → Nat) (table : Nat) (S : Int → Nat) (j : Int) (p : Nat) : Nat :=
  emu (ENTRY table (S j) +
    (16 * ((([0, 2, 1] : List Nat).getD ((j - 4) % 3).toNat 0 : Nat) : Int) +
      ((p : Int) - start_hires j)).toNat)

/-- The sliding-window sum of the hires blitter for output sample `p`: the taps of the twelve
consecutive source pixels that end with `last_hires p`, added modulo `2^32`. -/
def conv_hires (emu : Nat → Nat) (table : Nat) (S : Int → Nat) (p : Nat) : Nat :=
  (List.range 12).foldl
    (fun acc t => add32 acc (tap_hires emu table S (last_hires p - 11 + (t : Nat)) p)) 0

/-- The pointers `k1 .. k11` at the start of a chunk of `snes_ntsc_blit_hires` whose first
source pixel is `S 4`: the entries of the eleven pixels before it. -/
def hires_taps_at (table : Nat) (S : Int → Nat) : HiresTaps :=
  ⟨ENTRY table (S (-7)), ENTRY table (S (-6)), ENTRY table (S (-5)), ENTRY table (S (-4)),
    ENTRY table (S (-3)), ENTRY table (S (-2)), ENTRY table (S (-1)), ENTRY table (S 0),
    ENTRY table (S 1), ENTRY table (S 2), ENTRY table (S 3)⟩

/-- The kernel of `ntsc_to_rgb_init` before the normalisation loop: cleared, then the gaussian
on the taps `ntsc_kernel_size / 2 - composite_border .. ntsc_kernel_size / 2 + composite_border`. -/
def gauss_kernel {F : Type} (O : FloatOps F) (ntsc : ntsc_to_rgb_t F) : Arr Int F :=
  let kernel := (List.range ntsc_kernel_size).foldl (fun k i => k.set (i : Int) (O.lit 0))
    ntsc.kernel
  (List.range (2 * composite_border + 1)).foldl
    (fun k n =>
      let i : Int := (n : Int) - composite_border
      k.set ((ntsc_kernel_size / 2 : Nat) + i)
        (O.exp (O.mul (O.lit (i * i)) (O.mul (O.lit (-0.03125)) (gaussian_factor O)))))
    kernel

/-- The indices `i, i + 4, i + 8, ...` below `ntsc_kernel_size` that pass `i` of the
normalisation loop of `ntsc_to_rgb_init` visits. -/
def phase_taps (i : Nat) : List Nat :=
  (List.range ntsc_kernel_size).filter (fun x => i ≤ x ∧ (x - i) % 4 = 0)

/-- The value of `sum` that pass `i` of the normalisation loop computes from `kernel`. -/
def phase_sum {F : Type} (O : FloatOps F) (kernel : Arr Int F) (i : Nat) : F :=
  (phase_taps i).foldl (fun sum x => O.add sum (kernel.get x)) (O.lit 0)

/-- Arithmetic that is exact: the values form an ordered field in which the constants, sums,
products and quotients of the source are those of the field, and `exp` is positive. -/
structure ExactOps {F : Type} [LinearOrderedField F] (O : FloatOps F) : Prop where
  lit_zero : O.lit 0 = 0
  lit_half : O.lit 0.5 = 1 / 2
  add_eq : ∀ a b, O.add a b = a + b
  mul_eq : ∀ a b, O.mul a b = a * b
  div_eq : ∀ a b, O.div a b = a / b
  exp_pos : ∀ a, 0 < O.exp a

/-- The array `a` cut to the indices `0 .. n - 1`, with `d` everywhere else. -/
def clipArr {α : Type} (n : Nat) (a : Arr Int α) (d : α) : Arr Int α :=
  ⟨fun j => if 0 ≤ j ∧ j < (n : Int) then a.get j else d⟩

/-- The array `a` cut to the indices below `n`, with `d` everywhere else. -/
def clipNat {α : Type} (n : Nat) (a : Arr Nat α) (d : α) : Arr Nat α :=
  ⟨fun j => if j < n then a.get j else d⟩

/-- The pairs `(ntsc_pos, rgb_pos)` of the three calls of `gen_pixel` in `gen_pixel_phases`. -/
def phase_calls : List (Nat × Nat) := [(0, 0), (2, 2), (4, 5)]

/-- The decoder struct with `kernel` and `composite` cut to their declared sizes, `dK` and
`dC` standing where the arrays do not reach. -/
def clip_arrays {F : Type} (ntsc : ntsc_to_rgb_t F) (dK dC : F) : ntsc_to_rgb_t F :=
  { ntsc with
    kernel := clipArr ntsc_kernel_size ntsc.kernel dK,
    composite := clipNat composite_size ntsc.composite dC }

/-- A step on a state `(in, out, array)` that moves `out` forward by `w` and leaves the array
as it is outside `out .. out + w - 1`. -/
def Advances (w : Int) (f : Int × Int × Arr Int Int → Int × Int × Arr Int Int) : Prop :=
  ∀ st, (f st).2.1 = st.2.1 + w ∧
    ∀ j, (j < st.2.1 ∨ st.2.1 + w ≤ j) → (f st).2.2.get j = st.2.2.get j

/-- The value that `sharpen`, called with `in` one row above `out`, gives short `t` of `out`,
in terms of the array `R` before the call. -/
def sharpened {F : Type} (O : FloatOps F) (R : Arr Int Int) (level : F) (t : Int) : Int :=
  if t < 3 ∨ 57 ≤ t then R.get (t + 3)
  else toShort ((R.get (t + 3) * O.toInt (O.mul level (O.lit (2 ^ 16)))
    - R.get t * ((O.toInt (O.mul level (O.lit (2 ^ 16))) - 2 ^ 16) / 2)
    - R.get (t + 6) * ((O.toInt (O.mul level (O.lit (2 ^ 16))) - 2 ^ 16) / 2)) / 2 ^ 16)

/-- State of `sharpen` after `k` shorts are written: `in` is three shorts above `out`, the
shorts from `k` on are those of `R`, the shorts below `k` are final. -/
def SharpenInv {F : Type} (O : FloatOps F) (R : Arr Int Int) (level : F) (k : Int)
    (st : Int × Int × Arr Int Int) : Prop :=
  st.1 = 3 + k ∧ st.2.1 = k ∧ (∀ j, k ≤ j → st.2.2.get j = R.get j) ∧
    ∀ t, 0 ≤ t → t < k → st.2.2.get t = sharpened O R level t

/-! # Theorems -/

/-! ## Packed words: bitwise operations act field by field -/

theorem and_split (k a c a' c' : Nat) (hc : c < 2 ^ k) (hc' : c' < 2 ^ k) :
    (a * 2 ^ k + c) &&& (a' * 2 ^ k + c') = (a &&& a') * 2 ^ k + (c &&& c') := by
  have h : (c &&& c') < 2 ^ k := Nat.and_lt_two_pow c hc'
  apply Nat.eq_of_testBit_eq
  intro i
  rw [Nat.mul_comm a, Nat.mul_comm a', Nat.mul_comm (a &&& a')]
  rw [Nat.testBit_and, Nat.testBit_mul_pow_two_add a hc, Nat.testBit_mul_pow_two_add a' hc',
    Nat.testBit_mul_pow_two_add _ h]
  split <;> simp

theorem or_split (k a c a' c' : Nat) (hc : c < 2 ^ k) (hc' : c' < 2 ^ k) :
    (a * 2 ^ k + c) ||| (a' * 2 ^ k + c') = (a ||| a') * 2 ^ k + (c ||| c') := by
  have h : (c ||| c') < 2 ^ k := Nat.or_lt_two_pow hc hc'
  apply Nat.eq_of_testBit_eq
  intro i
  rw [Nat.mul_comm a, Nat.mul_comm a', Nat.mul_comm (a ||| a')]
  rw [Nat.testBit_or, Nat.testBit_mul_pow_two_add a hc, Nat.testBit_mul_pow_two_add a' hc',
    Nat.testBit_mul_pow_two_add _ h]
  split <;> simp

theorem pack_unpack (w : Nat) :
    w = pack (w / 2 ^ 30) (w / 2 ^ 20 % 1024) (w / 2 ^ 10 % 1024) (w % 1024) := by
  unfold pack; omega

theorem and_pack (t a b c t' a' b' c' : Nat) (ha : a < 1024) (hb : b < 1024) (hc : c < 1024)
    (ha' : a' < 1024) (hb' : b' < 1024) (hc' : c' < 1024) :
    pack t a b c &&& pack t' a' b' c' = pack (t &&& t') (a &&& a') (b &&& b') (c &&& c') := by
  have e : ∀ t a b c : Nat, pack t a b c = ((t * 2 ^ 10 + a) * 2 ^ 10 + b) * 2 ^ 10 + c := by
    intro t a b c; unfold pack; omega
  have hb2 : (b &&& b') < 2 ^ 10 := Nat.and_lt_two_pow b hb'
  have ha2 : (a &&& a') < 2 ^ 10 := Nat.and_lt_two_pow a ha'
  rw [e, e, e, and_split 10 _ c _ c' hc hc', and_split 10 _ b _ b' hb hb',
    and_split 10 _ a _ a' ha ha']

theorem or_pack (t a b c t' a' b' c' : Nat) (ha : a < 1024) (hb : b < 1024) (hc : c < 1024)
    (ha' : a' < 1024) (hb' : b' < 1024) (hc' : c' < 1024) :
    pack t a b c ||| pack t' a' b' c' = pack (t ||| t') (a ||| a') (b ||| b') (c ||| c') := by
  have e : ∀ t a b c : Nat, pack t a b c = ((t * 2 ^ 10 + a) * 2 ^ 10 + b) * 2 ^ 10 + c := by
    intro t a b c; unfold pack; omega
  rw [e, e, e, or_split 10 _ c _ c' hc hc', or_split 10 _ b _ b' hb hb',
    or_split 10 _ a _ a' ha ha']

theorem MAKE_KMASK_pack (x : Nat) (hx : x < 1024) : MAKE_KMASK x = pack 0 x x x := by
  unfold MAKE_KMASK
  rw [Nat.shiftLeft_eq, Nat.shiftLeft_eq]
  have h1 : x * 2 ^ 20 ||| x * 2 ^ 10 = pack 0 x x 0 := by
    have := or_pack 0 x 0 0 0 0 x 0 hx (by omega) (by omega) (by omega) hx (by omega)
    simp only [pack, Nat.zero_or, Nat.or_zero] at this ⊢
    simpa using this
  rw [h1]
  have := or_pack 0 x x 0 0 0 0 x hx hx (by omega) (by omega) (by omega) hx
  simp only [pack, Nat.zero_or, Nat.or_zero] at this ⊢
  simpa using this

theorem and_three (x : Nat) : x &&& 3 = x % 4 := Nat.and_pow_two_sub_one_eq_mod x 2

theorem sub32_of_le (a b : Nat) (hb : b ≤ a) (ha : a < 2 ^ 32) : sub32 a b = a - b := by
  unfold sub32 wordMod
  omega

theorem clampField_lt (v s : Nat) : clampField v s < 1024 := by
  unfold clampField
  exact Nat.and_lt_two_pow _ (by omega : 0x202 - 2 * s < 2 ^ 10)

theorem CLAMP_RGB_pack (t a b c adj : Nat) (ha : a < 1024) (hb : b < 1024) (hc : c < 1024) :
    CLAMP_RGB (pack t a b c) adj =
      pack 0 (clampField a ((pack t a b c >>> (7 + adj)) / 2 ^ 20 % 4))
        (clampField b ((pack t a b c >>> (7 + adj)) / 2 ^ 10 % 4))
        (clampField c ((pack t a b c >>> (7 + adj)) % 4)) := by
  unfold CLAMP_RGB
  generalize hy : pack t a b c >>> (7 + adj) = y
  have hsub : y &&& MAKE_KMASK 3 = pack 0 (y / 2 ^ 20 % 4) (y / 2 ^ 10 % 4) (y % 4) := by
    have h := and_pack (y / 2 ^ 30) (y / 2 ^ 20 % 1024) (y / 2 ^ 10 % 1024) (y % 1024) 0 3 3 3
      (by omega) (by omega) (by omega) (by omega) (by omega) (by omega)
    rw [← pack_unpack y] at h
    rw [MAKE_KMASK_pack 3 (by omega), h, and_three, and_three, and_three, Nat.and_zero]
    congr 1 <;> omega
  have hk : MAKE_KMASK 0x202 = pack 0 0x202 0x202 0x202 := MAKE_KMASK_pack _ (by omega)
  have h1 : y / 2 ^ 20 % 4 < 4 := Nat.mod_lt _ (by omega)
  have h2 : y / 2 ^ 10 % 4 < 4 := Nat.mod_lt _ (by omega)
  have h3 : y % 4 < 4 := Nat.mod_lt _ (by omega)
  generalize y / 2 ^ 20 % 4 = sa at *
  generalize y / 2 ^ 10 % 4 = sb at *
  generalize y % 4 = sc at *
  simp only []
  rw [hsub, hk]
  have e1 : sub32 (pack 0 0x202 0x202 0x202) (pack 0 sa sb sc) =
      pack 0 (0x202 - sa) (0x202 - sb) (0x202 - sc) := by
    rw [sub32_of_le] <;> (unfold pack; omega)
  have e2 : sub32 (pack 0 (0x202 - sa) (0x202 - sb) (0x202 - sc)) (pack 0 sa sb sc) =
      pack 0 (0x202 - 2 * sa) (0x202 - 2 * sb) (0x202 - 2 * sc) := by
    rw [sub32_of_le] <;> (unfold pack; omega)
  rw [e1, e2, or_pack _ _ _ _ _ _ _ _ ha hb hc (by omega) (by omega) (by omega),
    and_pack _ _ _ _ _ _ _ _ (Nat.or_lt_two_pow ha (by omega : 0x202 - sa < 2 ^ 10))
      (Nat.or_lt_two_pow hb (by omega : 0x202 - sb < 2 ^ 10))
      (Nat.or_lt_two_pow hc (by omega : 0x202 - sc < 2 ^ 10)) (by omega) (by omega) (by omega),
    Nat.and_zero]
  rfl

theorem clampField_adj0 : ∀ v < 1024, clampField v (v / 128 % 4) / 4 % 32 = clamp7 (v % 512) / 4 := by
  decide!

theorem clampField_adj2 : ∀ c < 1024, ∀ e < 4,
    clampField ((4 * c + e) % 1024) (c / 128 % 4) / 4 % 128 = clamp7 (c % 512) := by
  decide!

theorem and_mask7 (x : Nat) : x &&& 0x7F = x % 128 := Nat.and_pow_two_sub_one_eq_mod x 7

theorem clamp_color_pack (t a b c : Nat) (ha : a < 1024) (hb : b < 1024) (hc : c < 1024) :
    clamp_color (pack t a b c) =
      pack 0 (clamp7 (a % 512)) (clamp7 (b % 512)) (clamp7 (c % 512)) := by
  unfold clamp_color
  have hs : shl32 (pack t a b c) 2 =
      pack ((4 * t + a / 256) % 4) ((4 * a + b / 256) % 1024) ((4 * b + c / 256) % 1024)
        ((4 * c + 0) % 1024) := by
    unfold shl32 wordMod pack
    rw [Nat.shiftLeft_eq]
    omega
  rw [hs, CLAMP_RGB_pack _ _ _ _ _ (Nat.mod_lt _ (by omega)) (Nat.mod_lt _ (by omega))
    (Nat.mod_lt _ (by omega)), ← hs]
  have e1 : (shl32 (pack t a b c) 2 >>> (7 + 2)) / 2 ^ 20 % 4 = a / 128 % 4 := by
    rw [Nat.shiftRight_eq_div_pow]; unfold shl32 wordMod pack; rw [Nat.shiftLeft_eq]; omega
  have e2 : (shl32 (pack t a b c) 2 >>> (7 + 2)) / 2 ^ 10 % 4 = b / 128 % 4 := by
    rw [Nat.shiftRight_eq_div_pow]; unfold shl32 wordMod pack; rw [Nat.shiftLeft_eq]; omega
  have e3 : (shl32 (pack t a b c) 2 >>> (7 + 2)) % 4 = c / 128 % 4 := by
    rw [Nat.shiftRight_eq_div_pow]; unfold shl32 wordMod pack; rw [Nat.shiftLeft_eq]; omega
  rw [e1, e2, e3]
  have fa := clampField_adj2 a ha (b / 256) (by omega)
  have fb := clampField_adj2 b hb (c / 256) (by omega)
  have fc := clampField_adj2 c hc 0 (by omega)
  have la := clampField_lt ((4 * a + b / 256) % 1024) (a / 128 % 4)
  have lb := clampField_lt ((4 * b + c / 256) % 1024) (b / 128 % 4)
  have lc := clampField_lt ((4 * c + 0) % 1024) (c / 128 % 4)
  generalize clampField ((4 * a + b / 256) % 1024) (a / 128 % 4) = X at *
  generalize clampField ((4 * b + c / 256) % 1024) (b / 128 % 4) = Y at *
  generalize clampField ((4 * c + 0) % 1024) (c / 128 % 4) = Z at *
  have hsh : pack 0 X Y Z >>> 2 = pack 0 (X / 4) (X % 4 * 256 + Y / 4) (Y % 4 * 256 + Z / 4) := by
    rw [Nat.shiftRight_eq_div_pow]; unfold pack; omega
  rw [hsh, MAKE_KMASK_pack 0x7F (by omega), and_pack _ _ _ _ _ _ _ _ (by omega) (by omega)
    (by omega) (by omega) (by omega) (by omega), and_mask7, and_mask7, and_mask7, Nat.and_zero]
  congr 1 <;> omega

theorem and_shifted_mask (x m k : Nat) : x &&& (m * 2 ^ k) = ((x / 2 ^ k) &&& m) * 2 ^ k := by
  have h := and_split k (x / 2 ^ k) (x % 2 ^ k) m 0 (Nat.mod_lt _ (by positivity)) (by positivity)
  rw [Nat.div_add_mod' x (2 ^ k)] at h
  simpa using h

theorem or_disjoint (a k r : Nat) (hr : r < 2 ^ k) : a * 2 ^ k ||| r = a * 2 ^ k + r := by
  have h := or_split k a 0 0 r (by positivity) hr
  simpa using h

theorem and_mask5 (x : Nat) : x &&& 0x1F = x % 32 := Nat.and_pow_two_sub_one_eq_mod x 5

theorem LO_PIXEL_eq (w adj : Nat) :
    LO_PIXEL w adj =
      w / 2 ^ (22 + adj) % 32 * 2 ^ 11 + w / 2 ^ (12 + adj) % 32 * 2 ^ 6 + w / 2 ^ (2 + adj) % 32 := by
  unfold LO_PIXEL
  have h1 : (0x0000F800 : Nat) = 0x1F * 2 ^ 11 := by decide
  have h2 : (0x000007C0 : Nat) = 0x1F * 2 ^ 6 := by decide
  rw [h1, h2, and_shifted_mask, and_shifted_mask, and_mask5, and_mask5, and_mask5,
    Nat.shiftRight_eq_div_pow, Nat.shiftRight_eq_div_pow, Nat.shiftRight_eq_div_pow,
    Nat.div_div_eq_div_mul, Nat.div_div_eq_div_mul, ← Nat.pow_add, ← Nat.pow_add]
  have e1 : 11 + adj + 11 = 22 + adj := by omega
  have e2 : 6 + adj + 6 = 12 + adj := by omega
  rw [e1, e2]
  have l2 : w / 2 ^ (12 + adj) % 32 * 2 ^ 6 < 2 ^ 11 := by omega
  have l3 : w / 2 ^ (2 + adj) % 32 < 2 ^ 6 := by omega
  have e3 : w / 2 ^ (22 + adj) % 32 * 2 ^ 11 + w / 2 ^ (12 + adj) % 32 * 2 ^ 6 =
      (w / 2 ^ (22 + adj) % 32 * 2 ^ 5 + w / 2 ^ (12 + adj) % 32) * 2 ^ 6 := by omega
  rw [or_disjoint _ _ _ l2, e3, or_disjoint _ _ _ l3]

theorem HI_PIXEL_eq (w adj : Nat) (hadj : adj ≤ 1) : HI_PIXEL w adj = LO_PIXEL w adj * 2 ^ 16 := by
  rw [LO_PIXEL_eq]
  unfold HI_PIXEL
  have h1 : (0xF8000000 : Nat) = 0x1F * 2 ^ 27 := by decide
  have h2 : (0x07C00000 : Nat) = 0x1F * 2 ^ 22 := by decide
  have h3 : (0x001F0000 : Nat) = 0x1F * 2 ^ 16 := by decide
  rw [h1, h2, h3, and_shifted_mask, and_shifted_mask, and_shifted_mask, and_mask5, and_mask5,
    and_mask5]
  unfold shl32 wordMod
  rw [Nat.shiftLeft_eq, Nat.shiftLeft_eq, Nat.shiftLeft_eq]
  have hc : adj = 0 ∨ adj = 1 := by omega
  rcases hc with rfl | rfl
  · have a1 : w * 2 ^ (5 - 0) % 2 ^ 32 / 2 ^ 27 % 32 = w / 2 ^ (22 + 0) % 32 := by omega
    have a2 : w * 2 ^ (10 - 0) % 2 ^ 32 / 2 ^ 22 % 32 = w / 2 ^ (12 + 0) % 32 := by omega
    have a3 : w * 2 ^ (14 - 0) % 2 ^ 32 / 2 ^ 16 % 32 = w / 2 ^ (2 + 0) % 32 := by omega
    rw [a1, a2, a3]
    have l2 : w / 2 ^ (12 + 0) % 32 * 2 ^ 22 < 2 ^ 27 := by omega
    have l3 : w / 2 ^ (2 + 0) % 32 * 2 ^ 16 < 2 ^ 22 := by omega
    have e3 : w / 2 ^ (22 + 0) % 32 * 2 ^ 27 + w / 2 ^ (12 + 0) % 32 * 2 ^ 22 =
        (w / 2 ^ (22 + 0) % 32 * 2 ^ 5 + w / 2 ^ (12 + 0) % 32) * 2 ^ 22 := by omega
    rw [or_disjoint _ _ _ l2, e3, or_disjoint _ _ _ l3]
    omega
  · have a1 : w * 2 ^ (5 - 1) % 2 ^ 32 / 2 ^ 27 % 32 = w / 2 ^ (22 + 1) % 32 := by omega
    have a2 : w * 2 ^ (10 - 1) % 2 ^ 32 / 2 ^ 22 % 32 = w / 2 ^ (12 + 1) % 32 := by omega
    have a3 : w * 2 ^ (14 - 1) % 2 ^ 32 / 2 ^ 16 % 32 = w / 2 ^ (2 + 1) % 32 := by omega
    rw [a1, a2, a3]
    have l2 : w / 2 ^ (12 + 1) % 32 * 2 ^ 22 < 2 ^ 27 := by omega
    have l3 : w / 2 ^ (2 + 1) % 32 * 2 ^ 16 < 2 ^ 22 := by omega
    have e3 : w / 2 ^ (22 + 1) % 32 * 2 ^ 27 + w / 2 ^ (12 + 1) % 32 * 2 ^ 22 =
        (w / 2 ^ (22 + 1) % 32 * 2 ^ 5 + w / 2 ^ (12 + 1) % 32) * 2 ^ 22 := by omega
    rw [or_disjoint _ _ _ l2, e3, or_disjoint _ _ _ l3]
    omega

theorem sub32_eq_zero (a b : Nat) (ha : a < 2 ^ 32) (hb : b < 2 ^ 32) :
    sub32 a b = 0 ↔ a = b := by
  unfold sub32 wordMod
  omega

theorem clamp_color_lt (S : Nat) : clamp_color S < 2 ^ 32 := by
  unfold clamp_color
  have h : MAKE_KMASK 0x7F < 2 ^ 32 := by decide
  exact Nat.lt_of_le_of_lt Nat.and_le_right h

theorem correct_loop_spec (color raw : Nat) (hc : color < 2 ^ 32) :
    ∀ fuel first f, correct_loop color raw fuel first = some f →
      clamp_color (add32 raw f) = color := by
  intro fuel
  induction fuel with
  | zero => intro first f h; simp [correct_loop] at h
  | succ n ih =>
    intro first f h
    simp only [correct_loop] at h
    split at h
    · rename_i he
      have := (sub32_eq_zero _ _ hc (clamp_color_lt _)).1 he
      simp only [Option.some.injEq] at h
      rw [← h, ← this]
    · exact ih _ _ h

theorem and_mask4 (x : Nat) : x &&& 15 = x % 16 := Nat.and_pow_two_sub_one_eq_mod x 4

theorem adjust_body_spec (fuel color base : Nat) (hc : color < 2 ^ 32) (mem mem' : Arr Nat Nat)
    (i : Nat) (hi : i < 8) (h : adjust_body fuel color base mem i = some mem') :
    (∀ j, j ≠ base + i → mem'.get j = mem.get j) ∧
      clamp_color (solid_raw mem'.get base i) = color := by
  unfold adjust_body at h
  simp only [] at h
  split at h
  · simp at h
  · rename_i f hf
    simp only [Option.some.injEq] at h
    subst h
    have hs := correct_loop_spec color _ hc _ _ _ hf
    constructor
    · intro j hj
      simp [Arr.set, hj]
    · rw [← hs]
      congr 1
      unfold solid_raw blit_raw
      simp only [Arr.set, and_mask4]
      have e1 : (i + 14) % 16 + 16 ≠ i := by omega
      have e2 : (i + 11) % 16 + 32 ≠ i := by omega
      have e3 : (i + 8) % 16 = i + 8 := by omega
      have e4 : (i + 6) % 16 = i + 6 := by omega
      have e5 : (i + 3) % 16 = i + 3 := by omega
      simp only [e3, e4, e5, Nat.add_right_inj, e1, e2, if_true, if_false]
      have e6 : i + 8 ≠ i := by omega
      have e7 : i + 6 + 16 ≠ i := by omega
      have e8 : i + 3 + 32 ≠ i := by omega
      simp only [e6, e7, e8, if_false]
      unfold add32 wordMod
      omega

theorem solid_raw_congr (g g' : Nat → Nat) (k i : Nat) (hi : i < 8)
    (h : ∀ j, j = k + i ∨ (k + 8 ≤ j ∧ j < k + 48) → g j = g' j) :
    solid_raw g k i = solid_raw g' k i := by
  unfold solid_raw blit_raw
  rw [h (k + i) (Or.inl rfl), h (k + ((i + 14) % 16 + 16)) (Or.inr (by omega)),
    h (k + ((i + 11) % 16 + 32)) (Or.inr (by omega)), h (k + (i + 8) % 16) (Or.inr (by omega)),
    h (k + ((i + 6) % 16 + 16)) (Or.inr (by omega)),
    h (k + ((i + 3) % 16 + 32)) (Or.inr (by omega))]

theorem adjust_inner_spec (fuel color base : Nat) (hc : color < 2 ^ 32) :
    ∀ (l : List Nat) (mem mem' : Arr Nat Nat), (∀ i ∈ l, i < 8) → l.Nodup →
      l.foldlM (adjust_body fuel color base) mem = some mem' →
      (∀ j, (∀ i ∈ l, j ≠ base + i) → mem'.get j = mem.get j) ∧
        (∀ i ∈ l, clamp_color (solid_raw mem'.get base i) = color) := by
  intro l
  induction l with
  | nil =>
    intro mem mem' _ _ h
    simp only [List.foldlM_nil] at h
    cases h
    simp
  | cons i0 rest ih =>
    intro mem mem' hl hnd h
    rw [List.foldlM_cons] at h
    cases h1 : adjust_body fuel color base mem i0 with
    | none => rw [h1] at h; simp at h
    | some m1 =>
      rw [h1] at h
      simp only [Option.bind_eq_bind, Option.some_bind] at h
      have hi0 : i0 < 8 := hl i0 (List.mem_cons_self _ _)
      have hrest : ∀ i ∈ rest, i < 8 := fun i hi => hl i (List.mem_cons_of_mem _ hi)
      have hnd' := List.nodup_cons.1 hnd
      obtain ⟨hf1, hg1⟩ := adjust_body_spec fuel color base hc mem m1 i0 hi0 h1
      obtain ⟨hf2, hg2⟩ := ih m1 mem' hrest hnd'.2 h
      constructor
      · intro j hj
        rw [hf2 j (fun i hi => hj i (List.mem_cons_of_mem _ hi)),
          hf1 j (hj i0 (List.mem_cons_self _ _))]
      · intro i hi
        rcases List.mem_cons.1 hi with rfl | hi
        · rw [← hg1]
          congr 1
          apply solid_raw_congr _ _ _ _ hi0
          intro j hj
          apply hf2
          intro i' hi'
          have := hrest i' hi'
          rcases hj with rfl | hj
          · intro e
            have : i = i' := by omega
            exact hnd'.1 (this ▸ hi')
          · omega
        · exact hg2 i hi

theorem adjust_outer_spec (fuel color out : Nat) (hc : color < 2 ^ 32) :
    ∀ (l : List Nat) (mem mem' : Arr Nat Nat), l.Nodup →
      l.foldlM (fun mem burst =>
        (List.range 8).foldlM (adjust_body fuel color (out + burst * 48)) mem) mem = some mem' →
      (∀ j, (∀ b ∈ l, ∀ i < 8, j ≠ out + b * 48 + i) → mem'.get j = mem.get j) ∧
        (∀ b ∈ l, ∀ i < 8, clamp_color (solid_raw mem'.get (out + b * 48) i) = color) := by
  intro l
  induction l with
  | nil =>
    intro mem mem' _ h
    simp only [List.foldlM_nil] at h
    cases h
    simp
  | cons b0 rest ih =>
    intro mem mem' hnd h
    rw [List.foldlM_cons] at h
    cases h1 : (List.range 8).foldlM (adjust_body fuel color (out + b0 * 48)) mem with
    | none => rw [h1] at h; simp at h
    | some m1 =>
      rw [h1] at h
      simp only [Option.bind_eq_bind, Option.some_bind] at h
      have hnd' := List.nodup_cons.1 hnd
      obtain ⟨hf1, hg1⟩ := adjust_inner_spec fuel color (out + b0 * 48) hc (List.range 8) mem m1
        (fun i hi => List.mem_range.1 hi) (List.nodup_range 8) h1
      obtain ⟨hf2, hg2⟩ := ih m1 mem' hnd'.2 h
      constructor
      · intro j hj
        rw [hf2 j (fun b hb => hj b (List.mem_cons_of_mem _ hb)),
          hf1 j (fun i hi => hj b0 (List.mem_cons_self _ _) i (List.mem_range.1 hi))]
      · intro b hb i hi
        rcases List.mem_cons.1 hb with rfl | hb
        · rw [← hg1 i (List.mem_range.2 hi)]
          congr 1
          apply solid_raw_congr _ _ _ _ hi
          intro j hj
          apply hf2
          intro b' hb' i' hi'
          have hne : b ≠ b' := fun e => hnd'.1 (e ▸ hb')
          omega
        · exact hg2 b hb i hi

theorem adjust_kernel_spec (fuel color : Nat) (merge_fields : Int) (mem mem' : Arr Nat Nat)
    (out : Nat) (h : adjust_kernel fuel color merge_fields mem out = some mem') :
    ∀ b < 3, ∀ i < 8,
      clamp_color (solid_raw mem'.get (out + b * 48) i) = clamp_color (add32 color bias) := by
  unfold adjust_kernel at h
  have e1 : burst_count = 3 := rfl
  have e2 : rgb_kernel_size / 2 = 8 := rfl
  have e3 : rgb_kernel_size * alignment_count = 48 := rfl
  simp only [e1, e2, e3] at h
  intro b hb i hi
  exact (adjust_outer_spec fuel _ out (clamp_color_lt _) (List.range 3) _ mem'
    (List.nodup_range 3) h).2 b (List.mem_range.2 hb) i hi

theorem solid_raw_add8 (g : Nat → Nat) (k i : Nat) (hi : i < 8) :
    solid_raw g k (i + 8) = solid_raw g k i := by
  unfold solid_raw blit_raw
  have e1 : (i + 8 + 14) % 16 = i + 6 := by omega
  have e2 : (i + 8 + 11) % 16 = i + 3 := by omega
  have e3 : (i + 8 + 8) % 16 = i := by omega
  have e4 : (i + 8 + 6) % 16 = (i + 14) % 16 := by omega
  have e5 : (i + 8 + 3) % 16 = (i + 11) % 16 := by omega
  have e6 : (i + 8) % 16 = i + 8 := by omega
  have e7 : (i + 6) % 16 = i + 6 := by omega
  have e8 : (i + 3) % 16 = i + 3 := by omega
  rw [e1, e2, e3, e4, e5, e6, e7, e8]
  unfold add32 wordMod
  omega

theorem pack_fields (w : Nat) : w = pack (w / 2 ^ 30) (field w 2) (field w 1) (field w 0) := by
  unfold field
  simp only [Nat.shiftRight_eq_div_pow]
  unfold pack
  omega

theorem field_lt (w k : Nat) : field w k < 1024 := Nat.mod_lt _ (by omega)

theorem clamp7_eq (u : Nat) (hu : u < 512) : clamp7 u = clampCh ((u : Int) - 0x100) := by
  unfold clamp7 clampCh
  split <;> omega

theorem clamp7_lt (u : Nat) : clamp7 u < 128 := by
  unfold clamp7
  split <;> omega

theorem rgb565_eq (r g b : Nat) (hg : g < 128) (hb : b < 128) :
    rgb565 r g b = r / 4 * 2 ^ 11 + g / 4 * 2 ^ 6 + b / 4 := by
  unfold rgb565
  simp only [Nat.shiftRight_eq_div_pow, Nat.shiftLeft_eq]
  have l2 : g / 2 ^ 2 * 2 ^ 6 < 2 ^ 11 := by omega
  have l3 : b / 2 ^ 2 < 2 ^ 6 := by omega
  have e3 : r / 2 ^ 2 * 2 ^ 11 + g / 2 ^ 2 * 2 ^ 6 = (r / 2 ^ 2 * 2 ^ 5 + g / 2 ^ 2) * 2 ^ 6 := by
    omega
  rw [or_disjoint _ _ _ l2, e3, or_disjoint _ _ _ l3]
  omega

theorem LO_PIXEL_CLAMP_pack (t a b c : Nat) (ha : a < 1024) (hb : b < 1024) (hc : c < 1024) :
    LO_PIXEL (CLAMP_RGB (pack t a b c) 0) 0 =
      rgb565 (clamp7 (a % 512)) (clamp7 (b % 512)) (clamp7 (c % 512)) := by
  rw [CLAMP_RGB_pack t a b c 0 ha hb hc, LO_PIXEL_eq,
    rgb565_eq _ _ _ (clamp7_lt _) (clamp7_lt _)]
  have e1 : (pack t a b c >>> (7 + 0)) / 2 ^ 20 % 4 = a / 128 % 4 := by
    rw [Nat.shiftRight_eq_div_pow]; unfold pack; omega
  have e2 : (pack t a b c >>> (7 + 0)) / 2 ^ 10 % 4 = b / 128 % 4 := by
    rw [Nat.shiftRight_eq_div_pow]; unfold pack; omega
  have e3 : (pack t a b c >>> (7 + 0)) % 4 = c / 128 % 4 := by
    rw [Nat.shiftRight_eq_div_pow]; unfold pack; omega
  rw [e1, e2, e3, ← clampField_adj0 a ha, ← clampField_adj0 b hb, ← clampField_adj0 c hc]
  have la := clampField_lt a (a / 128 % 4)
  have lb := clampField_lt b (b / 128 % 4)
  have lc := clampField_lt c (c / 128 % 4)
  generalize clampField a (a / 128 % 4) = X at *
  generalize clampField b (b / 128 % 4) = Y at *
  generalize clampField c (c / 128 % 4) = Z at *
  unfold pack
  omega

/-- The pixel of a sum is decided by its clamped colour. -/
theorem LO_PIXEL_of_clamp_color (S T : Nat) (h : clamp_color S = clamp_color T) :
    LO_PIXEL (CLAMP_RGB S 0) 0 =
      rgb565 (clamp7 (field T 2 % 512)) (clamp7 (field T 1 % 512)) (clamp7 (field T 0 % 512)) := by
  have hS := pack_fields S
  have hT := pack_fields T
  rw [hS, hT, clamp_color_pack _ _ _ _ (field_lt _ _) (field_lt _ _) (field_lt _ _),
    clamp_color_pack _ _ _ _ (field_lt _ _) (field_lt _ _) (field_lt _ _)] at h
  rw [hS, LO_PIXEL_CLAMP_pack _ _ _ _ (field_lt _ _) (field_lt _ _) (field_lt _ _)]
  have a1 := clamp7_lt (field S 2 % 512)
  have a2 := clamp7_lt (field S 1 % 512)
  have a3 := clamp7_lt (field S 0 % 512)
  have b1 := clamp7_lt (field T 2 % 512)
  have b2 := clamp7_lt (field T 1 % 512)
  have b3 := clamp7_lt (field T 0 % 512)
  unfold pack at h
  have c1 : clamp7 (field S 2 % 512) = clamp7 (field T 2 % 512) := by omega
  have c2 : clamp7 (field S 1 % 512) = clamp7 (field T 1 % 512) := by omega
  have c3 : clamp7 (field S 0 % 512) = clamp7 (field T 0 % 512) := by omega
  rw [c1, c2, c3]

theorem channel_MAKE_KRGB (r g b : Int)
    (hr : -0x100 ≤ (r + 16) / 32 ∧ (r + 16) / 32 ≤ 0xFF)
    (hg : -0x100 ≤ (g + 16) / 32 ∧ (g + 16) / 32 ≤ 0xFF)
    (hb : -0x100 ≤ (b + 16) / 32 ∧ (b + 16) / 32 ≤ 0xFF) :
    channel (MAKE_KRGB r g b) 2 = (r + 16) / 32 ∧ channel (MAKE_KRGB r g b) 1 = (g + 16) / 32 ∧
      channel (MAKE_KRGB r g b) 0 = (b + 16) / 32 := by
  have hbias : bias = 0x100 * 2 ^ 20 + 0x100 * 2 ^ 10 + 0x100 := by decide
  unfold channel field add32 MAKE_KRGB wordMod
  simp only [Nat.shiftRight_eq_div_pow, hbias]
  generalize (r + 16) / 32 = R at *
  generalize (g + 16) / 32 = G at *
  generalize (b + 16) / 32 = B at *
  push_cast
  omega

/-! ## C1: solid fields -/

/-- C1 (solid-field convergence, standard blit).  Let `adjust_kernel` return the table memory
`mem'` for the desired colour word `color`, with either value of `merge_fields` and any
contents of the entry at `out`.  Then in each burst slice and for every `x < 16` the sum
`raw` that `PIXEL( x )` of `snes_ntsc_blit` forms with all six pointers at that slice gives,
after `CLAMP_RGB( raw, 0 )`, the RGB565 pixel of `color` with each signed channel clamped to
`0 .. 0x7F` and cut to its top five bits: as `LO_PIXEL` for the left pixel of a word and,
shifted by 16, as `HI_PIXEL` for the right one.  The channels of `MAKE_KRGB( r, g, b )` are
the rounded `(r + 16) >> 5`, `(g + 16) >> 5`, `(b + 16) >> 5` when these lie in `-0x100 .. 0xFF`. -/
theorem solid_field_standard (fuel color : Nat) (merge_fields : Int) (mem mem' : Arr Nat Nat)
    (out burst x : Nat) (h : adjust_kernel fuel color merge_fields mem out = some mem')
    (hb : burst < burst_count) (hx : x < 16) :
    (LO_PIXEL (CLAMP_RGB (blit_raw mem'.get (out + burst * burst_entry_size)
        (out + burst * burst_entry_size) (out + burst * burst_entry_size)
        (out + burst * burst_entry_size) (out + burst * burst_entry_size)
        (out + burst * burst_entry_size) x) 0) 0 =
      rgb565 (clampCh (channel color 2)) (clampCh (channel color 1)) (clampCh (channel color 0)) ∧
    HI_PIXEL (CLAMP_RGB (blit_raw mem'.get (out + burst * burst_entry_size)
        (out + burst * burst_entry_size) (out + burst * burst_entry_size)
        (out + burst * burst_entry_size) (out + burst * burst_entry_size)
        (out + burst * burst_entry_size) x) 0) 0 =
      rgb565 (clampCh (channel color 2)) (clampCh (channel color 1)) (clampCh (channel color 0))
        <<< 16) ∧
    ∀ r g b : Int, -0x100 ≤ (r + 16) / 32 ∧ (r + 16) / 32 ≤ 0xFF →
      -0x100 ≤ (g + 16) / 32 ∧ (g + 16) / 32 ≤ 0xFF →
      -0x100 ≤ (b + 16) / 32 ∧ (b + 16) / 32 ≤ 0xFF →
      channel (MAKE_KRGB r g b) 2 = (r + 16) / 32 ∧ channel (MAKE_KRGB r g b) 1 = (g + 16) / 32 ∧
        channel (MAKE_KRGB r g b) 0 = (b + 16) / 32 := by
  refine ⟨?_, channel_MAKE_KRGB⟩
  have hbs : burst_entry_size = 48 := rfl
  have hbc : burst_count = 3 := rfl
  rw [hbs]
  rw [hbc] at hb
  have hgood : clamp_color (solid_raw mem'.get (out + burst * 48) x) =
      clamp_color (add32 color bias) := by
    rcases Nat.lt_or_ge x 8 with hx8 | hx8
    · exact adjust_kernel_spec fuel color merge_fields mem mem' out h burst hb x hx8
    · have e : x = (x - 8) + 8 := by omega
      rw [e, solid_raw_add8 _ _ _ (by omega)]
      exact adjust_kernel_spec fuel color merge_fields mem mem' out h burst hb (x - 8) (by omega)
  have hlo := LO_PIXEL_of_clamp_color _ _ hgood
  unfold solid_raw at hlo
  have hch : ∀ k, clamp7 (field (add32 color bias) k % 512) = clampCh (channel color k) := by
    intro k
    rw [clamp7_eq _ (Nat.mod_lt _ (by omega))]
    rfl
  rw [hch, hch, hch] at hlo
  refine ⟨hlo, ?_⟩
  rw [HI_PIXEL_eq _ 0 (by omega), hlo, Nat.shiftLeft_eq]

/-- Witness of C1: a table entry and a colour on which `adjust_kernel` returns after
merging and correcting, and the pixel its solid field gives. -/
theorem solid_field_standard_witness :
    ∃ mem', adjust_kernel 300 (MAKE_KRGB 2000 1000 500) 1 ⟨fun i => 7 * i⟩ 144 = some mem' ∧
      LO_PIXEL (CLAMP_RGB (blit_raw mem'.get (144 + 1 * burst_entry_size)
        (144 + 1 * burst_entry_size) (144 + 1 * burst_entry_size) (144 + 1 * burst_entry_size)
        (144 + 1 * burst_entry_size) (144 + 1 * burst_entry_size) 9) 0) 0 = 0x79C4 := by
  have hs : (adjust_kernel 300 (MAKE_KRGB 2000 1000 500) 1 ⟨fun i => 7 * i⟩ 144).isSome = true := by
    decide
  obtain ⟨mem', h⟩ := Option.isSome_iff_exists.1 hs
  exact ⟨mem', h, ((solid_field_standard 300 (MAKE_KRGB 2000 1000 500) 1 ⟨fun i => 7 * i⟩ mem'
    144 1 9 h (by decide) (by decide)).1.1).trans (by decide)⟩

/-! ## C2: rows and burst phases -/

theorem blit_chunks_ptr (emu : Nat → Nat) (inp : Int → Nat) (table : Nat) :
    ∀ (n : Nat) (in_ out : Int) (k : Taps),
      (blit_chunks emu inp table n in_ out k).2.1 = in_ + 12 * n ∧
        (blit_chunks emu inp table n in_ out k).2.2.1 = out + 32 * n := by
  intro n
  induction n with
  | zero => intro in_ out k; simp [blit_chunks]
  | succ n ih =>
    intro in_ out k
    simp only [blit_chunks]
    obtain ⟨h1, h2⟩ := ih (in_ + 2 * 6) (out + 4 * 8) (blit_chunk emu inp table in_ out k).2
    rw [h1, h2]
    push_cast
    constructor <;> ring

theorem blit_row_ptr (emu : Nat → Nat) (inp : Int → Nat) (burst chunks : Nat) (in_ out : Int) :
    (blit_row emu inp burst chunks in_ out).2 = (in_ + 4 + 12 * chunks, out + 32 * chunks) := by
  unfold blit_row
  simp only []
  obtain ⟨h1, h2⟩ := blit_chunks_ptr emu inp (burst * burst_entry_size) chunks (in_ + 2 * 2) out
    ⟨burst * burst_entry_size, burst * burst_entry_size, burst * burst_entry_size,
      ENTRY (burst * burst_entry_size) (inp (in_ + 2 * 0)),
      ENTRY (burst * burst_entry_size) (inp (in_ + 2 * 1))⟩
  rw [h1, h2]
  norm_num

theorem ENTRY_zero (table : Nat) : ENTRY table 0 = table := by
  simp [ENTRY]

theorem blit_tail_eq_take (emu : Nat → Nat) (inp inp' : Int → Nat) (table : Nat)
    (in_ in' out : Int) (k : Taps)
    (h0 : inp' (in' + 2 * 0) = inp (in_ + 2 * 0)) (h1 : inp' (in' + 2 * 1) = inp (in_ + 2 * 1))
    (h2 : inp' (in' + 2 * 2) = 0) (h3 : inp' (in' + 2 * 3) = 0) (h4 : inp' (in' + 2 * 4) = 0) :
    blit_tail emu inp table in_ out k = (blit_chunk emu inp' table in' out k).1.take 6 := by
  unfold blit_tail blit_chunk
  simp only [h0, h1, h2, h3, h4, ENTRY_zero, PIXEL]
  simp

theorem blit_chunk_length (emu : Nat → Nat) (inp : Int → Nat) (table : Nat) (in_ out : Int)
    (k : Taps) : (blit_chunk emu inp table in_ out k).1.length = 8 := by
  unfold blit_chunk
  simp [PIXEL]

theorem blit_chunk_congr (emu : Nat → Nat) (inp inp' : Int → Nat) (table : Nat) (in_ out : Int)
    (k : Taps) (h : ∀ j : Nat, j < 6 → inp' (in_ + 2 * j) = inp (in_ + 2 * j)) :
    blit_chunk emu inp' table in_ out k = blit_chunk emu inp table in_ out k := by
  have h0 := h 0 (by omega)
  have h1 := h 1 (by omega)
  have h2 := h 2 (by omega)
  have h3 := h 3 (by omega)
  have h4 := h 4 (by omega)
  have h5 := h 5 (by omega)
  simp only [Nat.cast_zero, Nat.cast_one, Nat.cast_ofNat] at h0 h1 h2 h3 h4 h5
  unfold blit_chunk
  rw [h0, h1, h2, h3, h4, h5]

theorem blit_chunks_length (emu : Nat → Nat) (inp : Int → Nat) (table : Nat) :
    ∀ (n : Nat) (in_ out : Int) (k : Taps),
      (blit_chunks emu inp table n in_ out k).1.length = 8 * n := by
  intro n
  induction n with
  | zero => intro in_ out k; simp [blit_chunks]
  | succ n ih =>
    intro in_ out k
    simp only [blit_chunks, List.length_append, ih, blit_chunk_length]
    omega

theorem blit_chunks_congr (emu : Nat → Nat) (inp inp' : Int → Nat) (table : Nat) :
    ∀ (n : Nat) (in_ out : Int) (k : Taps),
      (∀ j : Nat, j < 6 * n → inp' (in_ + 2 * j) = inp (in_ + 2 * j)) →
      blit_chunks emu inp' table n in_ out k = blit_chunks emu inp table n in_ out k := by
  intro n
  induction n with
  | zero => intro in_ out k _; simp [blit_chunks]
  | succ n ih =>
    intro in_ out k h
    simp only [blit_chunks]
    rw [blit_chunk_congr emu inp inp' table in_ out k (fun j hj => h j (by omega)),
      ih (in_ + 2 * 6) (out + 4 * 8) _ (fun j hj => by
        have := h (j + 6) (by omega)
        have e : in_ + 2 * ((j + 6 : Nat) : Int) = in_ + 2 * 6 + 2 * (j : Int) := by
          push_cast; ring
        rw [e] at this
        exact this)]

theorem blit_chunks_succ_last (emu : Nat → Nat) (inp : Int → Nat) (table : Nat) :
    ∀ (n : Nat) (in_ out : Int) (k : Taps),
      blit_chunks emu inp table (n + 1) in_ out k =
        ((blit_chunks emu inp table n in_ out k).1 ++
            (blit_chunk emu inp table (in_ + 12 * n) (out + 32 * n)
              (blit_chunks emu inp table n in_ out k).2.2.2).1,
          (in_ + 12 * (n + 1 : Nat), out + 32 * (n + 1 : Nat),
            (blit_chunk emu inp table (in_ + 12 * n) (out + 32 * n)
              (blit_chunks emu inp table n in_ out k).2.2.2).2)) := by
  intro n
  induction n with
  | zero => intro in_ out k; simp [blit_chunks]
  | succ n ih =>
    intro in_ out k
    rw [blit_chunks, ih]
    simp only [blit_chunks, List.append_assoc]
    have e1 : in_ + 2 * 6 + 12 * (n : Int) = in_ + 12 * ((n + 1 : Nat) : Int) := by
      push_cast; ring
    have e2 : out + 4 * 8 + 32 * (n : Int) = out + 32 * ((n + 1 : Nat) : Int) := by
      push_cast; ring
    have e3 : in_ + 2 * 6 + 12 * ((n + 1 : Nat) : Int) = in_ + 12 * ((n + 1 + 1 : Nat) : Int) := by
      push_cast; ring
    have e4 : out + 4 * 8 + 32 * ((n + 1 : Nat) : Int) = out + 32 * ((n + 1 + 1 : Nat) : Int) := by
      push_cast; ring
    rw [e1, e2, e3, e4]

theorem chunk_count_eq (c : Nat) (hc : 16 * c + 12 < 2 ^ 32) :
    chunk_count ((16 * c + 12 : Nat) : Int) = c := by
  unfold chunk_count wordMod
  have e : (((16 * c + 12 : Nat) : Int) - 12) % ((2 ^ 32 : Nat) : Int) = ((16 * c : Nat) : Int) := by
    push_cast
    omega
  rw [e, Int.toNat_ofNat]
  omega

/-- C3 (edge handling).  Let the source row at `in` hold `6 c + 4` pixels (output width
`16 c + 12`), and let `inp'` hold the same row followed by three pixels of code 0 and by any
three more.  Then the row `snes_ntsc_blit` stores for `inp` is the first `16 c + 12` pixels
(`8 c + 6` words, same addresses) of the row it stores for `inp'` at width `16 (c + 1) + 12`.
In particular the final block of a row stores the first six words of a full chunk whose
third to fifth pixels are black, for any table, pointers and carried taps. -/
theorem edge_handling (emu : Nat → Nat) (inp inp' : Int → Nat) (in_ in_pitch in_pitch' : Int)
    (burst c : Nat) (vout out_pitch out_pitch' : Int) (hc : 16 * (c + 1) + 12 < 2 ^ 31)
    (hag : ∀ j : Nat, j < 6 * c + 4 → inp' (in_ + 2 * j) = inp (in_ + 2 * j))
    (hblack : ∀ j : Nat, 6 * c + 4 ≤ j → j < 6 * c + 7 → inp' (in_ + 2 * j) = 0) :
    snes_ntsc_blit_stores emu inp in_ in_pitch burst ((16 * c + 12 : Nat) : Int) 1 vout out_pitch =
      (snes_ntsc_blit_stores emu inp' in_ in_pitch' burst ((16 * (c + 1) + 12 : Nat) : Int) 1 vout
        out_pitch').take (8 * c + 6) ∧
    ∀ (table : Nat) (i o : Int) (k : Taps),
      inp' (i + 2 * 0) = inp (i + 2 * 0) → inp' (i + 2 * 1) = inp (i + 2 * 1) →
      inp' (i + 2 * 2) = 0 → inp' (i + 2 * 3) = 0 → inp' (i + 2 * 4) = 0 →
      blit_tail emu inp table i o k = (blit_chunk emu inp' table i o k).1.take 6 := by
  refine ⟨?_, fun table i o k h0 h1 h2 h3 h4 =>
    blit_tail_eq_take emu inp inp' table i i o k h0 h1 h2 h3 h4⟩
  unfold snes_ntsc_blit_stores
  rw [chunk_count_eq c (by omega), chunk_count_eq (c + 1) (by omega)]
  simp only [blit_rows, List.append_nil]
  unfold blit_row
  simp only []
  have a0 := hag 0 (by omega)
  have a1 := hag 1 (by omega)
  simp only [Nat.cast_zero, Nat.cast_one] at a0 a1
  rw [a0, a1, blit_chunks_succ_last]
  simp only []
  have hcg := blit_chunks_congr emu inp inp' (burst * burst_entry_size) c (in_ + 2 * 2) vout
    ⟨burst * burst_entry_size, burst * burst_entry_size, burst * burst_entry_size,
      ENTRY (burst * burst_entry_size) (inp (in_ + 2 * 0)),
      ENTRY (burst * burst_entry_size) (inp (in_ + 2 * 1))⟩
    (fun j hj => by
      have := hag (j + 2) (by omega)
      have e : in_ + 2 * ((j + 2 : Nat) : Int) = in_ + 2 * 2 + 2 * (j : Int) := by
        push_cast; ring
      rw [e] at this
      exact this)
  rw [hcg]
  generalize hr : blit_chunks emu inp (burst * burst_entry_size) c (in_ + 2 * 2) vout
    ⟨burst * burst_entry_size, burst * burst_entry_size, burst * burst_entry_size,
      ENTRY (burst * burst_entry_size) (inp (in_ + 2 * 0)),
      ENTRY (burst * burst_entry_size) (inp (in_ + 2 * 1))⟩ = r
  have hlen : r.1.length = 8 * c := by rw [← hr]; exact blit_chunks_length _ _ _ _ _ _ _
  have hptr := blit_chunks_ptr emu inp (burst * burst_entry_size) c (in_ + 2 * 2) vout
    ⟨burst * burst_entry_size, burst * burst_entry_size, burst * burst_entry_size,
      ENTRY (burst * burst_entry_size) (inp (in_ + 2 * 0)),
      ENTRY (burst * burst_entry_size) (inp (in_ + 2 * 1))⟩
  rw [hr] at hptr
  obtain ⟨hp1, hp2⟩ := hptr
  rw [hp1, hp2]
  have b0 := hag (6 * c + 2) (by omega)
  have b1 := hag (6 * c + 3) (by omega)
  have b2 := hblack (6 * c + 4) (by omega) (by omega)
  have b3 := hblack (6 * c + 5) (by omega) (by omega)
  have b4 := hblack (6 * c + 6) (by omega) (by omega)
  have ea : ∀ d n : Nat, n = 6 * c + 2 + d →
      in_ + 2 * 2 + 12 * (c : Int) + 2 * (d : Int) = in_ + 2 * (n : Int) := by
    intro d n hn; subst hn; push_cast; ring
  have ht := blit_tail_eq_take emu inp inp' (burst * burst_entry_size) (in_ + 2 * 2 + 12 * c)
    (in_ + 2 * 2 + 12 * c) (vout + 32 * c) r.2.2.2
    (by have e := ea 0 (6 * c + 2) rfl; simp only [Nat.cast_zero] at e; rw [e]; exact b0)
    (by have e := ea 1 (6 * c + 3) rfl; simp only [Nat.cast_one] at e; rw [e]; exact b1)
    (by have e := ea 2 (6 * c + 4) rfl; simp only [Nat.cast_ofNat] at e; rw [e]; exact b2)
    (by have e := ea 3 (6 * c + 5) rfl; simp only [Nat.cast_ofNat] at e; rw [e]; exact b3)
    (by have e := ea 4 (6 * c + 6) rfl; simp only [Nat.cast_ofNat] at e; rw [e]; exact b4)
  rw [ht, List.append_assoc]
  have e6 : 8 * c + 6 = r.1.length + 6 := by omega
  rw [e6, List.take_append, List.take_append_of_le_length]
  rw [blit_chunk_length]
  omega

/-- Witness of C3: a row of ten pixels, and the same row followed by three black pixels and
three pixels of code 777. -/
theorem edge_handling_witness :
    16 * (1 + 1) + 12 < 2 ^ 31 ∧
    snes_ntsc_blit_stores (fun i => 3 * i + 1) (fun a => a.toNat * 37) 0 20 1
        ((16 * 1 + 12 : Nat) : Int) 1 100 64 =
      (snes_ntsc_blit_stores (fun i => 3 * i + 1)
        (fun a => if a < 20 then a.toNat * 37 else if a < 26 then 0 else 777) 0 32 1
        ((16 * (1 + 1) + 12 : Nat) : Int) 1 100 64).take (8 * 1 + 6) :=
  ⟨by decide,
    (edge_handling (fun i => 3 * i + 1) (fun a => a.toNat * 37)
      (fun a => if a < 20 then a.toNat * 37 else if a < 26 then 0 else 777) 0 20 32 1 1 100 64 64
      (by decide)
      (fun j hj => by
        have h : (0 : Int) + 2 * (j : Int) < 20 := by omega
        simp only [h, if_true])
      (fun j h1 h2 => by
        have h : ¬ ((0 : Int) + 2 * (j : Int) < 20) := by omega
        have h' : (0 : Int) + 2 * (j : Int) < 26 := by omega
        simp only [h, h', if_true, if_false])).1⟩

/-! ## C4: the clamp -/

theorem field_pack (t a b c : Nat) (ha : a < 1024) (hb : b < 1024) (hc : c < 1024) :
    field (pack t a b c) 2 = a ∧ field (pack t a b c) 1 = b ∧ field (pack t a b c) 0 = c := by
  unfold field pack
  simp only [Nat.shiftRight_eq_div_pow]
  omega

theorem CLAMP_RGB_zero_fields (w : Nat) :
    CLAMP_RGB w 0 = pack 0 (clampField (field w 2) (field w 2 / 128 % 4))
      (clampField (field w 1) (field w 1 / 128 % 4))
      (clampField (field w 0) (field w 0 / 128 % 4)) := by
  have hw := pack_fields w
  have e1 : (w >>> (7 + 0)) / 2 ^ 20 % 4 = field w 2 / 128 % 4 := by
    unfold field; simp only [Nat.shiftRight_eq_div_pow]; omega
  have e2 : (w >>> (7 + 0)) / 2 ^ 10 % 4 = field w 1 / 128 % 4 := by
    unfold field; simp only [Nat.shiftRight_eq_div_pow]; omega
  have e3 : (w >>> (7 + 0)) % 4 = field w 0 / 128 % 4 := by
    unfold field; simp only [Nat.shiftRight_eq_div_pow]; omega
  rw [← e1, ← e2, ← e3]
  have h := CLAMP_RGB_pack (w / 2 ^ 30) (field w 2) (field w 1) (field w 0) 0 (field_lt _ _)
    (field_lt _ _) (field_lt _ _)
  rw [← hw] at h
  exact h

/-- C4 (`CLAMP_RGB` clamps every channel on its own).  Let the three 10-bit fields of the
32-bit word `w` hold `s + 0x100` for signed channels `s` in `-256 .. 255`.  After
`CLAMP_RGB( w, 0 )` bits 2..6 of each field are bits 2..6 of `min (max s 0) 0x7F` for the
channel of that field alone, and `CLAMP_RGB` at `adj = 2` of the word shifted left by 2,
followed by `>> 2 & MAKE_KMASK( 0x7F )`, holds all seven bits of `min (max s 0) 0x7F` in
each field. -/
theorem clamp_per_channel (w : Nat) (s : Nat → Int) (hw : w < 2 ^ 32)
    (hs : ∀ k < 3, -256 ≤ s k ∧ s k ≤ 255 ∧ (field w k : Int) = s k + 0x100) :
    ∀ k < 3,
      (field (CLAMP_RGB w 0) k >>> 2) &&& 0x1F = (clampCh (s k) >>> 2) &&& 0x1F ∧
      field ((CLAMP_RGB (shl32 w 2) 2 >>> 2) &&& MAKE_KMASK 0x7F) k = clampCh (s k) := by
  have _ := hw
  have hcc : (CLAMP_RGB (shl32 w 2) 2 >>> 2) &&& MAKE_KMASK 0x7F = clamp_color w := rfl
  have hc7 : ∀ k < 3, clamp7 (field w k % 512) = clampCh (s k) := by
    intro k hk
    obtain ⟨h1, h2, h3⟩ := hs k hk
    have hlt : field w k < 512 := by omega
    rw [Nat.mod_eq_of_lt hlt, clamp7_eq _ hlt]
    congr 1
    omega
  have h0 := CLAMP_RGB_zero_fields w
  have hp := pack_fields w
  have h2 : clamp_color w = pack 0 (clamp7 (field w 2 % 512)) (clamp7 (field w 1 % 512))
      (clamp7 (field w 0 % 512)) := by
    have := clamp_color_pack (w / 2 ^ 30) (field w 2) (field w 1) (field w 0) (field_lt _ _)
      (field_lt _ _) (field_lt _ _)
    rw [← hp] at this
    exact this
  have f0 := field_pack 0 _ _ _ (clampField_lt (field w 2) (field w 2 / 128 % 4))
    (clampField_lt (field w 1) (field w 1 / 128 % 4))
    (clampField_lt (field w 0) (field w 0 / 128 % 4))
  have f2 := field_pack 0 (clamp7 (field w 2 % 512)) (clamp7 (field w 1 % 512))
    (clamp7 (field w 0 % 512)) (by have := clamp7_lt (field w 2 % 512); omega)
    (by have := clamp7_lt (field w 1 % 512); omega) (by have := clamp7_lt (field w 0 % 512); omega)
  rw [← h0] at f0
  rw [← h2] at f2
  rw [hcc]
  intro k hk
  have key : ∀ v < 1024, (clampField v (v / 128 % 4) >>> 2) &&& 0x1F =
      (clamp7 (v % 512) >>> 2) &&& 0x1F := by
    intro v hv
    have := clampField_adj0 v hv
    have l := clamp7_lt (v % 512)
    rw [and_mask5, and_mask5, Nat.shiftRight_eq_div_pow, Nat.shiftRight_eq_div_pow]
    omega
  have hk3 : k = 0 ∨ k = 1 ∨ k = 2 := by omega
  rcases hk3 with rfl | rfl | rfl
  · rw [f0.2.2, f2.2.2, key _ (field_lt _ _), hc7 0 (by omega)]
    exact ⟨rfl, rfl⟩
  · rw [f0.2.1, f2.2.1, key _ (field_lt _ _), hc7 1 (by omega)]
    exact ⟨rfl, rfl⟩
  · rw [f0.1, f2.1, key _ (field_lt _ _), hc7 2 (by omega)]
    exact ⟨rfl, rfl⟩

/-- Witness of C4: red 300 over the range, green negative, blue 0x55 inside the range. -/
theorem clamp_per_channel_witness :
    (field (CLAMP_RGB 0x1C800D55 0) 2 >>> 2) &&& 0x1F = 0x1F ∧
      field ((CLAMP_RGB (shl32 0x1C800D55 2) 2 >>> 2) &&& MAKE_KMASK 0x7F) 0 = 0x55 := by
  have h := clamp_per_channel 0x1C800D55 (fun k => if k = 2 then 200 else if k = 1 then -0xFD
    else 0x55) (by decide) (by decide)
  exact ⟨(h 2 (by decide)).1.trans (by decide), (h 0 (by decide)).2.trans (by decide)⟩

/-! ## C5: the output pixel format -/

theorem and_one (x : Nat) : x &&& 1 = x % 2 := Nat.and_pow_two_sub_one_eq_mod x 1

theorem LO_PIXEL_lt (w adj : Nat) : LO_PIXEL w adj < 2 ^ 16 := by
  rw [LO_PIXEL_eq]
  omega

theorem LO_PIXEL_bit5 (w adj : Nat) : LO_PIXEL w adj &&& 0x20 = 0 := by
  rw [LO_PIXEL_eq]
  have h : (0x20 : Nat) = 1 * 2 ^ 5 := by decide
  rw [h, and_shifted_mask, and_one]
  omega

theorem LO_PIXEL_rgb565 (w adj : Nat) (hadj : adj ≤ 1) :
    LO_PIXEL w adj = rgb565 ((w >>> (20 + adj)) &&& 0x7F) ((w >>> (10 + adj)) &&& 0x7F)
      ((w >>> (0 + adj)) &&& 0x7F) := by
  rw [LO_PIXEL_eq, and_mask7, and_mask7, and_mask7,
    rgb565_eq _ _ _ (Nat.mod_lt _ (by omega)) (Nat.mod_lt _ (by omega))]
  simp only [Nat.shiftRight_eq_div_pow]
  have hc : adj = 0 ∨ adj = 1 := by omega
  rcases hc with rfl | rfl <;> omega

theorem two_pixels (p q adj : Nat) (hadj : adj ≤ 1) :
    LEFT_PIXEL p adj ||| RIGHT_PIXEL q adj = LO_PIXEL p adj + 2 ^ 16 * LO_PIXEL q adj := by
  unfold LEFT_PIXEL RIGHT_PIXEL
  rw [HI_PIXEL_eq _ _ hadj, Nat.lor_comm, or_disjoint _ _ _ (LO_PIXEL_lt p adj)]
  omega

theorem blit_chunk_twoPixels (emu : Nat → Nat) (inp : Int → Nat) (table : Nat) (in_ out : Int)
    (k : Taps) : ∀ s ∈ (blit_chunk emu inp table in_ out k).1, twoPixels 0 s.2 := by
  intro s hs
  unfold blit_chunk at hs
  simp [PIXEL, MAKE_RGB, two_pixels] at hs
  rcases hs with rfl | rfl | rfl | rfl | rfl | rfl | rfl | rfl <;> exact ⟨_, _, rfl⟩

theorem blit_tail_twoPixels (emu : Nat → Nat) (inp : Int → Nat) (table : Nat) (in_ out : Int)
    (k : Taps) : ∀ s ∈ blit_tail emu inp table in_ out k, twoPixels 0 s.2 := by
  intro s hs
  unfold blit_tail at hs
  simp [PIXEL, MAKE_RGB, two_pixels] at hs
  rcases hs with rfl | rfl | rfl | rfl | rfl | rfl <;> exact ⟨_, _, rfl⟩

theorem blit_chunks_twoPixels (emu : Nat → Nat) (inp : Int → Nat) (table : Nat) :
    ∀ (n : Nat) (in_ out : Int) (k : Taps),
      ∀ s ∈ (blit_chunks emu inp table n in_ out k).1, twoPixels 0 s.2 := by
  intro n
  induction n with
  | zero => intro in_ out k s hs; simp [blit_chunks] at hs
  | succ n ih =>
    intro in_ out k s hs
    simp only [blit_chunks, List.mem_append] at hs
    rcases hs with hs | hs
    · exact blit_chunk_twoPixels _ _ _ _ _ _ s hs
    · exact ih _ _ _ s hs

theorem blit_rows_twoPixels (emu : Nat → Nat) (inp : Int → Nat) (chunks : Nat) (nil nol : Int) :
    ∀ (h : Nat) (in_ : Int) (b : Nat) (out : Int),
      ∀ s ∈ blit_rows emu inp chunks nil nol h in_ b out, twoPixels 0 s.2 := by
  intro h
  induction h with
  | zero => intro in_ b out s hs; simp [blit_rows] at hs
  | succ n ih =>
    intro in_ b out s hs
    simp only [blit_rows, blit_row, List.mem_append] at hs
    rcases hs with (hs | hs) | hs
    · exact blit_chunks_twoPixels _ _ _ _ _ _ _ s hs
    · exact blit_tail_twoPixels _ _ _ _ _ _ s hs
    · exact ih _ _ _ s hs

/-- C5 (output pixel format).  Every word `snes_ntsc_blit` stores holds two RGB565 pixels:
the pixel `LO_PIXEL` of a clamped sum in its low half and that of the next sum in its high
half.  For every word `w` (clamped or not) and `adj` 0 or 1, `HI_PIXEL( w, adj )` is
`LO_PIXEL( w, adj ) << 16`; `LO_PIXEL( w, adj )` is below `2^16`, holds the top five bits of
the 7-bit red, green and blue channels of `w` (bits `adj .. adj + 6` of the fields at 20, 10
and 0) at bits 11..15, 6..10 and 0..4, and has bit 5 clear. -/
theorem output_pixel_format (emu : Nat → Nat) (inp : Int → Nat) (in_ in_pitch : Int)
    (burst : Nat) (width : Int) (height : Nat) (vout out_pitch : Int) :
    (∀ s ∈ snes_ntsc_blit_stores emu inp in_ in_pitch burst width height vout out_pitch,
      ∃ raw0 raw1 : Nat,
        s.2 = LO_PIXEL (CLAMP_RGB raw0 0) 0 + 2 ^ 16 * LO_PIXEL (CLAMP_RGB raw1 0) 0) ∧
    ∀ w adj : Nat, adj ≤ 1 →
      HI_PIXEL w adj = LO_PIXEL w adj <<< 16 ∧ LO_PIXEL w adj < 2 ^ 16 ∧
      LO_PIXEL w adj = ((((w >>> (20 + adj)) &&& 0x7F) >>> 2) <<< 11) |||
        ((((w >>> (10 + adj)) &&& 0x7F) >>> 2) <<< 6) ||| (((w >>> (0 + adj)) &&& 0x7F) >>> 2) ∧
      LO_PIXEL w adj &&& 0x20 = 0 := by
  constructor
  · intro s hs
    exact blit_rows_twoPixels _ _ _ _ _ _ _ _ _ s hs
  · intro w adj hadj
    refine ⟨?_, LO_PIXEL_lt w adj, LO_PIXEL_rgb565 w adj hadj, LO_PIXEL_bit5 w adj⟩
    rw [HI_PIXEL_eq _ _ hadj, Nat.shiftLeft_eq]

/-- Witness of C5: the first word of a blit of two rows, and the pixels of one clamped word. -/
theorem output_pixel_format_witness :
    (∃ raw0 raw1 : Nat,
      2031647 = LO_PIXEL (CLAMP_RGB raw0 0) 0 + 2 ^ 16 * LO_PIXEL (CLAMP_RGB raw1 0) 0) ∧
    HI_PIXEL 0x1FC7F1FC 1 = LO_PIXEL 0x1FC7F1FC 1 <<< 16 ∧ LO_PIXEL 0x1FC7F1FC 1 &&& 0x20 = 0 :=
  ⟨(output_pixel_format (fun i => if i < 144 then bias else i) (fun a => a.toNat) 0 8 0 12 2 100
      40).1 (100, 2031647) (by decide),
    ((output_pixel_format (fun _ => 0) (fun _ => 0) 0 0 0 12 0 0 0).2 0x1FC7F1FC 1 (by decide)).1,
    ((output_pixel_format (fun _ => 0) (fun _ => 0) 0 0 0 12 0 0 0).2 0x1FC7F1FC 1
      (by decide)).2.2.2⟩

/-! ## C6: decoding of the source pixel -/

theorem and_mask9 (x : Nat) : x &&& 0x1FF = x % 512 := Nat.and_pow_two_sub_one_eq_mod x 9

theorem entry_index_eq (n : Nat) :
    (n &&& 0x03FE) ||| ((n >>> 1) &&& 0x3C00) = n / 2 % 512 * 2 + n / 2 ^ 11 % 16 * 2 ^ 10 := by
  have h1 : (0x03FE : Nat) = 0x1FF * 2 ^ 1 := by decide
  have h2 : (0x3C00 : Nat) = 15 * 2 ^ 10 := by decide
  rw [h1, h2, and_shifted_mask, and_shifted_mask, and_mask9, and_mask4,
    Nat.shiftRight_eq_div_pow, Nat.div_div_eq_div_mul, Nat.lor_comm,
    or_disjoint _ _ _ (by omega : n / 2 ^ 1 % 512 * 2 ^ 1 < 2 ^ 10)]
  omega

theorem entry_of_eq (n : Nat) :
    entry_of n = n / 2 % 16 + n / 32 % 32 * 2 ^ 4 + n / 2 ^ 11 % 16 * 2 ^ 9 := by
  unfold entry_of
  rw [and_mask4, and_mask5, and_mask4, Nat.shiftLeft_eq, Nat.shiftLeft_eq,
    Nat.shiftRight_eq_div_pow, Nat.shiftRight_eq_div_pow, Nat.shiftRight_eq_div_pow,
    Nat.lor_comm (n / 2 ^ 1 % 16), or_disjoint _ _ _ (by omega : n / 2 ^ 1 % 16 < 2 ^ 4)]
  have e : n / 2 ^ 5 % 32 * 2 ^ 4 + n / 2 ^ 1 % 16 < 2 ^ 9 := by omega
  rw [Nat.lor_comm, or_disjoint _ _ _ e]
  omega

theorem ENTRY_eq (table n : Nat) : ENTRY table n = table + entry_of n * snes_ntsc_entry_size := by
  unfold ENTRY
  rw [entry_index_eq, entry_of_eq]
  have h1 : snes_entry_factor = 288 := rfl
  have h2 : snes_ntsc_entry_size = 144 := rfl
  rw [h1, h2]
  omega

theorem mask_eq (n : Nat) : n &&& 0x7BFE = n / 2 % 512 * 2 + n / 2 ^ 11 % 16 * 2 ^ 11 := by
  have h := and_split 11 (n / 2 ^ 11) (n % 2 ^ 11) 15 0x3FE (Nat.mod_lt _ (by omega)) (by omega)
  rw [Nat.div_add_mod' n (2 ^ 11)] at h
  have h0 : (15 * 2 ^ 11 + 0x3FE : Nat) = 0x7BFE := by decide
  rw [h0] at h
  have h1 : (0x3FE : Nat) = 0x1FF * 2 ^ 1 := by decide
  rw [h, h1, and_shifted_mask, and_mask9, and_mask4]
  omega

theorem ENTRY_congr (table a b : Nat) (h : a &&& 0x7BFE = b &&& 0x7BFE) :
    ENTRY table a = ENTRY table b := by
  rw [mask_eq, mask_eq] at h
  unfold ENTRY
  rw [entry_index_eq, entry_index_eq]
  have e1 : a / 2 % 512 = b / 2 % 512 := by omega
  have e2 : a / 2 ^ 11 % 16 = b / 2 ^ 11 % 16 := by omega
  rw [e1, e2]

theorem ENTRY_flip (table n m : Nat) (hm : m &&& 0x7BFE = 0) :
    ENTRY table (n ^^^ m) = ENTRY table n := by
  apply ENTRY_congr
  rw [Nat.and_xor_distrib_right, hm, Nat.xor_zero]

theorem blit_chunk_congr_entry (emu : Nat → Nat) (inp inp' : Int → Nat) (table : Nat)
    (in_ out : Int) (k : Taps)
    (h : ∀ j : Nat, j < 6 → ∀ t, ENTRY t (inp' (in_ + 2 * j)) = ENTRY t (inp (in_ + 2 * j))) :
    blit_chunk emu inp' table in_ out k = blit_chunk emu inp table in_ out k := by
  have h0 := h 0 (by omega) table
  have h1 := h 1 (by omega) table
  have h2 := h 2 (by omega) table
  have h3 := h 3 (by omega) table
  have h4 := h 4 (by omega) table
  have h5 := h 5 (by omega) table
  simp only [Nat.cast_zero, Nat.cast_one, Nat.cast_ofNat] at h0 h1 h2 h3 h4 h5
  unfold blit_chunk
  rw [h0, h1, h2, h3, h4, h5]

theorem blit_tail_congr_entry (emu : Nat → Nat) (inp inp' : Int → Nat) (table : Nat)
    (in_ out : Int) (k : Taps)
    (h : ∀ j : Nat, j < 2 → ∀ t, ENTRY t (inp' (in_ + 2 * j)) = ENTRY t (inp (in_ + 2 * j))) :
    blit_tail emu inp' table in_ out k = blit_tail emu inp table in_ out k := by
  have h0 := h 0 (by omega) table
  have h1 := h 1 (by omega) table
  simp only [Nat.cast_zero, Nat.cast_one] at h0 h1
  unfold blit_tail
  rw [h0, h1]

theorem blit_chunks_congr_entry (emu : Nat → Nat) (inp inp' : Int → Nat) (table : Nat) :
    ∀ (n : Nat) (in_ out : Int) (k : Taps),
      (∀ j : Nat, j < 6 * n → ∀ t, ENTRY t (inp' (in_ + 2 * j)) = ENTRY t (inp (in_ + 2 * j))) →
      blit_chunks emu inp' table n in_ out k = blit_chunks emu inp table n in_ out k := by
  intro n
  induction n with
  | zero => intro in_ out k _; simp [blit_chunks]
  | succ n ih =>
    intro in_ out k h
    simp only [blit_chunks]
    rw [blit_chunk_congr_entry emu inp inp' table in_ out k (fun j hj => h j (by omega)),
      ih (in_ + 2 * 6) (out + 4 * 8) _ (fun j hj t => by
        have := h (j + 6) (by omega) t
        have e : in_ + 2 * ((j + 6 : Nat) : Int) = in_ + 2 * 6 + 2 * (j : Int) := by
          push_cast; ring
        rw [e] at this
        exact this)]

theorem blit_row_congr_entry (emu : Nat → Nat) (inp inp' : Int → Nat) (burst c : Nat)
    (in_ out : Int)
    (h : ∀ j : Nat, j < 6 * c + 4 → ∀ t, ENTRY t (inp' (in_ + 2 * j)) = ENTRY t (inp (in_ + 2 * j))) :
    blit_row emu inp' burst c in_ out = blit_row emu inp burst c in_ out := by
  unfold blit_row
  simp only []
  have h0 := h 0 (by omega) (burst * burst_entry_size)
  have h1 := h 1 (by omega) (burst * burst_entry_size)
  simp only [Nat.cast_zero, Nat.cast_one] at h0 h1
  rw [h0, h1]
  have hc := blit_chunks_congr_entry emu inp inp' (burst * burst_entry_size) c (in_ + 2 * 2) out
    ⟨burst * burst_entry_size, burst * burst_entry_size, burst * burst_entry_size,
      ENTRY (burst * burst_entry_size) (inp (in_ + 2 * 0)),
      ENTRY (burst * burst_entry_size) (inp (in_ + 2 * 1))⟩
    (fun j hj t => by
      have := h (j + 2) (by omega) t
      have e : in_ + 2 * ((j + 2 : Nat) : Int) = in_ + 2 * 2 + 2 * (j : Int) := by
        push_cast; ring
      rw [e] at this
      exact this)
  rw [hc]
  have hp := blit_chunks_ptr emu inp (burst * burst_entry_size) c (in_ + 2 * 2) out
    ⟨burst * burst_entry_size, burst * burst_entry_size, burst * burst_entry_size,
      ENTRY (burst * burst_entry_size) (inp (in_ + 2 * 0)),
      ENTRY (burst * burst_entry_size) (inp (in_ + 2 * 1))⟩
  rw [blit_tail_congr_entry emu inp inp' _ _ _ _ (fun j hj t => by
    have := h (6 * c + 2 + j) (by omega) t
    have e : in_ + 2 * ((6 * c + 2 + j : Nat) : Int) = in_ + 2 * 2 + 12 * (c : Int) + 2 * (j : Int) := by
      push_cast; ring
    rw [e, ← hp.1] at this
    exact this)]

/-- The stores of `snes_ntsc_blit` depend on the input only through the table entries of the
`6 c + 4` samples read from byte `in + r * in_pitch` on, for each row `r`. -/
theorem blit_rows_congr_entry (emu : Nat → Nat) (inp inp' : Int → Nat) (c : Nat) (P Q : Int) :
    ∀ (h : Nat) (in_ : Int) (b : Nat) (out : Int),
      (∀ r : Nat, r < h → ∀ j : Nat, j < 6 * c + 4 → ∀ t,
        ENTRY t (inp' (in_ + r * P + 2 * j)) = ENTRY t (inp (in_ + r * P + 2 * j))) →
      blit_rows emu inp' c (P - (c * 6 + 2 : Nat) * 2) (Q - (c : Int) * (16 * 2)) h in_ b out =
        blit_rows emu inp c (P - (c * 6 + 2 : Nat) * 2) (Q - (c : Int) * (16 * 2)) h in_ b out := by
  intro h
  induction h with
  | zero => intro in_ b out _; simp [blit_rows]
  | succ n ih =>
    intro in_ b out hyp
    simp only [blit_rows]
    have hrow := blit_row_congr_entry emu inp inp' b c in_ out (fun j hj t => by
      have := hyp 0 (by omega) j hj t
      simp only [Nat.cast_zero, zero_mul, add_zero] at this
      exact this)
    rw [hrow, blit_row_ptr]
    simp only []
    have e : in_ + 4 + 12 * (c : Int) + (P - ((c * 6 + 2 : Nat) : Int) * 2) = in_ + P := by
      push_cast; ring
    rw [e, ih (in_ + P) _ _ (fun r hr j hj t => by
      have := hyp (r + 1) (by omega) j hj t
      have e2 : in_ + ((r + 1 : Nat) : Int) * P = in_ + P + (r : Int) * P := by
        push_cast; ring
      rw [e2] at this
      exact this)]

theorem hires_chunks_ptr (emu : Nat → Nat) (inp : Int → Nat) (table : Nat) :
    ∀ (n : Nat) (in_ out : Int) (k : HiresTaps),
      (hires_chunks emu inp table n in_ out k).2.1 = in_ + 24 * n ∧
        (hires_chunks emu inp table n in_ out k).2.2.1 = out + 32 * n := by
  intro n
  induction n with
  | zero => intro in_ out k; simp [hires_chunks]
  | succ n ih =>
    intro in_ out k
    simp only [hires_chunks]
    obtain ⟨h1, h2⟩ := ih (in_ + 2 * 12) (out + 4 * 8) (hires_chunk emu inp table in_ out k).2
    rw [h1, h2]
    push_cast
    constructor <;> ring

theorem hires_row_ptr (emu : Nat → Nat) (inp : Int → Nat) (burst chunks : Nat) (in_ out : Int) :
    (hires_row emu inp burst chunks in_ out).2 = (in_ + 8 + 24 * chunks, out + 32 * chunks) := by
  unfold hires_row
  simp only []
  obtain ⟨h1, h2⟩ := hires_chunks_ptr emu inp (burst * burst_entry_size) chunks (in_ + 2 * 4) out
    ⟨burst * burst_entry_size, burst * burst_entry_size, burst * burst_entry_size,
      burst * burst_entry_size, burst * burst_entry_size, burst * burst_entry_size,
      burst * burst_entry_size,
      ENTRY (burst * burst_entry_size) (inp (in_ + 2 * 0)),
      ENTRY (burst * burst_entry_size) (inp (in_ + 2 * 1)),
      ENTRY (burst * burst_entry_size) (inp (in_ + 2 * 2)),
      ENTRY (burst * burst_entry_size) (inp (in_ + 2 * 3))⟩
  rw [h1, h2]
  norm_num

theorem hires_chunk_congr_entry (emu : Nat → Nat) (inp inp' : Int → Nat) (table : Nat)
    (in_ out : Int) (k : HiresTaps)
    (h : ∀ j : Nat, j < 12 → ∀ t, ENTRY t (inp' (in_ + 2 * j)) = ENTRY t (inp (in_ + 2 * j))) :
    hires_chunk emu inp' table in_ out k = hires_chunk emu inp table in_ out k := by
  have h0 := h 0 (by omega) table
  have h1 := h 1 (by omega) table
  have h2 := h 2 (by omega) table
  have h3 := h 3 (by omega) table
  have h4 := h 4 (by omega) table
  have h5 := h 5 (by omega) table
  have h6 := h 6 (by omega) table
  have h7 := h 7 (by omega) table
  have h8 := h 8 (by omega) table
  have h9 := h 9 (by omega) table
  have h10 := h 10 (by omega) table
  have h11 := h 11 (by omega) table
  simp only [Nat.cast_zero, Nat.cast_one, Nat.cast_ofNat] at h0 h1 h2 h3 h4 h5 h6 h7 h8 h9 h10 h11
  unfold hires_chunk
  rw [h0, h1, h2, h3, h4, h5, h6, h7, h8, h9, h10, h11]

theorem hires_tail_congr_entry (emu : Nat → Nat) (inp inp' : Int → Nat) (table : Nat)
    (in_ out : Int) (k : HiresTaps)
    (h : ∀ j : Nat, j < 4 → ∀ t, ENTRY t (inp' (in_ + 2 * j)) = ENTRY t (inp (in_ + 2 * j))) :
    hires_tail emu inp' table in_ out k = hires_tail emu inp table in_ out k := by
  have h0 := h 0 (by omega) table
  have h1 := h 1 (by omega) table
  have h2 := h 2 (by omega) table
  have h3 := h 3 (by omega) table
  simp only [Nat.cast_zero, Nat.cast_one, Nat.cast_ofNat] at h0 h1 h2 h3
  unfold hires_tail
  rw [h0, h1, h2, h3]

theorem hires_chunks_congr_entry (emu : Nat → Nat) (inp inp' : Int → Nat) (table : Nat) :
    ∀ (n : Nat) (in_ out : Int) (k : HiresTaps),
      (∀ j : Nat, j < 12 * n → ∀ t, ENTRY t (inp' (in_ + 2 * j)) = ENTRY t (inp (in_ + 2 * j))) →
      hires_chunks emu inp' table n in_ out k = hires_chunks emu inp table n in_ out k := by
  intro n
  induction n with
  | zero => intro in_ out k _; simp [hires_chunks]
  | succ n ih =>
    intro in_ out k h
    simp only [hires_chunks]
    rw [hires_chunk_congr_entry emu inp inp' table in_ out k (fun j hj => h j (by omega)),
      ih (in_ + 2 * 12) (out + 4 * 8) _ (fun j hj t => by
        have := h (j + 12) (by omega) t
        have e : in_ + 2 * ((j + 12 : Nat) : Int) = in_ + 2 * 12 + 2 * (j : Int) := by
          push_cast; ring
        rw [e] at this
        exact this)]

theorem hires_row_congr_entry (emu : Nat → Nat) (inp inp' : Int → Nat) (burst c : Nat)
    (in_ out : Int)
    (h : ∀ j : Nat, j < 12 * c + 8 → ∀ t,
      ENTRY t (inp' (in_ + 2 * j)) = ENTRY t (inp (in_ + 2 * j))) :
    hires_row emu inp' burst c in_ out = hires_row emu inp burst c in_ out := by
  unfold hires_row
  simp only []
  have h0 := h 0 (by omega) (burst * burst_entry_size)
  have h1 := h 1 (by omega) (burst * burst_entry_size)
  have h2 := h 2 (by omega) (burst * burst_entry_size)
  have h3 := h 3 (by omega) (burst * burst_entry_size)
  simp only [Nat.cast_zero, Nat.cast_one, Nat.cast_ofNat] at h0 h1 h2 h3
  rw [h0, h1, h2, h3]
  generalize hK : (⟨burst * burst_entry_size, burst * burst_entry_size, burst * burst_entry_size,
      burst * burst_entry_size, burst * burst_entry_size, burst * burst_entry_size,
      burst * burst_entry_size,
      ENTRY (burst * burst_entry_size) (inp (in_ + 2 * 0)),
      ENTRY (burst * burst_entry_size) (inp (in_ + 2 * 1)),
      ENTRY (burst * burst_entry_size) (inp (in_ + 2 * 2)),
      ENTRY (burst * burst_entry_size) (inp (in_ + 2 * 3))⟩ : HiresTaps) = K
  have hc := hires_chunks_congr_entry emu inp inp' (burst * burst_entry_size) c (in_ + 2 * 4) out K
    (fun j hj t => by
      have := h (j + 4) (by omega) t
      have e : in_ + 2 * ((j + 4 : Nat) : Int) = in_ + 2 * 4 + 2 * (j : Int) := by
        push_cast; ring
      rw [e] at this
      exact this)
  rw [hc]
  have hp := hires_chunks_ptr emu inp (burst * burst_entry_size) c (in_ + 2 * 4) out K
  rw [hires_tail_congr_entry emu inp inp' _ _ _ _ (fun j hj t => by
    have := h (12 * c + 4 + j) (by omega) t
    have e : in_ + 2 * ((12 * c + 4 + j : Nat) : Int) =
        in_ + 2 * 4 + 24 * (c : Int) + 2 * (j : Int) := by
      push_cast; ring
    rw [e, ← hp.1] at this
    exact this)]

/-- The stores of `snes_ntsc_blit_hires` depend on the input only through the table entries
of the `12 c + 8` samples read from byte `in + r * in_pitch` on, for each row `r`. -/
theorem hires_rows_congr_entry (emu : Nat → Nat) (inp inp' : Int → Nat) (c : Nat) (P Q : Int) :
    ∀ (h : Nat) (in_ : Int) (b : Nat) (out : Int),
      (∀ r : Nat, r < h → ∀ j : Nat, j < 12 * c + 8 → ∀ t,
        ENTRY t (inp' (in_ + r * P + 2 * j)) = ENTRY t (inp (in_ + r * P + 2 * j))) →
      hires_rows emu inp' c (P - (c * 12 + 4 : Nat) * 2) (Q - (c : Int) * (16 * 2)) h in_ b out =
        hires_rows emu inp c (P - (c * 12 + 4 : Nat) * 2) (Q - (c : Int) * (16 * 2)) h in_ b out := by
  intro h
  induction h with
  | zero => intro in_ b out _; simp [hires_rows]
  | succ n ih =>
    intro in_ b out hyp
    simp only [hires_rows]
    have hrow := hires_row_congr_entry emu inp inp' b c in_ out (fun j hj t => by
      have := hyp 0 (by omega) j hj t
      simp only [Nat.cast_zero, zero_mul, add_zero] at this
      exact this)
    rw [hrow, hires_row_ptr]
    simp only []
    have e : in_ + 8 + 24 * (c : Int) + (P - ((c * 12 + 4 : Nat) : Int) * 2) = in_ + P := by
      push_cast; ring
    rw [e, ih (in_ + P) _ _ (fun r hr j hj t => by
      have := hyp (r + 1) (by omega) j hj t
      have e2 : in_ + ((r + 1 : Nat) : Int) * P = in_ + P + (r : Int) * P := by
        push_cast; ring
      rw [e2] at this
      exact this)]

/-- C6 (source-code decoding).  For every source value `n`, `ENTRY( n )` points at entry
`(n>>1 & 0xF) | ((n>>5 & 0x1F) << 4) | ((n>>11 & 0xF) << 9)` of the table, which is below
`snes_color_count`, and the values `ir`, `ig`, `ib` that `snes_ntsc_init` takes for that
entry are `n & 0x1E`, `n>>5 & 0x1F` and `n>>10 & 0x1E`.  Hence the stores of both blitters
are unchanged when any of the bits 0, 10 and 15 of any source pixels are flipped:
`flips` gives the bits flipped at each address and has none of the bits `0x7BFE`. -/
theorem source_decoding (emu : Nat → Nat) (inp flips : Int → Nat) (in_ in_pitch : Int)
    (burst : Nat) (width : Int) (height : Nat) (vout out_pitch : Int)
    (hf : ∀ a, flips a &&& 0x7BFE = 0) :
    (∀ table n : Nat,
      ENTRY table n = table + entry_of n * snes_ntsc_entry_size ∧
      entry_of n < snes_color_count ∧ entry_ir (entry_of n) = n &&& 0x1E ∧
      entry_ig (entry_of n) = (n >>> 5) &&& 0x1F ∧ entry_ib (entry_of n) = (n >>> 10) &&& 0x1E) ∧
    snes_ntsc_blit_stores emu (fun a => inp a ^^^ flips a) in_ in_pitch burst width height vout
        out_pitch =
      snes_ntsc_blit_stores emu inp in_ in_pitch burst width height vout out_pitch ∧
    snes_ntsc_blit_hires_stores emu (fun a => inp a ^^^ flips a) in_ in_pitch burst width height
        vout out_pitch =
      snes_ntsc_blit_hires_stores emu inp in_ in_pitch burst width height vout out_pitch := by
  refine ⟨fun table n => ⟨ENTRY_eq table n, ?_, ?_, ?_, ?_⟩, ?_, ?_⟩
  · rw [entry_of_eq]
    have : snes_color_count = 8192 := rfl
    omega
  · unfold entry_ir
    have h1 : (0x1E : Nat) = 15 * 2 ^ 1 := by decide
    rw [entry_of_eq, h1, and_shifted_mask, and_shifted_mask, and_mask4, and_mask4,
      Nat.shiftLeft_eq]
    omega
  · unfold entry_ig
    rw [entry_of_eq, and_mask5, and_mask5, Nat.shiftRight_eq_div_pow, Nat.shiftRight_eq_div_pow]
    omega
  · unfold entry_ib
    have h1 : (0x1E : Nat) = 15 * 2 ^ 1 := by decide
    rw [entry_of_eq, h1, and_shifted_mask, and_shifted_mask, and_mask4, and_mask4,
      Nat.shiftRight_eq_div_pow, Nat.shiftRight_eq_div_pow]
    omega
  · unfold snes_ntsc_blit_stores
    exact blit_rows_congr_entry emu inp _ _ _ _ _ _ _ _
      (fun r _ j _ t => ENTRY_flip t _ _ (hf _))
  · unfold snes_ntsc_blit_hires_stores
    exact hires_rows_congr_entry emu inp _ _ _ _ _ _ _ _
      (fun r _ j _ t => ENTRY_flip t _ _ (hf _))

/-- Witness of C6: bits 0, 10 and 15 of every pixel of a frame flipped. -/
theorem source_decoding_witness :
    snes_ntsc_blit_stores (fun i => 5 * i) (fun a => a.toNat * 1021 ^^^ 0x8401) 0 20 1 28 2
        100 64 =
      snes_ntsc_blit_stores (fun i => 5 * i) (fun a => a.toNat * 1021) 0 20 1 28 2 100 64 :=
  (source_decoding (fun i => 5 * i) (fun a => a.toNat * 1021) (fun _ => 0x8401) 0 20 1 28 2
    100 64 (fun _ => show (0x8401 : Nat) &&& 0x7BFE = 0 by decide)).2.1

/-! ## C7: the output frame -/

/-- The table `snes_ntsc_init` builds is the same for any value of `setup->bsnes_colortbl`. -/
theorem init_ignores_palette {F : Type} (O : FloatOps F) (fuel : Nat) (ntsc : ntsc_to_rgb_t F)
    (emu : Arr Nat Nat) (setup : snes_ntsc_setup_t F) (tbl : Option (Nat → Nat)) :
    snes_ntsc_init O fuel ntsc emu { setup with bsnes_colortbl := tbl } =
      snes_ntsc_init O fuel ntsc emu { setup with bsnes_colortbl := none } := rfl

/-- C9, as stated, fails: no floating point arithmetic, setup and remap table make
`snes_ntsc_init` build a table that differs from the one built without a remap table. -/
theorem custom_palette_counterexample :
    ¬ ∃ (F : Type) (O : FloatOps F) (fuel : Nat) (ntsc : ntsc_to_rgb_t F) (emu : Arr Nat Nat)
        (setup : snes_ntsc_setup_t F) (tbl : Nat → Nat),
      snes_ntsc_init O fuel ntsc emu { setup with bsnes_colortbl := some tbl } ≠
        snes_ntsc_init O fuel ntsc emu { setup with bsnes_colortbl := none } := by
  rintro ⟨F, O, fuel, ntsc, emu, setup, tbl, h⟩
  exact h (init_ignores_palette O fuel ntsc emu setup (some tbl))

/-- C9 as amended.  `snes_ntsc_init` reads the palette pointer of the setup and never uses
it: with any remap table it builds the table it builds with none, every entry coming from
`ir = entry << 1 & 0x1E`, `ig = entry >> 4 & 0x1F`, `ib = entry >> 8 & 0x1E`. -/
theorem custom_palette_ignored {F : Type} (O : FloatOps F) (fuel : Nat) (ntsc : ntsc_to_rgb_t F)
    (emu : Arr Nat Nat) (setup : snes_ntsc_setup_t F) (tbl : Nat → Nat) :
    snes_ntsc_init O fuel ntsc emu { setup with bsnes_colortbl := some tbl } =
      snes_ntsc_init O fuel ntsc emu { setup with bsnes_colortbl := none } :=
  init_ignores_palette O fuel ntsc emu setup (some tbl)

/-! ## C10: merging the burst phases -/

theorem merge_avg_comm (a b : Nat) : merge_avg a b = merge_avg b a := by
  unfold merge_avg add32
  rw [Nat.add_comm a b]

theorem merge_body_get (out : Nat) (mem : Arr Nat Nat) (i : Nat) :
    (merge_body out mem i).get (out + i) =
        merge_avg (mem.get (out + i)) (mem.get (out + i + 48)) ∧
      (merge_body out mem i).get (out + i + 48) =
        merge_avg (mem.get (out + i + 48)) (mem.get (out + i + 96)) ∧
      (merge_body out mem i).get (out + i + 96) =
        merge_avg (mem.get (out + i + 96)) (mem.get (out + i)) ∧
      ∀ j, j ≠ out + i → j ≠ out + i + 48 → j ≠ out + i + 96 →
        (merge_body out mem i).get j = mem.get j := by
  have hb : burst_entry_size = 48 := rfl
  unfold merge_body
  simp only [hb, Arr.set, Nat.mul_zero, Nat.add_zero, Nat.mul_one]
  have e : (48 : Nat) * 2 = 96 := rfl
  rw [e]
  refine ⟨?_, ?_, ?_, ?_⟩
  · have h1 : out + i ≠ out + i + 96 := by omega
    have h2 : out + i ≠ out + i + 48 := by omega
    simp only [h1, h2, if_false, if_true]
  · have h1 : out + i + 48 ≠ out + i + 96 := by omega
    simp only [h1, if_false, if_true]
  · simp only [if_true]
  · intro j h1 h2 h3
    simp only [h1, h2, h3, if_false]

/-- The merge loop of `adjust_kernel` stores, for every `i` it runs over, the averages of
the pairs of pre-merge taps `(p0, p1)`, `(p1, p2)`, `(p2, p0)` in the three burst slices. -/
theorem merge_fold_spec (out : Nat) :
    ∀ (l : List Nat) (mem : Arr Nat Nat), l.Nodup → (∀ i ∈ l, i < 48) →
      (∀ j, (∀ i ∈ l, j ≠ out + i ∧ j ≠ out + i + 48 ∧ j ≠ out + i + 96) →
        (l.foldl (merge_body out) mem).get j = mem.get j) ∧
      ∀ i ∈ l,
        (l.foldl (merge_body out) mem).get (out + i) =
          merge_avg (mem.get (out + i)) (mem.get (out + i + 48)) ∧
        (l.foldl (merge_body out) mem).get (out + i + 48) =
          merge_avg (mem.get (out + i + 48)) (mem.get (out + i + 96)) ∧
        (l.foldl (merge_body out) mem).get (out + i + 96) =
          merge_avg (mem.get (out + i + 96)) (mem.get (out + i)) := by
  intro l
  induction l with
  | nil => intro mem _ _; simp
  | cons i0 rest ih =>
    intro mem hnd hlt
    have hnd' := List.nodup_cons.1 hnd
    have hi0 : i0 < 48 := hlt i0 (List.mem_cons_self _ _)
    have hrest : ∀ i ∈ rest, i < 48 := fun i hi => hlt i (List.mem_cons_of_mem _ hi)
    obtain ⟨hf, hg⟩ := ih (merge_body out mem i0) hnd'.2 hrest
    obtain ⟨b0, b1, b2, bf⟩ := merge_body_get out mem i0
    rw [List.foldl_cons]
    constructor
    · intro j hj
      have h0 := hj i0 (List.mem_cons_self _ _)
      rw [hf j (fun i hi => hj i (List.mem_cons_of_mem _ hi)), bf j h0.1 h0.2.1 h0.2.2]
    · intro i hi
      rcases List.mem_cons.1 hi with rfl | hi
      · have hne : ∀ i' ∈ rest, i' ≠ i := fun i' hi' e => hnd'.1 (e ▸ hi')
        have fr : ∀ j, (j = out + i ∨ j = out + i + 48 ∨ j = out + i + 96) →
            (rest.foldl (merge_body out) (merge_body out mem i)).get j =
              (merge_body out mem i).get j := by
          intro j hj
          apply hf
          intro i' hi'
          have := hne i' hi'
          have := hrest i' hi'
          omega
        rw [fr _ (Or.inl rfl), fr _ (Or.inr (Or.inl rfl)), fr _ (Or.inr (Or.inr rfl))]
        exact ⟨b0, b1, b2⟩
      · have hne : i ≠ i0 := fun e => hnd'.1 (e ▸ hi)
        have hi48 := hrest i hi
        obtain ⟨g0, g1, g2⟩ := hg i hi
        rw [g0, g1, g2, bf _ (by omega) (by omega) (by omega),
          bf _ (by omega) (by omega) (by omega), bf _ (by omega) (by omega) (by omega)]
        exact ⟨rfl, rfl, rfl⟩

/-- C10, as stated, fails: for an entry whose taps of index 0 are 0, 0 and 2 in the three
burst slices, the merge loop stores 0 in slice 0 and 1 in slice 1. -/
theorem merge_symmetry_counterexample :
    ((List.range burst_entry_size).foldl (merge_body 0) ⟨fun j => if j = 96 then 2 else 0⟩).get 0
      ≠ ((List.range burst_entry_size).foldl (merge_body 0)
        ⟨fun j => if j = 96 then 2 else 0⟩).get 48 := by
  decide

/-- C10 as amended.  With `merge_fields` set, for every table entry and every tap index
`i < 48` the merge loop stores `merge (p0, p1)`, `merge (p1, p2)` and `merge (p2, p0)` in burst
slices 0, 1 and 2, where `p0`, `p1`, `p2` are the taps of the three slices before merging;
`merge` is symmetric in its two arguments, and the three stored values are equal to each
other when `p0 = p1 = p2`. -/
theorem merge_symmetry_amended (out : Nat) (mem : Arr Nat Nat) (i : Nat) (hi : i < burst_entry_size) :
    ((List.range burst_entry_size).foldl (merge_body out) mem).get (out + i) =
      merge_avg (mem.get (out + i)) (mem.get (out + i + burst_entry_size)) ∧
    ((List.range burst_entry_size).foldl (merge_body out) mem).get (out + i + burst_entry_size) =
      merge_avg (mem.get (out + i + burst_entry_size)) (mem.get (out + i + 2 * burst_entry_size)) ∧
    ((List.range burst_entry_size).foldl (merge_body out) mem).get
        (out + i + 2 * burst_entry_size) =
      merge_avg (mem.get (out + i + 2 * burst_entry_size)) (mem.get (out + i)) ∧
    (∀ a b : Nat, merge_avg a b = merge_avg b a) ∧
    (mem.get (out + i) = mem.get (out + i + burst_entry_size) →
      mem.get (out + i + burst_entry_size) = mem.get (out + i + 2 * burst_entry_size) →
      ((List.range burst_entry_size).foldl (merge_body out) mem).get (out + i) =
        ((List.range burst_entry_size).foldl (merge_body out) mem).get
          (out + i + burst_entry_size) ∧
      ((List.range burst_entry_size).foldl (merge_body out) mem).get
          (out + i + burst_entry_size) =
        ((List.range burst_entry_size).foldl (merge_body out) mem).get
          (out + i + 2 * burst_entry_size)) := by
  have hb : burst_entry_size = 48 := rfl
  rw [hb] at hi ⊢
  obtain ⟨g0, g1, g2⟩ := (merge_fold_spec out (List.range 48) mem (List.nodup_range 48)
    (fun i hi => List.mem_range.1 hi)).2 i (List.mem_range.2 hi)
  have e : (2 : Nat) * 48 = 96 := rfl
  rw [e]
  refine ⟨g0, g1, g2, merge_avg_comm, fun h1 h2 => ?_⟩
  rw [g0, g1, g2, h1, h2]
  exact ⟨rfl, rfl⟩

/-- Witness of C10 as amended: tap 5 of an entry at word 144. -/
theorem merge_symmetry_amended_witness :
    5 < burst_entry_size ∧
    ((List.range burst_entry_size).foldl (merge_body 144) ⟨fun j => 3 * j⟩).get (144 + 5) =
      merge_avg ((⟨fun j => 3 * j⟩ : Arr Nat Nat).get (144 + 5))
        ((⟨fun j => 3 * j⟩ : Arr Nat Nat).get (144 + 5 + burst_entry_size)) :=
  ⟨by decide, (merge_symmetry_amended 144 ⟨fun j => 3 * j⟩ 5 (by decide)).1⟩

/-! ## C13: termination of the correction loop -/

theorem stepsLeft_step (c u : Nat) (hc : c < 128) (hu : u < 512) :
    clamp7 u ≤ u ∧ u + c - clamp7 u < 512 ∧ stepsLeft c u ≤ 257 ∧
      (clamp7 u = c → stepsLeft c u = 0 ∧ u + c - clamp7 u = u) ∧
      (clamp7 u ≠ c → stepsLeft c (u + c - clamp7 u) < stepsLeft c u) := by
  unfold stepsLeft clamp7
  split_ifs <;> omega

theorem clamp_color_fields (S : Nat) :
    clamp_color S = pack 0 (clamp7 (field S 2 % 512)) (clamp7 (field S 1 % 512))
      (clamp7 (field S 0 % 512)) := by
  have h := clamp_color_pack (S / 2 ^ 30) (field S 2) (field S 1) (field S 0) (field_lt _ _)
    (field_lt _ _) (field_lt _ _)
  rw [← pack_fields S] at h
  exact h

theorem add32_sub32 (S X Y : Nat) (hX : X < 2 ^ 32) (hle : Y ≤ S + X)
    (hlt : S + X - Y < 2 ^ 32) : add32 S (sub32 X Y) = S + X - Y := by
  unfold add32 sub32 wordMod
  omega

theorem pack_step (t a b c cr cg cb k2 k1 k0 : Nat) (h2 : k2 ≤ a) (h1 : k1 ≤ b) (h0 : k0 ≤ c) :
    pack t a b c + pack 0 cr cg cb - pack 0 k2 k1 k0 =
      pack t (a + cr - k2) (b + cg - k1) (c + cb - k0) := by
  unfold pack
  omega

theorem pack_lt (t a b c : Nat) (ht : t < 4) (ha : a < 1024) (hb : b < 1024) (hc : c < 1024) :
    pack t a b c < 2 ^ 32 := by
  unfold pack
  omega

/-- One pass of the correction loop acts on each field of `raw + first` separately: the
field gains the target and loses its own clamped value, without carry or borrow. -/
theorem correction_step_fields (S cr cg cb : Nat) (hS : S < 2 ^ 32) (hr : cr < 128)
    (hg : cg < 128) (hb : cb < 128) :
    add32 S (sub32 (pack 0 cr cg cb) (clamp_color S)) =
      pack (S / 2 ^ 30) (field S 2 + cr - clamp7 (field S 2 % 512))
        (field S 1 + cg - clamp7 (field S 1 % 512)) (field S 0 + cb - clamp7 (field S 0 % 512)) ∧
    clamp7 (field S 2 % 512) ≤ field S 2 ∧ clamp7 (field S 1 % 512) ≤ field S 1 ∧
    clamp7 (field S 0 % 512) ≤ field S 0 ∧
    field S 2 + cr - clamp7 (field S 2 % 512) < 1024 ∧
    field S 1 + cg - clamp7 (field S 1 % 512) < 1024 ∧
    field S 0 + cb - clamp7 (field S 0 % 512) < 1024 := by
  have h2 := stepsLeft_step cr (field S 2 % 512) hr (Nat.mod_lt _ (by omega))
  have h1 := stepsLeft_step cg (field S 1 % 512) hg (Nat.mod_lt _ (by omega))
  have h0 := stepsLeft_step cb (field S 0 % 512) hb (Nat.mod_lt _ (by omega))
  have l2 := field_lt S 2
  have l1 := field_lt S 1
  have l0 := field_lt S 0
  have a2 : clamp7 (field S 2 % 512) ≤ field S 2 := by have := h2.1; omega
  have a1 : clamp7 (field S 1 % 512) ≤ field S 1 := by have := h1.1; omega
  have a0 : clamp7 (field S 0 % 512) ≤ field S 0 := by have := h0.1; omega
  have b2 : field S 2 + cr - clamp7 (field S 2 % 512) < 1024 := by have := h2.2.1; omega
  have b1 : field S 1 + cg - clamp7 (field S 1 % 512) < 1024 := by have := h1.2.1; omega
  have b0 : field S 0 + cb - clamp7 (field S 0 % 512) < 1024 := by have := h0.2.1; omega
  refine ⟨?_, a2, a1, a0, b2, b1, b0⟩
  have ht : S / 2 ^ 30 < 4 := by omega
  have hps := pack_step (S / 2 ^ 30) (field S 2) (field S 1) (field S 0) cr cg cb _ _ _ a2 a1 a0
  rw [← pack_fields S] at hps
  have hlt := pack_lt _ _ _ _ ht b2 b1 b0
  rw [← hps] at hlt
  have hle : clamp_color S ≤ S + pack 0 cr cg cb := by
    rw [clamp_color_fields]
    have e := pack_fields S
    have k2 := clamp7_lt (field S 2 % 512)
    have k1 := clamp7_lt (field S 1 % 512)
    have k0 := clamp7_lt (field S 0 % 512)
    generalize clamp7 (field S 2 % 512) = x2 at *
    generalize clamp7 (field S 1 % 512) = x1 at *
    generalize clamp7 (field S 0 % 512) = x0 at *
    clear hps hlt h2 h1 h0
    unfold pack at e ⊢
    omega
  rw [add32_sub32 S _ _ (pack_lt _ _ _ _ (by omega) (by omega) (by omega) (by omega)) hle (by rw [clamp_color_fields]; exact hlt), clamp_color_fields, hps]

theorem field_step (S cr cg cb : Nat) (hS : S < 2 ^ 32) (hr : cr < 128) (hg : cg < 128)
    (hb : cb < 128) :
    field (add32 S (sub32 (pack 0 cr cg cb) (clamp_color S))) 2 % 512 =
        field S 2 % 512 + cr - clamp7 (field S 2 % 512) ∧
      field (add32 S (sub32 (pack 0 cr cg cb) (clamp_color S))) 1 % 512 =
        field S 1 % 512 + cg - clamp7 (field S 1 % 512) ∧
      field (add32 S (sub32 (pack 0 cr cg cb) (clamp_color S))) 0 % 512 =
        field S 0 % 512 + cb - clamp7 (field S 0 % 512) := by
  obtain ⟨e, a2, a1, a0, b2, b1, b0⟩ := correction_step_fields S cr cg cb hS hr hg hb
  obtain ⟨f2, f1, f0⟩ := field_pack (S / 2 ^ 30) _ _ _ b2 b1 b0
  rw [e, f2, f1, f0]
  have h2 := stepsLeft_step cr (field S 2 % 512) hr (Nat.mod_lt _ (by omega))
  have h1 := stepsLeft_step cg (field S 1 % 512) hg (Nat.mod_lt _ (by omega))
  have h0 := stepsLeft_step cb (field S 0 % 512) hb (Nat.mod_lt _ (by omega))
  refine ⟨?_, ?_, ?_⟩
  · have := h2.1; have := h2.2.1; omega
  · have := h1.1; have := h1.2.1; omega
  · have := h0.1; have := h0.2.1; omega

theorem error_zero_iff (S cr cg cb : Nat) (hr : cr < 128) (hg : cg < 128) (hb : cb < 128) :
    sub32 (pack 0 cr cg cb) (clamp_color S) = 0 ↔
      clamp7 (field S 2 % 512) = cr ∧ clamp7 (field S 1 % 512) = cg ∧
        clamp7 (field S 0 % 512) = cb := by
  rw [sub32_eq_zero _ _ (pack_lt _ _ _ _ (by omega) (by omega) (by omega) (by omega))
    (clamp_color_lt S), clamp_color_fields]
  have k2 := clamp7_lt (field S 2 % 512)
  have k1 := clamp7_lt (field S 1 % 512)
  have k0 := clamp7_lt (field S 0 % 512)
  generalize clamp7 (field S 2 % 512) = x2 at *
  generalize clamp7 (field S 1 % 512) = x1 at *
  generalize clamp7 (field S 0 % 512) = x0 at *
  unfold pack
  omega

theorem add32_assoc_step (raw first e : Nat) :
    add32 raw (add32 first e) = add32 (add32 raw first) e := by
  unfold add32 wordMod
  omega

theorem add32_lt (a b : Nat) : add32 a b < 2 ^ 32 := Nat.mod_lt _ (by decide)

/-- The correction loop exits within `fuel` tests when every channel needs fewer than `fuel`
corrections. -/
theorem correct_loop_total (raw cr cg cb : Nat) (hr : cr < 128) (hg : cg < 128) (hb : cb < 128) :
    ∀ (fuel first : Nat),
      stepsLeft cr (field (add32 raw first) 2 % 512) < fuel →
      stepsLeft cg (field (add32 raw first) 1 % 512) < fuel →
      stepsLeft cb (field (add32 raw first) 0 % 512) < fuel →
      ∃ f, correct_loop (pack 0 cr cg cb) raw fuel first = some f := by
  intro fuel
  induction fuel with
  | zero => intro first h; omega
  | succ n ih =>
    intro first m2 m1 m0
    simp only [correct_loop]
    split
    · exact ⟨first, rfl⟩
    · rename_i hne
      have hS := add32_lt raw first
      have hz := error_zero_iff (add32 raw first) cr cg cb hr hg hb
      obtain ⟨f2, f1, f0⟩ := field_step (add32 raw first) cr cg cb hS hr hg hb
      have s2 := stepsLeft_step cr (field (add32 raw first) 2 % 512) hr (Nat.mod_lt _ (by omega))
      have s1 := stepsLeft_step cg (field (add32 raw first) 1 % 512) hg (Nat.mod_lt _ (by omega))
      have s0 := stepsLeft_step cb (field (add32 raw first) 0 % 512) hb (Nat.mod_lt _ (by omega))
      apply ih
      · rw [add32_assoc_step, f2]
        by_cases c2 : clamp7 (field (add32 raw first) 2 % 512) = cr
        · rw [(s2.2.2.2.1 c2).2, (s2.2.2.2.1 c2).1]
          by_cases c1 : clamp7 (field (add32 raw first) 1 % 512) = cg
          · by_cases c0 : clamp7 (field (add32 raw first) 0 % 512) = cb
            · exact absurd (hz.2 ⟨c2, c1, c0⟩) hne
            · have := s0.2.2.2.2 c0; omega
          · have := s1.2.2.2.2 c1; omega
        · have := s2.2.2.2.2 c2; omega
      · rw [add32_assoc_step, f1]
        by_cases c1 : clamp7 (field (add32 raw first) 1 % 512) = cg
        · rw [(s1.2.2.2.1 c1).2, (s1.2.2.2.1 c1).1]
          by_cases c2 : clamp7 (field (add32 raw first) 2 % 512) = cr
          · by_cases c0 : clamp7 (field (add32 raw first) 0 % 512) = cb
            · exact absurd (hz.2 ⟨c2, c1, c0⟩) hne
            · have := s0.2.2.2.2 c0; omega
          · have := s2.2.2.2.2 c2; omega
        · have := s1.2.2.2.2 c1; omega
      · rw [add32_assoc_step, f0]
        by_cases c0 : clamp7 (field (add32 raw first) 0 % 512) = cb
        · rw [(s0.2.2.2.1 c0).2, (s0.2.2.2.1 c0).1]
          by_cases c2 : clamp7 (field (add32 raw first) 2 % 512) = cr
          · by_cases c1 : clamp7 (field (add32 raw first) 1 % 512) = cg
            · exact absurd (hz.2 ⟨c2, c1, c0⟩) hne
            · have := s1.2.2.2.2 c1; omega
          · have := s2.2.2.2.2 c2; omega
        · have := s0.2.2.2.2 c0; omega

theorem field_clamp_color (S k : Nat) (hk : k < 3) :
    field (clamp_color S) k = clamp7 (field S k % 512) := by
  rw [clamp_color_fields]
  obtain ⟨f2, f1, f0⟩ := field_pack 0 (clamp7 (field S 2 % 512)) (clamp7 (field S 1 % 512))
    (clamp7 (field S 0 % 512)) (by have := clamp7_lt (field S 2 % 512); omega)
    (by have := clamp7_lt (field S 1 % 512); omega) (by have := clamp7_lt (field S 0 % 512); omega)
  have hk3 : k = 0 ∨ k = 1 ∨ k = 2 := by omega
  rcases hk3 with rfl | rfl | rfl
  · exact f0
  · exact f1
  · exact f2

theorem correct_loop_258 (color raw first fuel : Nat) (hfuel : 258 ≤ fuel) :
    ∃ f, correct_loop (clamped_target color) raw fuel first = some f := by
  unfold clamped_target
  rw [clamp_color_fields]
  have h2 := stepsLeft_step (clamp7 (field (add32 color bias) 2 % 512))
    (field (add32 raw first) 2 % 512) (clamp7_lt _) (Nat.mod_lt _ (by omega))
  have h1 := stepsLeft_step (clamp7 (field (add32 color bias) 1 % 512))
    (field (add32 raw first) 1 % 512) (clamp7_lt _) (Nat.mod_lt _ (by omega))
  have h0 := stepsLeft_step (clamp7 (field (add32 color bias) 0 % 512))
    (field (add32 raw first) 0 % 512) (clamp7_lt _) (Nat.mod_lt _ (by omega))
  exact correct_loop_total raw _ _ _ (clamp7_lt _) (clamp7_lt _) (clamp7_lt _) fuel first
    (by have := h2.2.2.1; omega) (by have := h1.2.2.1; omega) (by have := h0.2.2.1; omega)

theorem adjust_body_total (color fuel base : Nat) (hfuel : 258 ≤ fuel) (mem : Arr Nat Nat)
    (i : Nat) : ∃ mem', adjust_body fuel (clamped_target color) base mem i = some mem' := by
  unfold adjust_body
  simp only []
  obtain ⟨f, hf⟩ := correct_loop_258 color
    (add32 (add32 (add32 (add32 (add32 bias (mem.get (base + (((i + 14) &&& 15) + 16))))
      (mem.get (base + (((i + 11) &&& 15) + 32)))) (mem.get (base + (i + 8))))
      (mem.get (base + (i + 6 + 16)))) (mem.get (base + (i + 3 + 32)))) (mem.get (base + i)) fuel
    hfuel
  rw [hf]
  exact ⟨_, rfl⟩

theorem adjust_inner_total (color fuel base : Nat) (hfuel : 258 ≤ fuel) :
    ∀ (l : List Nat) (mem : Arr Nat Nat),
      ∃ mem', l.foldlM (adjust_body fuel (clamped_target color) base) mem = some mem' := by
  intro l
  induction l with
  | nil => intro mem; exact ⟨mem, rfl⟩
  | cons i rest ih =>
    intro mem
    obtain ⟨m1, h1⟩ := adjust_body_total color fuel base hfuel mem i
    obtain ⟨m2, h2⟩ := ih m1
    refine ⟨m2, ?_⟩
    rw [List.foldlM_cons, h1]
    exact h2

theorem adjust_outer_total (color fuel out n s : Nat) (hfuel : 258 ≤ fuel) :
    ∀ (l : List Nat) (mem : Arr Nat Nat),
      ∃ mem', l.foldlM (fun mem burst =>
        (List.range n).foldlM (adjust_body fuel (clamped_target color) (out + burst * s)) mem)
        mem = some mem' := by
  intro l
  induction l with
  | nil => intro mem; exact ⟨mem, rfl⟩
  | cons b rest ih =>
    intro mem
    obtain ⟨m1, h1⟩ := adjust_inner_total color fuel (out + b * s) hfuel (List.range n) mem
    obtain ⟨m2, h2⟩ := ih m1
    refine ⟨m2, ?_⟩
    rw [List.foldlM_cons, h1]
    exact h2

/-- With 258 tests for each correction loop `adjust_kernel` returns. -/
theorem adjust_kernel_total (fuel color : Nat) (merge_fields : Int) (mem : Arr Nat Nat)
    (out : Nat) (hfuel : 258 ≤ fuel) :
    ∃ mem', adjust_kernel fuel color merge_fields mem out = some mem' := by
  unfold adjust_kernel
  exact adjust_outer_total color fuel out _ _ hfuel _ _

/-- C13 (the clamp-correction loop terminates).  For every desired colour word, every `raw`
and every initial `first`, the loop `while ( 1 )` of `adjust_kernel` exits within 258 tests
of `error`, the last of which finds `error` zero; hence `adjust_kernel` returns for every
table entry.  In each pass every 10-bit field of `raw + first` becomes its old value plus
the target's field minus its own clamped value, the bits above the fields staying as they
are (no carry or borrow between fields), and the bound `stepsLeft` on the corrections the
channel still needs falls unless the channel already agrees with the target. -/
theorem correction_loop_terminates (color raw first fuel : Nat) (hfuel : 258 ≤ fuel) :
    (∃ f, correct_loop (clamped_target color) raw fuel first = some f ∧
      sub32 (clamped_target color) (clamp_color (add32 raw f)) = 0) ∧
    (∀ (merge_fields : Int) (mem : Arr Nat Nat) (out : Nat),
      ∃ mem', adjust_kernel fuel color merge_fields mem out = some mem') ∧
    ∀ S : Nat, S < 2 ^ 32 →
      add32 S (sub32 (clamped_target color) (clamp_color S)) / 2 ^ 30 = S / 2 ^ 30 ∧
      ∀ k < 3,
        field (add32 S (sub32 (clamped_target color) (clamp_color S))) k +
            field (clamp_color S) k =
          field S k + field (clamped_target color) k ∧
        (field (clamp_color S) k = field (clamped_target color) k →
          field (add32 S (sub32 (clamped_target color) (clamp_color S))) k = field S k) ∧
        (field (clamp_color S) k ≠ field (clamped_target color) k →
          stepsLeft (field (clamped_target color) k)
              (field (add32 S (sub32 (clamped_target color) (clamp_color S))) k % 512) <
            stepsLeft (field (clamped_target color) k) (field S k % 512)) := by
  refine ⟨?_, fun mf mem out => adjust_kernel_total fuel color mf mem out hfuel, ?_⟩
  · obtain ⟨f, hf⟩ := correct_loop_258 color raw first fuel hfuel
    refine ⟨f, hf, ?_⟩
    have hs := correct_loop_spec (clamped_target color) raw (clamp_color_lt _) fuel first f hf
    rw [hs]
    exact (sub32_eq_zero _ _ (clamp_color_lt _) (clamp_color_lt _)).2 rfl
  · intro S hS
    have hT : clamped_target color = pack 0 (clamp7 (field (add32 color bias) 2 % 512))
        (clamp7 (field (add32 color bias) 1 % 512))
        (clamp7 (field (add32 color bias) 0 % 512)) := clamp_color_fields _
    have hTf : ∀ k < 3, field (clamped_target color) k =
        clamp7 (field (add32 color bias) k % 512) := fun k hk => field_clamp_color _ k hk
    obtain ⟨e, a2, a1, a0, b2, b1, b0⟩ := correction_step_fields S _ _ _ hS
      (clamp7_lt (field (add32 color bias) 2 % 512)) (clamp7_lt (field (add32 color bias) 1 % 512))
      (clamp7_lt (field (add32 color bias) 0 % 512))
    obtain ⟨g2, g1, g0⟩ := field_step S _ _ _ hS
      (clamp7_lt (field (add32 color bias) 2 % 512)) (clamp7_lt (field (add32 color bias) 1 % 512))
      (clamp7_lt (field (add32 color bias) 0 % 512))
    rw [← hT] at e g2 g1 g0
    obtain ⟨f2, f1, f0⟩ := field_pack (S / 2 ^ 30) _ _ _ b2 b1 b0
    rw [← e] at f2 f1 f0
    constructor
    · rw [e]
      unfold pack
      omega
    · intro k hk
      have hk3 : k = 0 ∨ k = 1 ∨ k = 2 := by omega
      have key : ∀ (c u a a' : Nat), c < 128 → a < 1024 → u = a % 512 → clamp7 u ≤ a →
          a' = a + c - clamp7 u → a' % 512 = u + c - clamp7 u →
          a' + clamp7 u = a + c ∧ (clamp7 u = c → a' = a) ∧
            (clamp7 u ≠ c → stepsLeft c (a' % 512) < stepsLeft c u) := by
        intro c u a a' hc ha hu hle ha' hm
        have st := stepsLeft_step c u hc (by omega)
        refine ⟨by omega, fun h => by omega, fun h => ?_⟩
        rw [hm]
        exact st.2.2.2.2 h
      rcases hk3 with rfl | rfl | rfl
      · rw [field_clamp_color S 0 (by omega), hTf 0 (by omega)]
        exact key _ _ _ _ (clamp7_lt _) (field_lt S 0) rfl a0 f0 g0
      · rw [field_clamp_color S 1 (by omega), hTf 1 (by omega)]
        exact key _ _ _ _ (clamp7_lt _) (field_lt S 1) rfl a1 f1 g1
      · rw [field_clamp_color S 2 (by omega), hTf 2 (by omega)]
        exact key _ _ _ _ (clamp7_lt _) (field_lt S 2) rfl a2 f2 g2

/-- Witness of C13: a loop that needs 257 corrections (target 1, channel sums at -256). -/
theorem correction_loop_terminates_witness :
    258 ≤ 258 ∧ ∃ f, correct_loop (clamped_target (MAKE_KRGB 16 16 16)) 0 258 0 = some f ∧
      sub32 (clamped_target (MAKE_KRGB 16 16 16)) (clamp_color (add32 0 f)) = 0 :=
  ⟨by decide, (correction_loop_terminates (MAKE_KRGB 16 16 16) 0 0 258 (by decide)).1⟩

/-! ## C14: how many corrections -/

/-- C14, as stated, fails.  `correct_loop` with fuel `n + 1` returns exactly when the loop
exits after adding an error to `first` at most `n` times.  With the example of the source
(desired 126, actual 140 in every channel, biased `0x18C`) the loop has not exited after two
additions; it exits after the fourteenth. -/
theorem two_iterations_counterexample :
    (∀ k < 3, field (add32 (MAKE_KMASK 0x18C) 0) k < 0x200) ∧
    correct_loop (clamped_target (MAKE_KRGB 4032 4032 4032)) (MAKE_KMASK 0x18C) 3 0 = none ∧
    correct_loop (clamped_target (MAKE_KRGB 4032 4032 4032)) (MAKE_KMASK 0x18C) 14 0 = none ∧
    (correct_loop (clamped_target (MAKE_KRGB 4032 4032 4032)) (MAKE_KMASK 0x18C) 15 0).isSome := by
  decide

set_option maxRecDepth 100000 in
/-- C14 as amended.  For every desired colour and every table entry the correction loop
exits after adding an error to `first` at most 257 times, and 257 additions are needed when
a channel of target 1 starts at the biased value 0; it exits after at most one addition when
the biased value of every channel of `raw + first` lies in `0x100 .. 0x17F`, the range that
is not clamped. -/
theorem correction_iterations (color raw first : Nat) :
    (∃ f, correct_loop (clamped_target color) raw 258 first = some f) ∧
    ((∀ k < 3, 0x100 ≤ field (add32 raw first) k % 512 ∧ field (add32 raw first) k % 512 < 0x180) →
      ∃ f, correct_loop (clamped_target color) raw 2 first = some f) ∧
    correct_loop (clamped_target (MAKE_KRGB 16 16 16)) 0 257 0 = none := by
  refine ⟨correct_loop_258 color raw first 258 (by omega), fun h => ?_, by decide⟩
  unfold clamped_target
  rw [clamp_color_fields]
  have key : ∀ c u : Nat, 0x100 ≤ u → u < 0x180 → stepsLeft c u < 2 := by
    intro c u h1 h2
    unfold stepsLeft
    split_ifs <;> omega
  exact correct_loop_total raw _ _ _ (clamp7_lt _) (clamp7_lt _) (clamp7_lt _) 2 first
    (key _ _ (h 2 (by omega)).1 (h 2 (by omega)).2) (key _ _ (h 1 (by omega)).1 (h 1 (by omega)).2)
    (key _ _ (h 0 (by omega)).1 (h 0 (by omega)).2)

/-- Witness of C14 as amended: channel sums 100, 5 and 0x7F, inside the range. -/
theorem correction_iterations_witness :
    (∀ k < 3, 0x100 ≤ field (add32 0x16400000 0x4157F) k % 512 ∧
      field (add32 0x16400000 0x4157F) k % 512 < 0x180) ∧
    ∃ f, correct_loop (clamped_target (MAKE_KRGB 999 (-40) 3000)) 0x16400000 2 0x4157F =
      some f :=
  ⟨by decide, (correction_iterations (MAKE_KRGB 999 (-40) 3000) 0x16400000 0x4157F).2.1
    (by decide)⟩

/-! ## C15: the average of the merge step -/

theorem bias_eq : bias = pack 0 0x100 0x100 0x100 := by decide

theorem bias_half : bias >>> 1 = pack 0 0x80 0x80 0x80 := by decide

theorem packed_sum_bias (r1 g1 b1 r2 g2 b2 : Int) (vr vg vb : Nat)
    (hr : (vr : Int) = r1 + r2 + 256) (hg : (vg : Int) = g1 + g2 + 256)
    (hb : (vb : Int) = b1 + b2 + 256) (lr : vr < 1024) (lg : vg < 1024) (lb : vb < 1024) :
    add32 (add32 (packed r1 g1 b1) (packed r2 g2 b2)) bias = pack 0 vr vg vb := by
  rw [bias_eq]
  unfold add32 packed wordMod pack
  omega

theorem half_masked (vr vg vb : Nat) (lr : vr < 1024) (lg : vg < 1024) (lb : vb < 1024) :
    (pack 0 vr vg vb >>> 1) &&& MAKE_KMASK 0x1FF = pack 0 (vr / 2) (vg / 2) (vb / 2) := by
  have hsh : pack 0 vr vg vb >>> 1 =
      pack 0 (vr / 2) (vr % 2 * 512 + vg / 2) (vg % 2 * 512 + vb / 2) := by
    rw [Nat.shiftRight_eq_div_pow]; unfold pack; omega
  rw [hsh, MAKE_KMASK_pack 0x1FF (by omega), and_pack _ _ _ _ _ _ _ _ (by omega) (by omega)
    (by omega) (by omega) (by omega) (by omega), and_mask9, and_mask9, and_mask9, Nat.and_zero]
  congr 1 <;> omega

theorem sub_bias_half (a b c : Nat) :
    sub32 (pack 0 a b c) (pack 0 0x80 0x80 0x80) =
      packed ((a : Int) - 128) ((b : Int) - 128) ((c : Int) - 128) := by
  unfold sub32 packed wordMod pack
  omega

theorem merge_avg_packed (r1 g1 b1 r2 g2 b2 : Int)
    (hr : -256 ≤ r1 + r2 ∧ r1 + r2 ≤ 767) (hg : -256 ≤ g1 + g2 ∧ g1 + g2 ≤ 767)
    (hb : -256 ≤ b1 + b2 ∧ b1 + b2 ≤ 767) :
    merge_avg (packed r1 g1 b1) (packed r2 g2 b2) =
      packed ((r1 + r2) / 2) ((g1 + g2) / 2) ((b1 + b2) / 2) := by
  unfold merge_avg
  have er : ((r1 + r2 + 256).toNat : Int) = r1 + r2 + 256 := by omega
  have eg : ((g1 + g2 + 256).toNat : Int) = g1 + g2 + 256 := by omega
  have eb : ((b1 + b2 + 256).toNat : Int) = b1 + b2 + 256 := by omega
  have lr : (r1 + r2 + 256).toNat < 1024 := by omega
  have lg : (g1 + g2 + 256).toNat < 1024 := by omega
  have lb : (b1 + b2 + 256).toNat < 1024 := by omega
  rw [packed_sum_bias r1 g1 b1 r2 g2 b2 _ _ _ er eg eb lr lg lb, half_masked _ _ _ lr lg lb, bias_half,
    sub_bias_half _ _ _]
  congr 1 <;> omega

/-- C15 (offset-binary averaging).  For packed words `p = (r1<<20) + (g1<<10) + b1` and
`q = (r2<<20) + (g2<<10) + b2` (modulo `2^32`) of signed channels whose sums lie in
`-256 .. 767`, the value `((p + q + bias) >> 1 & MAKE_KMASK( 0x1FF )) - (bias >> 1)` of the
merge loop is the packed word of the floors of the half sums of the three channels; and the
loop stores that average of the taps `(p0, p1)`, `(p1, p2)`, `(p2, p0)` as they were before
the loop in burst slices 0, 1, 2, for every tap index `i < burst_entry_size`. -/
theorem offset_binary_average (r1 g1 b1 r2 g2 b2 : Int) (out : Nat) (mem : Arr Nat Nat) (i : Nat)
    (hr : -256 ≤ r1 + r2 ∧ r1 + r2 ≤ 767) (hg : -256 ≤ g1 + g2 ∧ g1 + g2 ≤ 767)
    (hb : -256 ≤ b1 + b2 ∧ b1 + b2 ≤ 767) (hi : i < burst_entry_size) :
    sub32 (((add32 (add32 (packed r1 g1 b1) (packed r2 g2 b2)) bias) >>> 1) &&& MAKE_KMASK 0x1FF)
        (bias >>> 1) =
      packed ((r1 + r2) / 2) ((g1 + g2) / 2) ((b1 + b2) / 2) ∧
    ((List.range burst_entry_size).foldl (merge_body out) mem).get (out + i) =
      sub32 (((add32 (add32 (mem.get (out + i)) (mem.get (out + i + burst_entry_size))) bias)
        >>> 1) &&& MAKE_KMASK 0x1FF) (bias >>> 1) ∧
    ((List.range burst_entry_size).foldl (merge_body out) mem).get (out + i + burst_entry_size) =
      sub32 (((add32 (add32 (mem.get (out + i + burst_entry_size))
        (mem.get (out + i + 2 * burst_entry_size))) bias) >>> 1) &&& MAKE_KMASK 0x1FF)
        (bias >>> 1) ∧
    ((List.range burst_entry_size).foldl (merge_body out) mem).get
        (out + i + 2 * burst_entry_size) =
      sub32 (((add32 (add32 (mem.get (out + i + 2 * burst_entry_size)) (mem.get (out + i))) bias)
        >>> 1) &&& MAKE_KMASK 0x1FF) (bias >>> 1) := by
  refine ⟨merge_avg_packed r1 g1 b1 r2 g2 b2 hr hg hb, ?_⟩
  have hbs : burst_entry_size = 48 := rfl
  rw [hbs] at hi ⊢
  exact (merge_fold_spec out (List.range 48) mem (List.nodup_range 48)
    (fun i hi => List.mem_range.1 hi)).2 i (List.mem_range.2 hi)

/-- Witness of C15: the average of (-200, 5, 255) and (-56, 6, 256). -/
theorem offset_binary_average_witness :
    sub32 (((add32 (add32 (packed (-200) 5 255) (packed (-56) 6 256)) bias) >>> 1) &&&
        MAKE_KMASK 0x1FF) (bias >>> 1) = packed (-128) 5 255 :=
  (offset_binary_average (-200) 5 255 (-56) 6 256 0 ⟨fun _ => 0⟩ 0 (by decide) (by decide)
    (by decide) (by decide)).1

/-! ## C18: solid fields in the high-resolution blitter -/

theorem hires_raw_solid (g : Nat → Nat) (k x : Nat) (hx : x < 16) :
    hires_raw g k (solidTaps k) x =
      add32 (blit_raw g k k k k k k x) (blit_raw g k k k k k k ((x + 12) % 16)) := by
  unfold hires_raw blit_raw solidTaps
  simp only []
  have e1 : ((x + 12) % 16 + 14) % 16 = (x + 10) % 16 := by omega
  have e2 : ((x + 12) % 16 + 11) % 16 = (x + 7) % 16 := by omega
  have e3 : ((x + 12) % 16 + 8) % 16 = (x + 4) % 16 := by omega
  have e4 : ((x + 12) % 16 + 6) % 16 = (x + 2) % 16 := by omega
  have e5 : ((x + 12) % 16 + 3) % 16 = (x + 15) % 16 := by omega
  have e6 : (x + 0) % 16 + 0 = x := by omega
  have e7 : (x + 8) % 16 + 0 = (x + 8) % 16 := by omega
  have e8 : (x + 12) % 16 + 0 = (x + 12) % 16 := by omega
  have e9 : (x + 4) % 16 + 0 = (x + 4) % 16 := by omega
  rw [e1, e2, e3, e4, e5, e6, e7, e8, e9]
  generalize g (k + x) = t0
  generalize g (k + ((x + 14) % 16 + 16)) = t1
  generalize g (k + ((x + 11) % 16 + 32)) = t2
  generalize g (k + (x + 8) % 16) = t3
  generalize g (k + ((x + 6) % 16 + 16)) = t4
  generalize g (k + ((x + 3) % 16 + 32)) = t5
  generalize g (k + ((x + 15) % 16 + 32)) = t6
  generalize g (k + (x + 12) % 16) = t7
  generalize g (k + ((x + 10) % 16 + 16)) = t8
  generalize g (k + ((x + 7) % 16 + 32)) = t9
  generalize g (k + (x + 4) % 16) = t10
  generalize g (k + ((x + 2) % 16 + 16)) = t11
  unfold add32 wordMod
  omega

theorem clampField_adj1 : ∀ v < 1024,
    clampField v (v / 256 % 4) / 8 % 32 = if v < 512 then 0 else min ((v - 512) / 8) 31 := by
  decide!

theorem hires_field (c u1 u2 : Nat) (h1 : u1 < 512) (h2 : u2 < 512) (c1 : clamp7 u1 = c)
    (c2 : clamp7 u2 = c) :
    clampField (u1 + u2) ((u1 + u2) / 256 % 4) / 8 % 32 = c / 4 := by
  rw [clampField_adj1 _ (by omega)]
  unfold clamp7 at c1 c2
  split_ifs at c1 c2 ⊢ <;> omega

theorem add32_pack (t1 a1 b1 c1 t2 a2 b2 c2 : Nat) (ha : a1 + a2 < 1024) (hb : b1 + b2 < 1024)
    (hc : c1 + c2 < 1024) :
    add32 (pack t1 a1 b1 c1) (pack t2 a2 b2 c2) =
      pack ((t1 + t2) % 4) (a1 + a2) (b1 + b2) (c1 + c2) := by
  unfold add32 wordMod pack
  omega

/-- The pixel of the sum of two six-tap sums that both clamp to the colour of `T`. -/
theorem hires_pixel_of_two (S1 S2 T : Nat) (h1 : clamp_color S1 = clamp_color T)
    (h2 : clamp_color S2 = clamp_color T) (r1 : ∀ k < 3, field S1 k < 0x200)
    (r2 : ∀ k < 3, field S2 k < 0x200) :
    LO_PIXEL (CLAMP_RGB (add32 S1 S2) 1) 1 =
      rgb565 (clamp7 (field T 2 % 512)) (clamp7 (field T 1 % 512)) (clamp7 (field T 0 % 512)) := by
  have q1 : ∀ k < 3, clamp7 (field S1 k % 512) = clamp7 (field T k % 512) := by
    intro k hk
    rw [← field_clamp_color S1 k hk, ← field_clamp_color T k hk, h1]
  have q2 : ∀ k < 3, clamp7 (field S2 k % 512) = clamp7 (field T k % 512) := by
    intro k hk
    rw [← field_clamp_color S2 k hk, ← field_clamp_color T k hk, h2]
  have m1 : ∀ k < 3, field S1 k % 512 = field S1 k := fun k hk =>
    Nat.mod_eq_of_lt (by have := r1 k hk; omega)
  have m2 : ∀ k < 3, field S2 k % 512 = field S2 k := fun k hk =>
    Nat.mod_eq_of_lt (by have := r2 k hk; omega)
  have x2 := r1 2 (by omega)
  have x1 := r1 1 (by omega)
  have x0 := r1 0 (by omega)
  have y2 := r2 2 (by omega)
  have y1 := r2 1 (by omega)
  have y0 := r2 0 (by omega)
  have hs : add32 S1 S2 = pack ((S1 / 2 ^ 30 + S2 / 2 ^ 30) % 4) (field S1 2 + field S2 2)
      (field S1 1 + field S2 1) (field S1 0 + field S2 0) := by
    have := add32_pack (S1 / 2 ^ 30) (field S1 2) (field S1 1) (field S1 0) (S2 / 2 ^ 30)
      (field S2 2) (field S2 1) (field S2 0) (by omega) (by omega) (by omega)
    rw [← pack_fields S1, ← pack_fields S2] at this
    exact this
  rw [hs, CLAMP_RGB_pack _ _ _ _ 1 (by omega) (by omega) (by omega), LO_PIXEL_eq,
    rgb565_eq _ _ _ (clamp7_lt _) (clamp7_lt _)]
  have e2 : (pack ((S1 / 2 ^ 30 + S2 / 2 ^ 30) % 4) (field S1 2 + field S2 2)
      (field S1 1 + field S2 1) (field S1 0 + field S2 0) >>> (7 + 1)) / 2 ^ 20 % 4 =
      (field S1 2 + field S2 2) / 256 % 4 := by
    rw [Nat.shiftRight_eq_div_pow]; unfold pack; omega
  have e1 : (pack ((S1 / 2 ^ 30 + S2 / 2 ^ 30) % 4) (field S1 2 + field S2 2)
      (field S1 1 + field S2 1) (field S1 0 + field S2 0) >>> (7 + 1)) / 2 ^ 10 % 4 =
      (field S1 1 + field S2 1) / 256 % 4 := by
    rw [Nat.shiftRight_eq_div_pow]; unfold pack; omega
  have e0 : (pack ((S1 / 2 ^ 30 + S2 / 2 ^ 30) % 4) (field S1 2 + field S2 2)
      (field S1 1 + field S2 1) (field S1 0 + field S2 0) >>> (7 + 1)) % 4 =
      (field S1 0 + field S2 0) / 256 % 4 := by
    rw [Nat.shiftRight_eq_div_pow]; unfold pack; omega
  rw [e2, e1, e0]
  have g1 : ∀ k < 3, clamp7 (field S1 k) = clamp7 (field T k % 512) := by
    intro k hk
    have := q1 k hk
    rwa [m1 k hk] at this
  have g2 : ∀ k < 3, clamp7 (field S2 k) = clamp7 (field T k % 512) := by
    intro k hk
    have := q2 k hk
    rwa [m2 k hk] at this
  have f2 := hires_field (clamp7 (field T 2 % 512)) _ _ x2 y2 (g1 2 (by omega)) (g2 2 (by omega))
  have f1 := hires_field (clamp7 (field T 1 % 512)) _ _ x1 y1 (g1 1 (by omega)) (g2 1 (by omega))
  have f0 := hires_field (clamp7 (field T 0 % 512)) _ _ x0 y0 (g1 0 (by omega)) (g2 0 (by omega))
  rw [← f2, ← f1, ← f0]
  have la := clampField_lt (field S1 2 + field S2 2) ((field S1 2 + field S2 2) / 256 % 4)
  have lb := clampField_lt (field S1 1 + field S2 1) ((field S1 1 + field S2 1) / 256 % 4)
  have lc := clampField_lt (field S1 0 + field S2 0) ((field S1 0 + field S2 0) / 256 % 4)
  generalize clampField (field S1 2 + field S2 2) ((field S1 2 + field S2 2) / 256 % 4) = X at *
  generalize clampField (field S1 1 + field S2 1) ((field S1 1 + field S2 1) / 256 % 4) = Y at *
  generalize clampField (field S1 0 + field S2 0) ((field S1 0 + field S2 0) / 256 % 4) = Z at *
  unfold pack
  omega

/-- C18 (solid-field convergence, hires blit).  Let `adjust_kernel` return the table memory
`mem'` for the desired colour word `color`, and let every field of every six-tap solid sum of
burst slice `burst` be below `0x200` (the biased channel values lie in `0 .. 0x1FF`).  Then
for every `x < 16` the twelve-tap sum that `PIXEL( x )` of `snes_ntsc_blit_hires` forms with
all twelve pointers at that slice is the sum of the six-tap solid sums at `x` and at
`(x + 12) mod 16`, and after `CLAMP_RGB( raw, 1 )` it packs, as `LO_PIXEL` and shifted by 16 as
`HI_PIXEL`, to the RGB565 pixel of `color` with each channel clamped to `0 .. 0x7F`, which is
the pixel that `snes_ntsc_blit` gives for the same slice. -/
theorem solid_field_hires (fuel color : Nat) (merge_fields : Int) (mem mem' : Arr Nat Nat)
    (out burst x : Nat) (h : adjust_kernel fuel color merge_fields mem out = some mem')
    (hb : burst < burst_count) (hx : x < 16)
    (hrange : ∀ y < 16, ∀ k < 3,
      field (solid_raw mem'.get (out + burst * burst_entry_size) y) k < 0x200) :
    hires_raw mem'.get (out + burst * burst_entry_size)
        (solidTaps (out + burst * burst_entry_size)) x =
      add32 (solid_raw mem'.get (out + burst * burst_entry_size) x)
        (solid_raw mem'.get (out + burst * burst_entry_size) ((x + 12) % 16)) ∧
    LO_PIXEL (CLAMP_RGB (hires_raw mem'.get (out + burst * burst_entry_size)
        (solidTaps (out + burst * burst_entry_size)) x) 1) 1 =
      rgb565 (clampCh (channel color 2)) (clampCh (channel color 1)) (clampCh (channel color 0)) ∧
    HI_PIXEL (CLAMP_RGB (hires_raw mem'.get (out + burst * burst_entry_size)
        (solidTaps (out + burst * burst_entry_size)) x) 1) 1 =
      rgb565 (clampCh (channel color 2)) (clampCh (channel color 1)) (clampCh (channel color 0))
        <<< 16 ∧
    LO_PIXEL (CLAMP_RGB (hires_raw mem'.get (out + burst * burst_entry_size)
        (solidTaps (out + burst * burst_entry_size)) x) 1) 1 =
      LO_PIXEL (CLAMP_RGB (blit_raw mem'.get (out + burst * burst_entry_size)
        (out + burst * burst_entry_size) (out + burst * burst_entry_size)
        (out + burst * burst_entry_size) (out + burst * burst_entry_size)
        (out + burst * burst_entry_size) x) 0) 0 := by
  have hbs : burst_entry_size = 48 := rfl
  have hbc : burst_count = 3 := rfl
  rw [hbs] at hrange ⊢
  rw [hbc] at hb
  have hgood : ∀ y < 16, clamp_color (solid_raw mem'.get (out + burst * 48) y) =
      clamp_color (add32 color bias) := by
    intro y hy
    rcases Nat.lt_or_ge y 8 with hy8 | hy8
    · exact adjust_kernel_spec fuel color merge_fields mem mem' out h burst hb y hy8
    · have e : y = (y - 8) + 8 := by omega
      rw [e, solid_raw_add8 _ _ _ (by omega)]
      exact adjust_kernel_spec fuel color merge_fields mem mem' out h burst hb (y - 8) (by omega)
  have hch : ∀ k, clamp7 (field (add32 color bias) k % 512) = clampCh (channel color k) := by
    intro k
    rw [clamp7_eq _ (Nat.mod_lt _ (by omega))]
    rfl
  have hsum : hires_raw mem'.get (out + burst * 48) (solidTaps (out + burst * 48)) x =
      add32 (solid_raw mem'.get (out + burst * 48) x)
        (solid_raw mem'.get (out + burst * 48) ((x + 12) % 16)) :=
    hires_raw_solid mem'.get (out + burst * 48) x hx
  have hx' : (x + 12) % 16 < 16 := Nat.mod_lt _ (by omega)
  have hlo := hires_pixel_of_two _ _ _ (hgood x hx) (hgood _ hx') (hrange x hx) (hrange _ hx')
  rw [hch, hch, hch] at hlo
  have hstd := LO_PIXEL_of_clamp_color _ _ (hgood x hx)
  rw [hch, hch, hch] at hstd
  refine ⟨hsum, ?_, ?_, ?_⟩
  · rw [hsum]; exact hlo
  · rw [HI_PIXEL_eq _ 1 (by omega), hsum, hlo, Nat.shiftLeft_eq]
  · rw [hsum, hlo]; exact hstd.symm.trans rfl

set_option maxRecDepth 100000 in
/-- Witness of C18: a table entry that `adjust_kernel` corrects, with all solid sums of burst
slice 1 in range, and the pixel the hires blitter gives for it. -/
theorem solid_field_hires_witness :
    ∃ mem', adjust_kernel 300 (MAKE_KRGB 2000 1000 500) 1 ⟨fun i => 7 * i⟩ 144 = some mem' ∧
      LO_PIXEL (CLAMP_RGB (hires_raw mem'.get (144 + 1 * burst_entry_size)
        (solidTaps (144 + 1 * burst_entry_size)) 9) 1) 1 = 0x79C4 := by
  have hs : (adjust_kernel 300 (MAKE_KRGB 2000 1000 500) 1 ⟨fun i => 7 * i⟩ 144).any
      (fun (m : Arr Nat Nat) => decide (∀ y : Nat, y < 16 → ∀ k : Nat, k < 3 →
        field (solid_raw m.get (144 + 1 * burst_entry_size) y) k < 0x200)) = true := by
    decide
  cases h : adjust_kernel 300 (MAKE_KRGB 2000 1000 500) 1 ⟨fun i => 7 * i⟩ 144 with
  | none => rw [h] at hs; simp at hs
  | some mem' =>
    rw [h] at hs
    simp only [Option.any_some, decide_eq_true_eq] at hs
    exact ⟨mem', rfl, ((solid_field_hires 300 (MAKE_KRGB 2000 1000 500) 1 ⟨fun i => 7 * i⟩ mem'
      144 1 9 h (by decide) (by decide) hs).2.1).trans (by decide)⟩

/-! ## C19: where the bias is added -/

theorem adjust_body_value (fuel color base : Nat) (mem mem' : Arr Nat Nat) (i : Nat)
    (h : adjust_body fuel color base mem i = some mem') :
    ∃ f, correct_loop color (kernel_raw mem.get base i) fuel (mem.get (base + i)) = some f ∧
      mem' = mem.set (base + i) (add32 f bias) := by
  unfold adjust_body at h
  simp only [] at h
  split at h
  · simp at h
  · rename_i f hf
    simp only [Option.some.injEq] at h
    exact ⟨f, hf, h.symm⟩

theorem kernel_raw_congr (g g' : Nat → Nat) (base i : Nat) (hi : i < 8)
    (h : ∀ j, base + 8 ≤ j → j < base + 48 → g j = g' j) :
    kernel_raw g base i = kernel_raw g' base i := by
  unfold kernel_raw
  simp only [and_mask4]
  rw [h (base + ((i + 14) % 16 + 16)) (by omega) (by omega),
    h (base + ((i + 11) % 16 + 32)) (by omega) (by omega),
    h (base + (i + 8)) (by omega) (by omega), h (base + (i + 6 + 16)) (by omega) (by omega),
    h (base + (i + 3 + 32)) (by omega) (by omega)]

theorem adjust_inner_value (fuel color base : Nat) (hc : color < 2 ^ 32) :
    ∀ (l : List Nat) (mem mem' : Arr Nat Nat), (∀ i ∈ l, i < 8) → l.Nodup →
      l.foldlM (adjust_body fuel color base) mem = some mem' →
      ∀ i ∈ l, ∃ f,
        correct_loop color (kernel_raw mem.get base i) fuel (mem.get (base + i)) = some f ∧
          mem'.get (base + i) = add32 f bias := by
  intro l
  induction l with
  | nil => intro mem mem' _ _ _ i hi; simp at hi
  | cons i0 rest ih =>
    intro mem mem' hl hnd h
    rw [List.foldlM_cons] at h
    cases h1 : adjust_body fuel color base mem i0 with
    | none => rw [h1] at h; simp at h
    | some m1 =>
      rw [h1] at h
      simp only [Option.bind_eq_bind, Option.some_bind] at h
      have hi0 : i0 < 8 := hl i0 (List.mem_cons_self _ _)
      have hrest : ∀ i ∈ rest, i < 8 := fun i hi => hl i (List.mem_cons_of_mem _ hi)
      have hnd' := List.nodup_cons.1 hnd
      obtain ⟨f0, hf0, hm1⟩ := adjust_body_value fuel color base mem m1 i0 h1
      have hframe := (adjust_inner_spec fuel color base hc rest m1 mem' hrest hnd'.2 h).1
      intro i hi
      rcases List.mem_cons.1 hi with rfl | hi
      · refine ⟨f0, hf0, ?_⟩
        rw [hframe (base + i) (fun i' hi' e => hnd'.1 (by
          have : i = i' := by omega
          rw [this]; exact hi'))]
        rw [hm1]
        simp [Arr.set]
      · obtain ⟨f, hf, hv⟩ := ih m1 mem' hrest hnd'.2 h i hi
        have hii : i < 8 := hrest i hi
        have hne : i ≠ i0 := fun e => hnd'.1 (e ▸ hi)
        refine ⟨f, ?_, hv⟩
        have e1 : kernel_raw m1.get base i = kernel_raw mem.get base i := by
          apply kernel_raw_congr _ _ _ _ hii
          intro j hj1 hj2
          rw [hm1]
          have : j ≠ base + i0 := by omega
          simp [Arr.set, this]
        have e2 : m1.get (base + i) = mem.get (base + i) := by
          rw [hm1]
          have : base + i ≠ base + i0 := by omega
          simp [Arr.set, this]
        rw [e1, e2] at hf
        exact hf

theorem adjust_outer_value (fuel color out : Nat) (hc : color < 2 ^ 32) :
    ∀ (l : List Nat) (mem mem' : Arr Nat Nat), l.Nodup →
      l.foldlM (fun mem burst =>
        (List.range 8).foldlM (adjust_body fuel color (out + burst * 48)) mem) mem = some mem' →
      ∀ b ∈ l, ∀ i < 8, ∃ f,
        correct_loop color (kernel_raw mem.get (out + b * 48) i) fuel
            (mem.get (out + b * 48 + i)) = some f ∧
          mem'.get (out + b * 48 + i) = add32 f bias := by
  intro l
  induction l with
  | nil => intro mem mem' _ _ b hb; simp at hb
  | cons b0 rest ih =>
    intro mem mem' hnd h
    rw [List.foldlM_cons] at h
    cases h1 : (List.range 8).foldlM (adjust_body fuel color (out + b0 * 48)) mem with
    | none => rw [h1] at h; simp at h
    | some m1 =>
      rw [h1] at h
      simp only [Option.bind_eq_bind, Option.some_bind] at h
      have hnd' := List.nodup_cons.1 hnd
      have hin := adjust_inner_value fuel color (out + b0 * 48) hc (List.range 8) mem m1
        (fun i hi => List.mem_range.1 hi) (List.nodup_range 8) h1
      have hf1 := (adjust_inner_spec fuel color (out + b0 * 48) hc (List.range 8) mem m1
        (fun i hi => List.mem_range.1 hi) (List.nodup_range 8) h1).1
      have hf2 := (adjust_outer_spec fuel color out hc rest m1 mem' hnd'.2 h).1
      intro b hb i hi
      rcases List.mem_cons.1 hb with rfl | hb
      · obtain ⟨f, hf, hv⟩ := hin i (List.mem_range.2 hi)
        refine ⟨f, hf, ?_⟩
        rw [hf2 (out + b * 48 + i) (fun b' hb' i' hi' e => hnd'.1 (by
          have : b = b' := by omega
          rw [this]; exact hb'))]
        exact hv
      · obtain ⟨f, hf, hv⟩ := ih m1 mem' hnd'.2 h b hb i hi
        have hne : b ≠ b0 := fun e => hnd'.1 (e ▸ hb)
        refine ⟨f, ?_, hv⟩
        have e1 : kernel_raw m1.get (out + b * 48) i = kernel_raw mem.get (out + b * 48) i := by
          apply kernel_raw_congr _ _ _ _ hi
          intro j hj1 hj2
          apply hf1
          intro i' hi'
          have := List.mem_range.1 hi'
          omega
        have e2 : m1.get (out + b * 48 + i) = mem.get (out + b * 48 + i) := by
          apply hf1
          intro i' hi'
          have := List.mem_range.1 hi'
          omega
        rw [e1, e2] at hf
        exact hf

theorem withBias_lo (out : Nat) (g : Nat → Nat) (k t : Nat) (hk : out ≤ k)
    (hk' : (k - out) % 48 = 0) (ht : t < 8) : withBias out g (k + t) = add32 (g (k + t)) bias := by
  unfold withBias
  have e1 : burst_entry_size = 48 := rfl
  have e2 : rgb_kernel_size / 2 = 8 := rfl
  rw [e1, e2]
  have : (k + t - out) % 48 < 8 := by omega
  simp [this]

theorem withBias_hi (out : Nat) (g : Nat → Nat) (k t : Nat) (hk : out ≤ k)
    (hk' : (k - out) % 48 = 0) (ht : 8 ≤ t) (ht' : t < 48) : withBias out g (k + t) = g (k + t) := by
  unfold withBias
  have e1 : burst_entry_size = 48 := rfl
  have e2 : rgb_kernel_size / 2 = 8 := rfl
  rw [e1, e2]
  have : ¬ (k + t - out) % 48 < 8 := by omega
  simp [this]

theorem bias_lt : bias < 2 ^ 32 := by decide

theorem blit_raw_withBias (out : Nat) (g : Nat → Nat) (k0 k1 k2 k3 k4 k5 x : Nat) (hx : x < 16)
    (h0 : out ≤ k0 ∧ (k0 - out) % 48 = 0) (h1 : out ≤ k1 ∧ (k1 - out) % 48 = 0)
    (h2 : out ≤ k2 ∧ (k2 - out) % 48 = 0) (h3 : out ≤ k3 ∧ (k3 - out) % 48 = 0)
    (h4 : out ≤ k4 ∧ (k4 - out) % 48 = 0) (h5 : out ≤ k5 ∧ (k5 - out) % 48 = 0) :
    blit_raw (withBias out g) k0 k1 k2 k3 k4 k5 x =
      add32 (blit_raw g k0 k1 k2 k3 k4 k5 x) bias := by
  unfold blit_raw
  rw [withBias_hi out g k1 _ h1.1 h1.2 (by omega) (by omega),
    withBias_hi out g k2 _ h2.1 h2.2 (by omega) (by omega),
    withBias_hi out g k4 _ h4.1 h4.2 (by omega) (by omega),
    withBias_hi out g k5 _ h5.1 h5.2 (by omega) (by omega)]
  rcases Nat.lt_or_ge x 8 with hx8 | hx8
  · rw [withBias_lo out g k0 _ h0.1 h0.2 hx8,
      withBias_hi out g k3 _ h3.1 h3.2 (by omega) (by omega)]
    unfold add32 wordMod
    omega
  · rw [withBias_hi out g k0 _ h0.1 h0.2 hx8 (by omega),
      withBias_lo out g k3 _ h3.1 h3.2 (by omega)]
    unfold add32 wordMod
    omega

theorem hires_raw_withBias (out : Nat) (g : Nat → Nat) (k0 : Nat) (k : HiresTaps) (x : Nat)
    (hx : x < 16) (h0 : out ≤ k0 ∧ (k0 - out) % 48 = 0)
    (h1 : out ≤ k.k1 ∧ (k.k1 - out) % 48 = 0) (h2 : out ≤ k.k2 ∧ (k.k2 - out) % 48 = 0)
    (h3 : out ≤ k.k3 ∧ (k.k3 - out) % 48 = 0) (h4 : out ≤ k.k4 ∧ (k.k4 - out) % 48 = 0)
    (h5 : out ≤ k.k5 ∧ (k.k5 - out) % 48 = 0) (h6 : out ≤ k.k6 ∧ (k.k6 - out) % 48 = 0)
    (h7 : out ≤ k.k7 ∧ (k.k7 - out) % 48 = 0) (h8 : out ≤ k.k8 ∧ (k.k8 - out) % 48 = 0)
    (h9 : out ≤ k.k9 ∧ (k.k9 - out) % 48 = 0) (h10 : out ≤ k.k10 ∧ (k.k10 - out) % 48 = 0)
    (h11 : out ≤ k.k11 ∧ (k.k11 - out) % 48 = 0) :
    hires_raw (withBias out g) k0 k x = add32 (add32 (hires_raw g k0 k x) bias) bias := by
  unfold hires_raw
  rw [withBias_hi out g k.k2 _ h2.1 h2.2 (by omega) (by omega),
    withBias_hi out g k.k4 _ h4.1 h4.2 (by omega) (by omega),
    withBias_hi out g k.k8 _ h8.1 h8.2 (by omega) (by omega),
    withBias_hi out g k.k10 _ h10.1 h10.2 (by omega) (by omega),
    withBias_hi out g k.k1 _ h1.1 h1.2 (by omega) (by omega),
    withBias_hi out g k.k5 _ h5.1 h5.2 (by omega) (by omega),
    withBias_hi out g k.k7 _ h7.1 h7.2 (by omega) (by omega),
    withBias_hi out g k.k11 _ h11.1 h11.2 (by omega) (by omega)]
  have c : x < 4 ∨ (4 ≤ x ∧ x < 8) ∨ (8 ≤ x ∧ x < 12) ∨ (12 ≤ x ∧ x < 16) := by omega
  rcases c with c | c | c | c
  · rw [withBias_lo out g k0 _ h0.1 h0.2 (by omega),
      withBias_hi out g k.k6 _ h6.1 h6.2 (by omega) (by omega),
      withBias_hi out g k.k3 _ h3.1 h3.2 (by omega) (by omega),
      withBias_lo out g k.k9 _ h9.1 h9.2 (by omega)]
    unfold add32 wordMod
    omega
  · rw [withBias_lo out g k0 _ h0.1 h0.2 (by omega),
      withBias_hi out g k.k6 _ h6.1 h6.2 (by omega) (by omega),
      withBias_lo out g k.k3 _ h3.1 h3.2 (by omega),
      withBias_hi out g k.k9 _ h9.1 h9.2 (by omega) (by omega)]
    unfold add32 wordMod
    omega
  · rw [withBias_hi out g k0 _ h0.1 h0.2 (by omega) (by omega),
      withBias_lo out g k.k6 _ h6.1 h6.2 (by omega),
      withBias_lo out g k.k3 _ h3.1 h3.2 (by omega),
      withBias_hi out g k.k9 _ h9.1 h9.2 (by omega) (by omega)]
    unfold add32 wordMod
    omega
  · rw [withBias_hi out g k0 _ h0.1 h0.2 (by omega) (by omega),
      withBias_lo out g k.k6 _ h6.1 h6.2 (by omega),
      withBias_hi out g k.k3 _ h3.1 h3.2 (by omega) (by omega),
      withBias_lo out g k.k9 _ h9.1 h9.2 (by omega)]
    unfold add32 wordMod
    omega

theorem offsets_count : ∀ x < 16,
    (std_offsets x).countP (fun t => decide (t < 8)) = 1 ∧
      (hires_offsets x).countP (fun t => decide (t < 8)) = 2 := by
  decide

theorem blit_raw_offsets (g : Nat → Nat) (k x : Nat) :
    blit_raw g k k k k k k x =
      (((std_offsets x).tail).map (fun t => g (k + t))).foldl add32 (g (k + x)) := rfl

theorem hires_raw_offsets (g : Nat → Nat) (k x : Nat) :
    hires_raw g k (solidTaps k) x =
      (((hires_offsets x).tail).map (fun t => g (k + t))).foldl add32 (g (k + ((x + 0) % 16 + 0))) :=
  rfl

/-- C19 (bias bookkeeping).  Let `adjust_kernel` return the table memory `mem'`, and let
`merged` be the memory after its merge step.  Then `mem'` differs from `merged` only at taps
`0 .. 7` of alignment 0 of the three burst slices, where it holds `first + bias` for the value
`first` that the correction loop ends with, `bias` being `0x100` in each channel.  For every
`x < 16` exactly one of the six tap offsets that `PIXEL( x )` of `snes_ntsc_blit` sums, and
exactly two of the twelve that `PIXEL( x )` of `snes_ntsc_blit_hires` sums, are below 8.  So
on a table that adds `bias` to those taps of an unbiased table, with pointers at burst slices,
every standard sum is the unbiased sum plus one `bias` and every hires sum is the unbiased
sum plus two. -/
theorem bias_bookkeeping (fuel color : Nat) (merge_fields : Int) (mem mem' : Arr Nat Nat)
    (out : Nat) (h : adjust_kernel fuel color merge_fields mem out = some mem') :
    (∀ j, (∀ b < burst_count, ∀ i < rgb_kernel_size / 2, j ≠ out + b * burst_entry_size + i) →
      mem'.get j = (if merge_fields ≠ 0 then (List.range burst_entry_size).foldl (merge_body out) mem
        else mem).get j) ∧
    (∀ b < burst_count, ∀ i < rgb_kernel_size / 2, ∃ first,
      correct_loop (clamp_color (add32 color bias))
          (kernel_raw (if merge_fields ≠ 0 then
            (List.range burst_entry_size).foldl (merge_body out) mem else mem).get
            (out + b * burst_entry_size) i) fuel
          ((if merge_fields ≠ 0 then (List.range burst_entry_size).foldl (merge_body out) mem
            else mem).get (out + b * burst_entry_size + i)) = some first ∧
        mem'.get (out + b * burst_entry_size + i) = add32 first bias) ∧
    bias = 0x100 * 2 ^ 20 + 0x100 * 2 ^ 10 + 0x100 ∧
    (∀ x < 16, (std_offsets x).countP (fun t => decide (t < rgb_kernel_size / 2)) = 1 ∧
      (hires_offsets x).countP (fun t => decide (t < rgb_kernel_size / 2)) = 2) ∧
    (∀ (g : Nat → Nat) (k x : Nat),
      blit_raw g k k k k k k x =
          (((std_offsets x).tail).map (fun t => g (k + t))).foldl add32 (g (k + x)) ∧
        hires_raw g k (solidTaps k) x =
          (((hires_offsets x).tail).map (fun t => g (k + t))).foldl add32
            (g (k + ((x + 0) % 16 + 0)))) ∧
    (∀ (g : Nat → Nat) (k0 k1 k2 k3 k4 k5 x : Nat), x < 16 →
      (∀ k ∈ [k0, k1, k2, k3, k4, k5], out ≤ k ∧ (k - out) % burst_entry_size = 0) →
      blit_raw (withBias out g) k0 k1 k2 k3 k4 k5 x =
        add32 (blit_raw g k0 k1 k2 k3 k4 k5 x) bias) ∧
    (∀ (g : Nat → Nat) (k0 : Nat) (k : HiresTaps) (x : Nat), x < 16 →
      (∀ p ∈ [k0, k.k1, k.k2, k.k3, k.k4, k.k5, k.k6, k.k7, k.k8, k.k9, k.k10, k.k11],
        out ≤ p ∧ (p - out) % burst_entry_size = 0) →
      hires_raw (withBias out g) k0 k x = add32 (add32 (hires_raw g k0 k x) bias) bias) := by
  have e0 : burst_entry_size = 48 := rfl
  have e1 : burst_count = 3 := rfl
  have e2 : rgb_kernel_size / 2 = 8 := rfl
  have e3 : rgb_kernel_size * alignment_count = 48 := rfl
  unfold adjust_kernel at h
  simp only [e1, e2, e3] at h
  simp only [e0, e1, e2]
  refine ⟨?_, ?_, by decide, offsets_count, fun g k x => ⟨rfl, rfl⟩, ?_, ?_⟩
  · intro j hj
    exact (adjust_outer_spec fuel _ out (clamp_color_lt _) (List.range 3) _ mem'
      (List.nodup_range 3) h).1 j (fun b hb i hi => hj b (List.mem_range.1 hb) i hi)
  · intro b hb i hi
    exact adjust_outer_value fuel _ out (clamp_color_lt _) (List.range 3) _ mem'
      (List.nodup_range 3) h b (List.mem_range.2 hb) i hi
  · intro g k0 k1 k2 k3 k4 k5 x hx hk
    simp only [List.mem_cons, List.mem_singleton, List.not_mem_nil, or_false, forall_eq_or_imp,
      forall_eq] at hk
    exact blit_raw_withBias out g k0 k1 k2 k3 k4 k5 x hx hk.1 hk.2.1 hk.2.2.1 hk.2.2.2.1
      hk.2.2.2.2.1 hk.2.2.2.2.2
  · intro g k0 k x hx hk
    simp only [List.mem_cons, List.mem_singleton, List.not_mem_nil, or_false, forall_eq_or_imp,
      forall_eq] at hk
    exact hires_raw_withBias out g k0 k x hx hk.1 hk.2.1 hk.2.2.1 hk.2.2.2.1 hk.2.2.2.2.1
      hk.2.2.2.2.2.1 hk.2.2.2.2.2.2.1 hk.2.2.2.2.2.2.2.1 hk.2.2.2.2.2.2.2.2.1
      hk.2.2.2.2.2.2.2.2.2.1 hk.2.2.2.2.2.2.2.2.2.2.1 hk.2.2.2.2.2.2.2.2.2.2.2

/-- Witness of C19: a table entry that `adjust_kernel` corrects without merging; tap 4 of
alignment 1 of burst slice 0 keeps its value. -/
theorem bias_bookkeeping_witness :
    ∃ mem', adjust_kernel 300 (MAKE_KRGB 2000 1000 500) 0 ⟨fun i => 7 * i⟩ 144 = some mem' ∧
      mem'.get 164 = 1148 := by
  have hs : (adjust_kernel 300 (MAKE_KRGB 2000 1000 500) 0 ⟨fun i => 7 * i⟩ 144).isSome = true := by
    decide
  obtain ⟨mem', h⟩ := Option.isSome_iff_exists.1 hs
  exact ⟨mem', h, ((bias_bookkeeping 300 (MAKE_KRGB 2000 1000 500) 0 ⟨fun i => 7 * i⟩ mem'
    144 h).1 164 (by decide)).trans (by decide)⟩

/-! ## C20: the branch of `gen_pixel` that skips `sharpen` -/

set_option maxRecDepth 100000 in
/-- C20 (skipping the sharpen pass), evaluated at `sharp_state` for the call
`gen_pixel( ntsc, 4, 5, out )` of the third alignment, `out` being word 32 of a cleared
table.  The sharpness is 1.0 and `sharpen` gets `middle = 0x10000`.  The branch that skips
`sharpen` and the branch that runs it leave the same 60 shorts in `ntsc->rgb[0..19]` and
store the same first 15 table values; but the sixteenth value is made from `ntsc->rgb[20]`,
which only the branch with `sharpen` writes: skipping stores `MAKE_KRGB( 0, 0, 0 ) = 0`,
not skipping stores `MAKE_KRGB( 128, 128, 128 ) = 0x401004`. -/
theorem sharpen_skip_divergence :
    intOps.eq sharp_state.sharpness (intOps.lit 1.0) = true ∧
    intOps.toInt (intOps.mul sharp_state.sharpness (intOps.lit (2 ^ 16))) = 0x10000 ∧
    (∀ n : Nat, n < 60 → (gen_pixel intOps sharp_state 4 5 ⟨fun _ => 0⟩ 32).1.rgb.get n =
      (gen_pixel (neverEq intOps) sharp_state 4 5 ⟨fun _ => 0⟩ 32).1.rgb.get n) ∧
    (∀ n : Nat, n < 15 → (gen_pixel intOps sharp_state 4 5 ⟨fun _ => 0⟩ 32).2.1.get (32 + n) =
      (gen_pixel (neverEq intOps) sharp_state 4 5 ⟨fun _ => 0⟩ 32).2.1.get (32 + n)) ∧
    (gen_pixel intOps sharp_state 4 5 ⟨fun _ => 0⟩ 32).1.rgb.get 60 = 0 ∧
    (gen_pixel (neverEq intOps) sharp_state 4 5 ⟨fun _ => 0⟩ 32).1.rgb.get 60 = 128 ∧
    (gen_pixel intOps sharp_state 4 5 ⟨fun _ => 0⟩ 32).2.1.get 47 = 0 ∧
    (gen_pixel (neverEq intOps) sharp_state 4 5 ⟨fun _ => 0⟩ 32).2.1.get 47 = 0x401004 := by
  decide!

/-! ## C12: brightness -/

theorem gen_pixel_dm {F : Type} (O : FloatOps F) (ntsc : ntsc_to_rgb_t F) (p r : Nat)
    (mem : Arr Nat Nat) (out : Nat) :
    (gen_pixel O ntsc p r mem out).1.decoder_matrix = ntsc.decoder_matrix := by
  unfold gen_pixel
  simp only []
  split <;> rfl

theorem gen_pixel_contrast {F : Type} (O : FloatOps F) (ntsc : ntsc_to_rgb_t F) (p r : Nat)
    (mem : Arr Nat Nat) (out : Nat) :
    (gen_pixel O ntsc p r mem out).1.contrast = ntsc.contrast := by
  unfold gen_pixel
  simp only []
  split <;> rfl

theorem gen_pixel_brightness {F : Type} (O : FloatOps F) (ntsc : ntsc_to_rgb_t F) (p r : Nat)
    (mem : Arr Nat Nat) (out : Nat) :
    (gen_pixel O ntsc p r mem out).1.brightness = ntsc.brightness := by
  unfold gen_pixel
  simp only []
  split <;> rfl

theorem gen_pixel_burst_keeps {F : Type} (O : FloatOps F) (y ci cq : F)
    (st : ntsc_to_rgb_t F × Arr Nat Nat × Nat) (burst : Nat) :
    (gen_pixel_burst O y ci cq st burst).1.decoder_matrix = st.1.decoder_matrix ∧
      (gen_pixel_burst O y ci cq st burst).1.contrast = st.1.contrast ∧
      (gen_pixel_burst O y ci cq st burst).1.brightness = st.1.brightness := by
  unfold gen_pixel_burst
  simp only [gen_pixel_dm, gen_pixel_contrast, gen_pixel_brightness, and_self]

theorem gen_pixel_phases_keeps {F : Type} (O : FloatOps F) (ntsc : ntsc_to_rgb_t F) (y ci cq : F)
    (mem : Arr Nat Nat) (out : Nat) :
    (gen_pixel_phases O ntsc y ci cq mem out).1.decoder_matrix = ntsc.decoder_matrix ∧
      (gen_pixel_phases O ntsc y ci cq mem out).1.contrast = ntsc.contrast ∧
      (gen_pixel_phases O ntsc y ci cq mem out).1.brightness = ntsc.brightness := by
  have key : ∀ (l : List Nat) (st : ntsc_to_rgb_t F × Arr Nat Nat × Nat),
      (l.foldl (gen_pixel_burst O y ci cq) st).1.decoder_matrix = st.1.decoder_matrix ∧
        (l.foldl (gen_pixel_burst O y ci cq) st).1.contrast = st.1.contrast ∧
        (l.foldl (gen_pixel_burst O y ci cq) st).1.brightness = st.1.brightness := by
    intro l
    induction l with
    | nil => intro st; exact ⟨rfl, rfl, rfl⟩
    | cons b rest ih =>
      intro st
      rw [List.foldl_cons]
      obtain ⟨h1, h2, h3⟩ := ih (gen_pixel_burst O y ci cq st b)
      obtain ⟨g1, g2, g3⟩ := gen_pixel_burst_keeps O y ci cq st b
      exact ⟨h1.trans g1, h2.trans g2, h3.trans g3⟩
  exact key (List.range burst_count) (ntsc, mem, out)

/-- One pass of the loop of `snes_ntsc_init` hands `entry_color` to `adjust_kernel`, and
leaves the decoder matrix, contrast and brightness of the struct as they were. -/
theorem init_entry_eq {F : Type} (O : FloatOps F) (fuel : Nat) (setup : snes_ntsc_setup_t F)
    (to_float : Arr Nat F) (st : ntsc_to_rgb_t F × Arr Nat Nat) (entry : Nat) :
    init_entry O fuel setup to_float st entry =
      (adjust_kernel fuel (entry_color O st.1 to_float entry) setup.merge_fields
        (gen_pixel_phases O st.1 (entry_yiq O st.1 to_float entry).1
          (entry_yiq O st.1 to_float entry).2.1 (entry_yiq O st.1 to_float entry).2.2 st.2
          (entry * snes_ntsc_entry_size)).2 (entry * snes_ntsc_entry_size)).map
        (fun mem => ((gen_pixel_phases O st.1 (entry_yiq O st.1 to_float entry).1
          (entry_yiq O st.1 to_float entry).2.1 (entry_yiq O st.1 to_float entry).2.2 st.2
          (entry * snes_ntsc_entry_size)).1, mem)) := by
  unfold init_entry entry_color entry_rgb
  simp only [(gen_pixel_phases_keeps O _ _ _ _ _ _).1]
  unfold entry_yiq
  simp only []
  split <;> rename_i h <;> simp [h]

theorem snes_ntsc_init_eq {F : Type} (O : FloatOps F) (fuel : Nat) (ntsc : ntsc_to_rgb_t F)
    (emu : Arr Nat Nat) (setup : snes_ntsc_setup_t F) :
    snes_ntsc_init O fuel ntsc emu setup =
      ((List.range snes_color_count).foldlM (init_entry O fuel setup (gamma_table O setup))
        (ntsc_to_rgb_init O ntsc setup, emu)).map (fun st => st.2) := rfl

theorem entry_mono {F : Type} (O : FloatOps F) (le : F → F → Prop)
    (hadd_right : ∀ a b c, le a b → le (O.add a c) (O.add b c))
    (hadd_left : ∀ a b c, le a b → le (O.add c a) (O.add c b))
    (hint : ∀ a b, le a b → O.toInt a ≤ O.toInt b)
    (n1 n2 : ntsc_to_rgb_t F) (to_float : Arr Nat F) (hc : n1.contrast = n2.contrast)
    (hd : n1.decoder_matrix = n2.decoder_matrix) (hb : le n1.brightness n2.brightness)
    (entry : Nat) :
    le (entry_yiq O n1 to_float entry).1 (entry_yiq O n2 to_float entry).1 ∧
      (entry_rgb O n1 to_float entry).1 ≤ (entry_rgb O n2 to_float entry).1 ∧
      (entry_rgb O n1 to_float entry).2.1 ≤ (entry_rgb O n2 to_float entry).2.1 ∧
      (entry_rgb O n1 to_float entry).2.2 ≤ (entry_rgb O n2 to_float entry).2.2 := by
  have hy : le (entry_yiq O n1 to_float entry).1 (entry_yiq O n2 to_float entry).1 := by
    unfold entry_yiq
    simp only [hc]
    exact hadd_left _ _ _ hb
  have hi : (entry_yiq O n1 to_float entry).2 = (entry_yiq O n2 to_float entry).2 := rfl
  refine ⟨hy, ?_, ?_, ?_⟩ <;>
  · unfold entry_rgb
    simp only [hd, hi]
    exact hint _ _ (hadd_right _ _ _ (hadd_right _ _ _ hy))

theorem clampCh_mono (s t : Int) (h : s ≤ t) : clampCh s ≤ clampCh t := by
  unfold clampCh
  omega

theorem clamp_channel_mono (r1 g1 b1 r2 g2 b2 : Int) (f1 : fits_field r1) (f2 : fits_field g1)
    (f3 : fits_field b1) (f4 : fits_field r2) (f5 : fits_field g2) (f6 : fits_field b2)
    (hr : r1 ≤ r2) (hg : g1 ≤ g2) (hb : b1 ≤ b2) :
    ∀ k < 3, clampCh (channel (MAKE_KRGB r1 g1 b1) k) ≤ clampCh (channel (MAKE_KRGB r2 g2 b2) k) := by
  obtain ⟨a2, a1, a0⟩ := channel_MAKE_KRGB r1 g1 b1 f1 f2 f3
  obtain ⟨c2, c1, c0⟩ := channel_MAKE_KRGB r2 g2 b2 f4 f5 f6
  intro k hk
  have hk' : k = 0 ∨ k = 1 ∨ k = 2 := by omega
  rcases hk' with rfl | rfl | rfl
  · rw [a0, c0]; exact clampCh_mono _ _ (by omega)
  · rw [a1, c1]; exact clampCh_mono _ _ (by omega)
  · rw [a2, c2]; exact clampCh_mono _ _ (by omega)

/-- C12 (monotonic brightness): the code breaks the claim by overflowing a field of
`MAKE_KRGB`, which the comment at the brightness scaling of `ntsc_to_rgb_init` says the
scaling is there to avoid.  In exact arithmetic, with contrast 1, saturation 1 and the other
parameters 0, source code 15 (red at its maximum) has a luma at brightness 1 not less than at
brightness 0, and `(int) r = 7221` at brightness 0, whose rounded channel 226 clamps to
`0x7F`, but `(int) r = 8859` at brightness 1, whose rounded channel 277 is above `0xFF`: the
field wraps to -235 and the channel clamps to 0.  With contrast 0 it is the same: 6746
clamps to `0x7F` at brightness 0, and 8385 (rounded 262) wraps and clamps to 0 at
brightness 1. -/
theorem brightness_overflow_divergence :
    (bright_setup 1 1 0).brightness ≤ (bright_setup 1 1 1).brightness ∧
    init_luma ratOps blank_state (bright_setup 1 1 0) 15 ≤
      init_luma ratOps blank_state (bright_setup 1 1 1) 15 ∧
    (init_rgb ratOps blank_state (bright_setup 1 1 0) 15).1 = 7221 ∧
    (init_rgb ratOps blank_state (bright_setup 1 1 1) 15).1 = 8859 ∧
    ((7221 : Int) + 16) / 32 = 226 ∧ ((8859 : Int) + 16) / 32 = 277 ∧
    channel (init_color ratOps blank_state (bright_setup 1 1 0) 15) 2 = 226 ∧
    channel (init_color ratOps blank_state (bright_setup 1 1 1) 15) 2 = -235 ∧
    clampCh (channel (init_color ratOps blank_state (bright_setup 1 1 0) 15) 2) = 0x7F ∧
    clampCh (channel (init_color ratOps blank_state (bright_setup 1 1 1) 15) 2) = 0 ∧
    (init_rgb ratOps blank_state (bright_setup 0 1 0) 15).1 = 6746 ∧
    (init_rgb ratOps blank_state (bright_setup 0 1 1) 15).1 = 8385 ∧
    clampCh (channel (init_color ratOps blank_state (bright_setup 0 1 0) 15) 2) = 0x7F ∧
    clampCh (channel (init_color ratOps blank_state (bright_setup 0 1 1) 15) 2) = 0 := by
  decide!

/-- The part of the brightness claim that the code keeps.  Let the arithmetic be monotone for
an order `le`: sums in each argument, products with the constant `0.4 * rgb_unit`, and the
cast to `int`.  For fixed
hue, saturation, contrast, gamma and a fixed source code, the luma of `snes_ntsc_init` is
`y0 * contrast + (brightness * (0.4 * 0x1000) + 1)` with `y0` free of the brightness, and if
`le b1 b2` the luma under `b2` is not less than under `b1`; nor is any channel of
`MAKE_KRGB( (int) r, (int) g, (int) b )` clamped to `0 .. 0x7F`, as long as under both
settings the rounded channels `(x + 16) >> 5` lie in `-0x100 .. 0xFF`, the values a field of
`MAKE_KRGB` holds without wrapping: the overflow of a field is the only way the code breaks
the claim. -/
theorem brightness_monotone {F : Type} (O : FloatOps F) (le : F → F → Prop)
    (hadd_right : ∀ a b c, le a b → le (O.add a c) (O.add b c))
    (hadd_left : ∀ a b c, le a b → le (O.add c a) (O.add c b))
    (hmul : ∀ a b, le a b → le (O.mul a (O.mul (O.lit 0.4) (rgb_unit O)))
      (O.mul b (O.mul (O.lit 0.4) (rgb_unit O))))
    (hint : ∀ a b, le a b → O.toInt a ≤ O.toInt b)
    (ntsc : ntsc_to_rgb_t F) (setup : snes_ntsc_setup_t F) (b1 b2 : F) (hb : le b1 b2)
    (entry : Nat) :
    (∃ y0, ∀ b, init_luma O ntsc { setup with brightness := b } entry =
      O.add (O.mul y0 (O.add (O.mul setup.contrast (O.lit 0.4)) (O.lit 1)))
        (O.add (O.mul b (O.mul (O.lit 0.4) (rgb_unit O))) (O.lit 1))) ∧
    le (init_luma O ntsc { setup with brightness := b1 } entry)
      (init_luma O ntsc { setup with brightness := b2 } entry) ∧
    (fits_field (init_rgb O ntsc { setup with brightness := b1 } entry).1 →
      fits_field (init_rgb O ntsc { setup with brightness := b1 } entry).2.1 →
      fits_field (init_rgb O ntsc { setup with brightness := b1 } entry).2.2 →
      fits_field (init_rgb O ntsc { setup with brightness := b2 } entry).1 →
      fits_field (init_rgb O ntsc { setup with brightness := b2 } entry).2.1 →
      fits_field (init_rgb O ntsc { setup with brightness := b2 } entry).2.2 →
      ∀ k < 3, clampCh (channel (init_color O ntsc { setup with brightness := b1 } entry) k) ≤
        clampCh (channel (init_color O ntsc { setup with brightness := b2 } entry) k)) := by
  have hbr : le (ntsc_to_rgb_init O ntsc { setup with brightness := b1 }).brightness
      (ntsc_to_rgb_init O ntsc { setup with brightness := b2 }).brightness :=
    hadd_right _ _ _ (hmul _ _ hb)
  obtain ⟨m0, m1, m2, m3⟩ := entry_mono O le hadd_right hadd_left hint
    (ntsc_to_rgb_init O ntsc { setup with brightness := b1 })
    (ntsc_to_rgb_init O ntsc { setup with brightness := b2 }) (gamma_table O setup) rfl rfl hbr
    entry
  refine ⟨⟨O.add (O.add
      (O.mul ((gamma_table O setup).get (entry_ir entry &&& 0xFFFFFFFE)) (O.lit 0.299))
      (O.mul ((gamma_table O setup).get (entry_ig entry)) (O.lit 0.587)))
      (O.mul ((gamma_table O setup).get (entry_ib entry &&& 0xFFFFFFFE)) (O.lit 0.114)),
    fun b => rfl⟩, m0, ?_⟩
  intro f1 f2 f3 f4 f5 f6
  exact clamp_channel_mono _ _ _ _ _ _ f1 f2 f3 f4 f5 f6 m1 m2 m3

theorem ratOps_toInt_mono (a b : ℚ) (h : a ≤ b) : ratOps.toInt a ≤ ratOps.toInt b := by
  have ef : ∀ q : ℚ, q.floor = ⌊q⌋ := fun _ => rfl
  show (if 0 ≤ a then a.floor else -((-a).floor)) ≤ (if 0 ≤ b then b.floor else -((-b).floor))
  simp only [ef, Int.floor_neg, neg_neg]
  split_ifs with h1 h2 h2
  · exact Int.floor_le_floor h
  · exact absurd (le_trans h1 h) h2
  · exact le_trans (Int.ceil_le.2 (by push_cast; exact le_of_lt (not_le.1 h1)))
      (Int.floor_nonneg.2 h2)
  · exact Int.ceil_le_ceil h

/-- An instance of `brightness_monotone`: exact arithmetic, all parameters 0, source code
`0x1FFF` (white), brightness 0 and 1/2; the channels fit under both settings. -/
theorem brightness_monotone_witness :
    (0 : ℚ) ≤ 1 / 2 ∧
      init_luma ratOps blank_state { bright_setup 0 0 0 with brightness := 0 } 0x1FFF ≤
        init_luma ratOps blank_state { bright_setup 0 0 0 with brightness := 1 / 2 } 0x1FFF ∧
      ∀ k < 3,
        clampCh (channel
          (init_color ratOps blank_state { bright_setup 0 0 0 with brightness := 0 } 0x1FFF) k) ≤
        clampCh (channel
          (init_color ratOps blank_state { bright_setup 0 0 0 with brightness := 1 / 2 } 0x1FFF) k) :=
  have h := brightness_monotone ratOps (fun a b => a ≤ b)
    (fun a b c h => add_le_add_right h c) (fun a b c h => add_le_add_left h c)
    (fun a b h => mul_le_mul_of_nonneg_right h (by
      show (0 : ℚ) ≤ (0.4 : ℚ) * (0x1000 : ℚ)
      norm_num))
    ratOps_toInt_mono blank_state (bright_setup 0 0 0) 0 (1 / 2) (by norm_num) 0x1FFF
  ⟨by norm_num, h.2.1, h.2.2 (by unfold fits_field; decide!) (by unfold fits_field; decide!)
    (by unfold fits_field; decide!) (by unfold fits_field; decide!)
    (by unfold fits_field; decide!) (by unfold fits_field; decide!)⟩

/-! ## C11: the black entry -/

theorem foldl_set_frame (out : Nat) (f : Nat → Nat) :
    ∀ (l : List Nat) (mem : Arr Nat Nat) (j : Nat), (∀ n ∈ l, j ≠ out + n) →
      (l.foldl (fun (mem : Arr Nat Nat) (n : Nat) => mem.set (out + n) (f n)) mem).get j =
        mem.get j := by
  intro l
  induction l with
  | nil => intro mem j _; rfl
  | cons n rest ih =>
    intro mem j h
    rw [List.foldl_cons, ih _ j (fun m hm => h m (List.mem_cons_of_mem _ hm))]
    have := h n (List.mem_cons_self _ _)
    simp [Arr.set, this]

theorem gen_pixel_ptr {F : Type} (O : FloatOps F) (ntsc : ntsc_to_rgb_t F) (p r : Nat)
    (mem : Arr Nat Nat) (out : Nat) : (gen_pixel O ntsc p r mem out).2.2 = out + 16 := rfl

theorem gen_pixel_get {F : Type} (O : FloatOps F) (ntsc : ntsc_to_rgb_t F) (p r : Nat)
    (mem : Arr Nat Nat) (out j : Nat) (hj : j < out ∨ out + 16 ≤ j) :
    (gen_pixel O ntsc p r mem out).2.1.get j = mem.get j := by
  unfold gen_pixel
  simp only []
  apply foldl_set_frame
  intro n hn
  have : n < 16 := List.mem_range.1 hn
  omega

theorem gen_pixel_burst_frame {F : Type} (O : FloatOps F) (y ci cq : F)
    (st : ntsc_to_rgb_t F × Arr Nat Nat × Nat) (burst : Nat) :
    (gen_pixel_burst O y ci cq st burst).2.2 = st.2.2 + 48 ∧
      ∀ j, (j < st.2.2 ∨ st.2.2 + 48 ≤ j) →
        (gen_pixel_burst O y ci cq st burst).2.1.get j = st.2.1.get j := by
  refine ⟨?_, fun j hj => ?_⟩
  · unfold gen_pixel_burst
    simp only [gen_pixel_ptr]
  · unfold gen_pixel_burst
    simp only [gen_pixel_ptr]
    rw [gen_pixel_get _ _ _ _ _ _ _ (by omega), gen_pixel_get _ _ _ _ _ _ _ (by omega),
      gen_pixel_get _ _ _ _ _ _ _ (by omega)]

theorem gen_pixel_phases_frame {F : Type} (O : FloatOps F) (ntsc : ntsc_to_rgb_t F) (y ci cq : F)
    (mem : Arr Nat Nat) (out j : Nat) (hj : j < out ∨ out + 144 ≤ j) :
    (gen_pixel_phases O ntsc y ci cq mem out).2.get j = mem.get j := by
  have key : ∀ (l : List Nat) (st : ntsc_to_rgb_t F × Arr Nat Nat × Nat),
      (l.foldl (gen_pixel_burst O y ci cq) st).2.2 = st.2.2 + 48 * l.length ∧
        ∀ j, (j < st.2.2 ∨ st.2.2 + 48 * l.length ≤ j) →
          (l.foldl (gen_pixel_burst O y ci cq) st).2.1.get j = st.2.1.get j := by
    intro l
    induction l with
    | nil => intro st; exact ⟨rfl, fun _ _ => rfl⟩
    | cons b rest ih =>
      intro st
      rw [List.foldl_cons]
      obtain ⟨h1, h2⟩ := ih (gen_pixel_burst O y ci cq st b)
      obtain ⟨g1, g2⟩ := gen_pixel_burst_frame O y ci cq st b
      rw [g1] at h1 h2
      rw [List.length_cons]
      refine ⟨by omega, fun j hj => ?_⟩
      rw [h2 j (by omega), g2 j (by omega)]
  have := (key (List.range burst_count) (ntsc, mem, out)).2 j (by
    rw [List.length_range]
    have : burst_count = 3 := rfl
    simp only [this]
    omega)
  exact this

theorem adjust_kernel_frame (fuel color : Nat) (merge_fields : Int) (mem mem' : Arr Nat Nat)
    (out : Nat) (h : adjust_kernel fuel color merge_fields mem out = some mem') (j : Nat)
    (hj : j < out ∨ out + 144 ≤ j) : mem'.get j = mem.get j := by
  unfold adjust_kernel at h
  have e0 : burst_entry_size = 48 := rfl
  have e1 : burst_count = 3 := rfl
  have e2 : rgb_kernel_size / 2 = 8 := rfl
  have e3 : rgb_kernel_size * alignment_count = 48 := rfl
  simp only [e0, e1, e2, e3] at h
  rw [(adjust_outer_spec fuel _ out (clamp_color_lt _) (List.range 3) _ mem'
    (List.nodup_range 3) h).1 j (fun b hb i hi => by
      have := List.mem_range.1 hb
      omega)]
  split
  · exact (merge_fold_spec out (List.range 48) mem (List.nodup_range 48)
      (fun i hi => List.mem_range.1 hi)).1 j (fun i hi => by
        have := List.mem_range.1 hi
        omega)
  · rfl

theorem init_entry_frame {F : Type} (O : FloatOps F) (fuel : Nat) (setup : snes_ntsc_setup_t F)
    (to_float : Arr Nat F) (st st' : ntsc_to_rgb_t F × Arr Nat Nat) (entry : Nat)
    (h : init_entry O fuel setup to_float st entry = some st') (j : Nat)
    (hj : j < entry * 144 ∨ entry * 144 + 144 ≤ j) : st'.2.get j = st.2.get j := by
  rw [init_entry_eq] at h
  have e : snes_ntsc_entry_size = 144 := rfl
  rw [e] at h
  cases h1 : adjust_kernel fuel (entry_color O st.1 to_float entry) setup.merge_fields
      (gen_pixel_phases O st.1 (entry_yiq O st.1 to_float entry).1
        (entry_yiq O st.1 to_float entry).2.1 (entry_yiq O st.1 to_float entry).2.2 st.2
        (entry * 144)).2 (entry * 144) with
  | none => rw [h1] at h; simp at h
  | some m =>
    rw [h1] at h
    simp only [Option.map_some', Option.some.injEq] at h
    subst h
    simp only []
    rw [adjust_kernel_frame _ _ _ _ _ _ h1 j hj, gen_pixel_phases_frame _ _ _ _ _ _ _ _ hj]

theorem init_fold_frame {F : Type} (O : FloatOps F) (fuel : Nat) (setup : snes_ntsc_setup_t F)
    (to_float : Arr Nat F) :
    ∀ (l : List Nat) (st st' : ntsc_to_rgb_t F × Arr Nat Nat), (∀ e ∈ l, 1 ≤ e) →
      l.foldlM (init_entry O fuel setup to_float) st = some st' →
      ∀ j < 144, st'.2.get j = st.2.get j := by
  intro l
  induction l with
  | nil =>
    intro st st' _ h j _
    simp only [List.foldlM_nil] at h
    cases h
    rfl
  | cons e rest ih =>
    intro st st' hl h j hj
    rw [List.foldlM_cons] at h
    cases h1 : init_entry O fuel setup to_float st e with
    | none => rw [h1] at h; simp at h
    | some s1 =>
      rw [h1] at h
      simp only [Option.bind_eq_bind, Option.some_bind] at h
      have he := hl e (List.mem_cons_self _ _)
      rw [ih s1 st' (fun e' he' => hl e' (List.mem_cons_of_mem _ he')) h j hj,
        init_entry_frame O fuel setup to_float st s1 e h1 j (by omega)]

theorem init_fold_total {F : Type} (O : FloatOps F) (fuel : Nat) (hfuel : 258 ≤ fuel)
    (setup : snes_ntsc_setup_t F) (to_float : Arr Nat F) :
    ∀ (l : List Nat) (st : ntsc_to_rgb_t F × Arr Nat Nat),
      ∃ st', l.foldlM (init_entry O fuel setup to_float) st = some st' := by
  intro l
  induction l with
  | nil => intro st; exact ⟨st, rfl⟩
  | cons e rest ih =>
    intro st
    rw [List.foldlM_cons, init_entry_eq]
    obtain ⟨m, hm⟩ := adjust_kernel_total fuel (entry_color O st.1 to_float e) setup.merge_fields
      (gen_pixel_phases O st.1 (entry_yiq O st.1 to_float e).1
        (entry_yiq O st.1 to_float e).2.1 (entry_yiq O st.1 to_float e).2.2 st.2
        (e * snes_ntsc_entry_size)).2 (e * snes_ntsc_entry_size) hfuel
    rw [hm]
    simp only [Option.map_some', Option.bind_eq_bind, Option.some_bind]
    exact ih _

theorem fold_set_get {F : Type} (f : Nat → F) (t0 : Arr Nat F) :
    ∀ (n i : Nat), i < n →
      ((List.range n).foldl (fun (t : Arr Nat F) i => t.set i (f i)) t0).get i = f i := by
  intro n
  induction n with
  | zero => intro i hi; omega
  | succ n ih =>
    intro i hi
    rw [List.range_succ, List.foldl_append]
    simp only [List.foldl_cons, List.foldl_nil, Arr.set]
    split
    · rename_i h; rw [h]
    · rename_i h; exact ih i (by omega)

theorem gamma_table_zero {F : Type} (O : FloatOps F) (hO : ZeroOneLaws O) :
    (gamma_table O (zero_setup O)).get 0 = O.lit 0 := by
  unfold gamma_table
  simp only []
  rw [fold_set_get _ _ 32 0 (by omega)]
  have e : (zero_setup O).gamma = O.lit 0 := rfl
  rw [e, hO.mul_zero_left, hO.sub_one_zero, Nat.cast_zero, hO.mul_zero_right, hO.pow_zero_one,
    hO.mul_zero_left]

theorem black_color {F : Type} (O : FloatOps F) (hO : ZeroOneLaws O) (ntsc : ntsc_to_rgb_t F) :
    entry_color O (ntsc_to_rgb_init O ntsc (zero_setup O)) (gamma_table O (zero_setup O)) 0 = 0 := by
  have hc : (ntsc_to_rgb_init O ntsc (zero_setup O)).contrast = O.lit 1 := by
    show O.add (O.mul (O.lit 0) (O.lit 0.4)) (O.lit 1) = O.lit 1
    rw [hO.mul_zero_left, hO.add_zero_one]
  have hb : (ntsc_to_rgb_init O ntsc (zero_setup O)).brightness = O.lit 1 := by
    show O.add (O.mul (O.lit 0) (O.mul (O.lit 0.4) (rgb_unit O))) (O.lit 1) = O.lit 1
    rw [hO.mul_zero_left, hO.add_zero_one]
  have e1 : entry_ir 0 &&& 0xFFFFFFFE = 0 := by decide
  have e2 : entry_ig 0 = 0 := by decide
  have e3 : entry_ib 0 &&& 0xFFFFFFFE = 0 := by decide
  have hy : entry_yiq O (ntsc_to_rgb_init O ntsc (zero_setup O)) (gamma_table O (zero_setup O)) 0 =
      (O.lit 1, O.lit 0, O.lit 0) := by
    unfold entry_yiq
    simp only [e1, e2, e3, gamma_table_zero O hO, hc, hb, hO.mul_zero_left, hO.add_zero_zero,
      hO.sub_zero_zero, hO.add_zero_one]
  unfold entry_color entry_rgb
  simp only [hy, hO.mul_zero_left, hO.add_one_zero, hO.toInt_one]
  decide

theorem black_pixel (g : Nat → Nat) (k x : Nat)
    (h : clamp_color (solid_raw g k x) = clamp_color (add32 0 bias)) :
    LO_PIXEL (CLAMP_RGB (blit_raw g k k k k k k x) 0) 0 = 0 := by
  have := LO_PIXEL_of_clamp_color _ _ h
  unfold solid_raw at this
  rw [this]
  decide

theorem blit_chunk_black (emu : Nat → Nat) (t : Nat) (in_ out : Int)
    (H : ∀ x < 16, LO_PIXEL (CLAMP_RGB (blit_raw emu t t t t t t x) 0) 0 = 0) :
    (blit_chunk emu (fun _ => 0) t in_ out ⟨t, t, t, t, t⟩).2 = ⟨t, t, t, t, t⟩ ∧
      ∀ s ∈ (blit_chunk emu (fun _ => 0) t in_ out ⟨t, t, t, t, t⟩).1, s.2 = 0 := by
  constructor
  · unfold blit_chunk
    simp only [ENTRY_zero]
  · intro s hs
    unfold blit_chunk at hs
    simp only [ENTRY_zero] at hs
    simp [PIXEL, MAKE_RGB, two_pixels, H] at hs
    rcases hs with rfl | rfl | rfl | rfl | rfl | rfl | rfl | rfl <;> rfl

theorem blit_tail_black (emu : Nat → Nat) (t : Nat) (in_ out : Int)
    (H : ∀ x < 16, LO_PIXEL (CLAMP_RGB (blit_raw emu t t t t t t x) 0) 0 = 0) :
    ∀ s ∈ blit_tail emu (fun _ => 0) t in_ out ⟨t, t, t, t, t⟩, s.2 = 0 := by
  intro s hs
  unfold blit_tail at hs
  simp only [ENTRY_zero] at hs
  simp [PIXEL, MAKE_RGB, two_pixels, H] at hs
  rcases hs with rfl | rfl | rfl | rfl | rfl | rfl <;> rfl

theorem blit_chunks_black (emu : Nat → Nat) (t : Nat)
    (H : ∀ x < 16, LO_PIXEL (CLAMP_RGB (blit_raw emu t t t t t t x) 0) 0 = 0) :
    ∀ (n : Nat) (in_ out : Int),
      (blit_chunks emu (fun _ => 0) t n in_ out ⟨t, t, t, t, t⟩).2.2.2 = ⟨t, t, t, t, t⟩ ∧
        ∀ s ∈ (blit_chunks emu (fun _ => 0) t n in_ out ⟨t, t, t, t, t⟩).1, s.2 = 0 := by
  intro n
  induction n with
  | zero => intro in_ out; simp [blit_chunks]
  | succ n ih =>
    intro in_ out
    simp only [blit_chunks]
    obtain ⟨h1, h2⟩ := blit_chunk_black emu t in_ out H
    rw [h1]
    obtain ⟨g1, g2⟩ := ih (in_ + 2 * 6) (out + 4 * 8)
    refine ⟨g1, fun s hs => ?_⟩
    rcases List.mem_append.1 hs with hs | hs
    · exact h2 s hs
    · exact g2 s hs

theorem blit_row_black (emu : Nat → Nat) (burst c : Nat) (in_ out : Int)
    (H : ∀ x < 16, LO_PIXEL (CLAMP_RGB (blit_raw emu (burst * 48) (burst * 48) (burst * 48)
      (burst * 48) (burst * 48) (burst * 48) x) 0) 0 = 0) :
    ∀ s ∈ (blit_row emu (fun _ => 0) burst c in_ out).1, s.2 = 0 := by
  intro s hs
  unfold blit_row at hs
  have e : burst_entry_size = 48 := rfl
  simp only [ENTRY_zero, e] at hs
  obtain ⟨g1, g2⟩ := blit_chunks_black emu (burst * 48) H c (in_ + 2 * 2) out
  rw [g1] at hs
  rcases List.mem_append.1 hs with hs | hs
  · exact g2 s hs
  · exact blit_tail_black emu (burst * 48) _ _ H s hs

theorem blit_raw_congr_lt (g g' : Nat → Nat) (k x : Nat) (hx : x < 16)
    (h : ∀ j, j < k + 48 → g j = g' j) :
    blit_raw g k k k k k k x = blit_raw g' k k k k k k x := by
  unfold blit_raw
  rw [h (k + x) (by omega), h (k + ((x + 14) % 16 + 16)) (by omega),
    h (k + ((x + 11) % 16 + 32)) (by omega), h (k + (x + 8) % 16) (by omega),
    h (k + ((x + 6) % 16 + 16)) (by omega), h (k + ((x + 3) % 16 + 32)) (by omega)]

theorem solid_black (fuel : Nat) (merge_fields : Int) (mem mem' : Arr Nat Nat)
    (h : adjust_kernel fuel 0 merge_fields mem 0 = some mem') (b x : Nat) (hb : b < 3)
    (hx : x < 16) :
    LO_PIXEL (CLAMP_RGB (blit_raw mem'.get (b * 48) (b * 48) (b * 48) (b * 48) (b * 48)
      (b * 48) x) 0) 0 = 0 := by
  apply black_pixel
  have hs := adjust_kernel_spec fuel 0 merge_fields mem mem' 0 h b hb
  rw [Nat.zero_add] at hs
  rcases Nat.lt_or_ge x 8 with hx8 | hx8
  · exact hs x hx8
  · have e : x = (x - 8) + 8 := by omega
    rw [e, solid_raw_add8 _ _ _ (by omega)]
    exact hs (x - 8) (by omega)

/-- C11 (black example).  Let the arithmetic be exact on the constants 0 and 1
(`ZeroOneLaws`), every setup parameter be zero and `merge_fields` be false.  Then
`snes_ntsc_init`, given at least 258 tests for each correction loop, returns a table, and
with it `snes_ntsc_blit` of one scanline whose `6 c + 4` source pixels are all code 0 stores
only zero words, that is `0x0000` in every output pixel, for each starting burst phase and
each width. -/
theorem black_example {F : Type} (O : FloatOps F) (hO : ZeroOneLaws O) (fuel : Nat)
    (hfuel : 258 ≤ fuel) (ntsc : ntsc_to_rgb_t F) (emu : Arr Nat Nat) :
    ∃ tbl, snes_ntsc_init O fuel ntsc emu (zero_setup O) = some tbl ∧
      ∀ (inp : Int → Nat) (in_ in_pitch : Int) (burst : Nat) (width : Int) (vout out_pitch : Int),
        burst < 3 → (∀ j : Nat, j < 6 * chunk_count width + 4 → inp (in_ + 2 * j) = 0) →
        ∀ s ∈ snes_ntsc_blit_stores tbl.get inp in_ in_pitch burst width 1 vout out_pitch,
          s.2 = 0 := by
  rw [snes_ntsc_init_eq]
  have hr : List.range snes_color_count = 0 :: (List.range 8191).map Nat.succ :=
    List.range_succ_eq_map 8191
  rw [hr, List.foldlM_cons, init_entry_eq]
  simp only [black_color O hO ntsc, Nat.zero_mul]
  obtain ⟨m0, hm0⟩ := adjust_kernel_total fuel 0 (zero_setup O).merge_fields
    (gen_pixel_phases O (ntsc_to_rgb_init O ntsc (zero_setup O))
      (entry_yiq O (ntsc_to_rgb_init O ntsc (zero_setup O)) (gamma_table O (zero_setup O)) 0).1
      (entry_yiq O (ntsc_to_rgb_init O ntsc (zero_setup O)) (gamma_table O (zero_setup O)) 0).2.1
      (entry_yiq O (ntsc_to_rgb_init O ntsc (zero_setup O)) (gamma_table O (zero_setup O)) 0).2.2
      emu 0).2 0 hfuel
  rw [hm0]
  simp only [Option.map_some', Option.bind_eq_bind, Option.some_bind]
  obtain ⟨st', hst⟩ := init_fold_total O fuel hfuel (zero_setup O) (gamma_table O (zero_setup O))
    ((List.range 8191).map Nat.succ)
    ((gen_pixel_phases O (ntsc_to_rgb_init O ntsc (zero_setup O))
      (entry_yiq O (ntsc_to_rgb_init O ntsc (zero_setup O)) (gamma_table O (zero_setup O)) 0).1
      (entry_yiq O (ntsc_to_rgb_init O ntsc (zero_setup O)) (gamma_table O (zero_setup O)) 0).2.1
      (entry_yiq O (ntsc_to_rgb_init O ntsc (zero_setup O)) (gamma_table O (zero_setup O)) 0).2.2
      emu 0).1, m0)
  rw [hst]
  refine ⟨st'.2, rfl, ?_⟩
  have hframe := init_fold_frame O fuel (zero_setup O) (gamma_table O (zero_setup O)) _ _ st'
    (fun e he => by
      obtain ⟨a, _, rfl⟩ := List.mem_map.1 he
      exact Nat.succ_le_succ (Nat.zero_le a)) hst
  intro inp in_ in_pitch burst width vout out_pitch hb hin s hs
  have H : ∀ x < 16, LO_PIXEL (CLAMP_RGB (blit_raw st'.2.get (burst * 48) (burst * 48)
      (burst * 48) (burst * 48) (burst * 48) (burst * 48) x) 0) 0 = 0 := by
    intro x hx
    rw [blit_raw_congr_lt st'.2.get m0.get (burst * 48) x hx (fun j hj => hframe j (by omega))]
    exact solid_black fuel _ _ m0 hm0 burst x hb hx
  unfold snes_ntsc_blit_stores at hs
  simp only [] at hs
  rw [blit_rows_congr_entry st'.2.get (fun _ => 0) inp (chunk_count width) in_pitch out_pitch 1
    in_ burst vout (fun r hr j hj t => by
      have : r = 0 := by omega
      subst this
      simp only [Nat.cast_zero, zero_mul, add_zero]
      rw [hin j hj])] at hs
  simp only [blit_rows, List.append_nil] at hs
  exact blit_row_black st'.2.get burst (chunk_count width) in_ vout H s hs

theorem ratOps_laws : ZeroOneLaws ratOps where
  mul_zero_left := fun x => zero_mul x
  mul_zero_right := fun x => mul_zero x
  add_zero_zero := add_zero 0
  sub_zero_zero := sub_zero 0
  sub_one_zero := sub_zero 1
  add_zero_one := zero_add 1
  add_one_zero := add_zero 1
  pow_zero_one := by decide!
  toInt_one := by decide!

/-- Witness of C11: exact arithmetic, a cleared decoder struct and table, 258 tests for each
correction loop; one scanline of width 28 (ten source pixels of code 0) at burst phase 2. -/
theorem black_example_witness :
    258 ≤ 258 ∧ ∃ tbl, snes_ntsc_init ratOps 258 blank_state ⟨fun _ => 0⟩ (zero_setup ratOps) =
        some tbl ∧
      ∀ s ∈ snes_ntsc_blit_stores tbl.get (fun _ => 0) 0 20 2 28 1 1000 64, s.2 = 0 := by
  obtain ⟨tbl, h1, h2⟩ := black_example ratOps ratOps_laws 258 (by decide) blank_state
    ⟨fun _ => 0⟩
  exact ⟨by decide, tbl, h1, h2 (fun _ => 0) 0 20 2 28 1000 64 (by decide) (fun _ _ => rfl)⟩

/-! ## C16: the standard blitter as a sliding window -/

theorem row_words_append (adj : Nat) (raw : Nat → Nat) (out : Int) (a b : Nat) :
    row_words adj raw out (a + b) =
      row_words adj raw out a ++ row_words adj (fun p => raw (2 * a + p)) (out + 4 * a) b := by
  unfold row_words
  rw [List.range_add, List.map_append, List.map_map]
  congr 1
  apply List.map_congr_left
  intro w _
  simp only [Function.comp]
  have e1 : 2 * (a + w) = 2 * a + 2 * w := by ring
  have e2 : 2 * a + 2 * w + 1 = 2 * a + (2 * w + 1) := by ring
  have e3 : out + 4 * ((a + w : Nat) : Int) = out + 4 * (a : Int) + 4 * (w : Int) := by
    push_cast; ring
  rw [e1, e2, e3]

theorem start_hires_shift (j : Int) (m : Nat) :
    start_hires (j + 12 * m) = start_hires j + 16 * m := by
  unfold start_hires
  have e1 : (j + 12 * (m : Int) - 4) / 12 = (j - 4) / 12 + m := by omega
  have e2 : (j + 12 * (m : Int) - 4) % 12 = (j - 4) % 12 := by omega
  rw [e1, e2]
  ring

theorem last_hires_shift (p m : Nat) : last_hires (16 * m + p) = last_hires p + 12 * m := by
  unfold last_hires
  have e1 : (16 * m + p) / 16 = m + p / 16 := by omega
  have e2 : (16 * m + p) % 16 = p % 16 := by omega
  rw [e1, e2]
  push_cast
  ring

theorem tap_hires_shift (emu : Nat → Nat) (table : Nat) (S : Int → Nat) (j : Int) (p m : Nat) :
    tap_hires emu table S (j + 12 * m) (16 * m + p) =
      tap_hires emu table (fun j => S (j + 12 * m)) j p := by
  unfold tap_hires
  rw [start_hires_shift]
  have e1 : (j + 12 * (m : Int) - 4) % 3 = (j - 4) % 3 := by omega
  have e2 : ((16 * m + p : Nat) : Int) - (start_hires j + 16 * m) = (p : Int) - start_hires j := by
    push_cast; ring
  rw [e1, e2]

theorem conv_hires_shift (emu : Nat → Nat) (table : Nat) (S : Int → Nat) (p m : Nat) :
    conv_hires emu table S (16 * m + p) = conv_hires emu table (fun j => S (j + 12 * m)) p := by
  have h : ∀ t : Nat,
      tap_hires emu table S (last_hires (16 * m + p) - 11 + (t : Nat)) (16 * m + p) =
        tap_hires emu table (fun j => S (j + 12 * m)) (last_hires p - 11 + (t : Nat)) p := by
    intro t
    rw [last_hires_shift, ← tap_hires_shift]
    congr 1
    ring
  unfold conv_hires
  simp only [h]

theorem conv_hires_sum (emu : Nat → Nat) (table : Nat) (S : Int → Nat) (p : Nat) :
    conv_hires emu table S p =
      (tap_hires emu table S (last_hires p - 11 + (0 : Nat)) p +
        tap_hires emu table S (last_hires p - 11 + (1 : Nat)) p +
        tap_hires emu table S (last_hires p - 11 + (2 : Nat)) p +
        tap_hires emu table S (last_hires p - 11 + (3 : Nat)) p +
        tap_hires emu table S (last_hires p - 11 + (4 : Nat)) p +
        tap_hires emu table S (last_hires p - 11 + (5 : Nat)) p +
        tap_hires emu table S (last_hires p - 11 + (6 : Nat)) p +
        tap_hires emu table S (last_hires p - 11 + (7 : Nat)) p +
        tap_hires emu table S (last_hires p - 11 + (8 : Nat)) p +
        tap_hires emu table S (last_hires p - 11 + (9 : Nat)) p +
        tap_hires emu table S (last_hires p - 11 + (10 : Nat)) p +
        tap_hires emu table S (last_hires p - 11 + (11 : Nat)) p) % wordMod := by
  unfold conv_hires
  have e : List.range 12 = [0, 1, 2, 3, 4, 5, 6, 7, 8, 9, 10, 11] := rfl
  rw [e]
  simp only [List.foldl_cons, List.foldl_nil]
  unfold add32 wordMod
  omega

theorem hires_raw_sum (emu : Nat → Nat) (k0 : Nat) (k : HiresTaps) (x : Nat) :
    hires_raw emu k0 k x =
      (emu (k0 + ((x + 0) % 16 + 0)) + emu (k.k2 + ((x + 14) % 16 + 16)) +
        emu (k.k4 + ((x + 11) % 16 + 32)) + emu (k.k6 + ((x + 8) % 16 + 0)) +
        emu (k.k8 + ((x + 6) % 16 + 16)) + emu (k.k10 + ((x + 3) % 16 + 32)) +
        emu (k.k1 + ((x + 15) % 16 + 32)) + emu (k.k3 + ((x + 12) % 16 + 0)) +
        emu (k.k5 + ((x + 10) % 16 + 16)) + emu (k.k7 + ((x + 7) % 16 + 32)) +
        emu (k.k9 + ((x + 4) % 16 + 0)) + emu (k.k11 + ((x + 2) % 16 + 16))) % wordMod := by
  unfold hires_raw add32 wordMod
  omega

theorem conv_hires_raw (emu : Nat → Nat) (table : Nat) (S : Int → Nat) (x : Nat) (hx : x < 16) :
    conv_hires emu table S x = hires_raw emu (ENTRY table (S 4))
      ⟨ENTRY table (S (if 1 ≤ x then 5 else -7)), ENTRY table (S (if 2 ≤ x then 6 else -6)),
        ENTRY table (S (if 4 ≤ x then 7 else -5)), ENTRY table (S (if 5 ≤ x then 8 else -4)),
        ENTRY table (S (if 6 ≤ x then 9 else -3)), ENTRY table (S (if 8 ≤ x then 10 else -2)),
        ENTRY table (S (if 9 ≤ x then 11 else -1)), ENTRY table (S (if 10 ≤ x then 12 else 0)),
        ENTRY table (S (if 12 ≤ x then 13 else 1)), ENTRY table (S (if 13 ≤ x then 14 else 2)),
        ENTRY table (S (if 14 ≤ x then 15 else 3))⟩ x := by
  rw [conv_hires_sum, hires_raw_sum]
  interval_cases x <;> simp [tap_hires, start_hires, last_hires] <;> congr 1 <;> ring

theorem hires_chunk_conv (emu : Nat → Nat) (inp : Int → Nat) (table : Nat) (in_ out : Int)
    (S : Int → Nat) (hin : ∀ i : Nat, i < 12 → inp (in_ + 2 * i) = S (4 + i)) :
    hires_chunk emu inp table in_ out (hires_taps_at table S) =
      (row_words 1 (conv_hires emu table S) out 8,
        hires_taps_at table (fun j => S (j + 12 * (1 : Nat)))) := by
  have h0 := hin 0 (by omega)
  have h1 := hin 1 (by omega)
  have h2 := hin 2 (by omega)
  have h3 := hin 3 (by omega)
  have h4 := hin 4 (by omega)
  have h5 := hin 5 (by omega)
  have h6 := hin 6 (by omega)
  have h7 := hin 7 (by omega)
  have h8 := hin 8 (by omega)
  have h9 := hin 9 (by omega)
  have h10 := hin 10 (by omega)
  have h11 := hin 11 (by omega)
  norm_num at h0 h1 h2 h3 h4 h5 h6 h7 h8 h9 h10 h11
  have e : List.range 8 = [0, 1, 2, 3, 4, 5, 6, 7] := rfl
  unfold hires_chunk hires_taps_at row_words
  rw [e]
  simp [PIXEL_hires, MAKE_RGB, pixel_pair, conv_hires_raw, h0, h1, h2, h3, h4, h5, h6, h7, h8, h9,
    h10, h11]

theorem hires_tail_eq_take (emu : Nat → Nat) (inp inp' : Int → Nat) (table : Nat)
    (in_ out : Int) (k : HiresTaps)
    (h0 : inp' (in_ + 2 * 0) = inp (in_ + 2 * 0)) (h1 : inp' (in_ + 2 * 1) = inp (in_ + 2 * 1))
    (h2 : inp' (in_ + 2 * 2) = inp (in_ + 2 * 2)) (h3 : inp' (in_ + 2 * 3) = inp (in_ + 2 * 3))
    (h4 : inp' (in_ + 2 * 4) = 0) (h5 : inp' (in_ + 2 * 5) = 0) (h6 : inp' (in_ + 2 * 6) = 0)
    (h7 : inp' (in_ + 2 * 7) = 0) (h8 : inp' (in_ + 2 * 8) = 0) :
    hires_tail emu inp table in_ out k = (hires_chunk emu inp' table in_ out k).1.take 6 := by
  unfold hires_tail hires_chunk
  simp only [h0, h1, h2, h3, h4, h5, h6, h7, h8, ENTRY_zero, PIXEL_hires]
  simp

theorem hires_chunks_conv (emu : Nat → Nat) (inp : Int → Nat) (table : Nat) :
    ∀ (n : Nat) (in_ out : Int) (S : Int → Nat),
      (∀ i : Nat, i < 12 * n → inp (in_ + 2 * i) = S (4 + i)) →
      (hires_chunks emu inp table n in_ out (hires_taps_at table S)).1 =
          row_words 1 (conv_hires emu table S) out (8 * n) ∧
        (hires_chunks emu inp table n in_ out (hires_taps_at table S)).2.2.2 =
          hires_taps_at table (fun j => S (j + 12 * n)) := by
  intro n
  induction n with
  | zero =>
    intro in_ out S _
    simp [hires_chunks, row_words]
  | succ n ih =>
    intro in_ out S h
    simp only [hires_chunks]
    rw [hires_chunk_conv emu inp table in_ out S (fun i hi => h i (by omega))]
    obtain ⟨g1, g2⟩ := ih (in_ + 2 * 12) (out + 4 * 8) (fun j => S (j + 12 * (1 : Nat)))
      (fun i hi => by
        have := h (i + 12) (by omega)
        have e : in_ + 2 * ((i + 12 : Nat) : Int) = in_ + 2 * 12 + 2 * (i : Int) := by
          push_cast; ring
        have e2 : (4 : Int) + ((i + 12 : Nat) : Int) = 4 + (i : Int) + 12 * ((1 : Nat) : Int) := by
          push_cast; ring
        rw [e] at this
        rw [this, e2])
    dsimp only
    rw [g1, g2]
    constructor
    · have e : 8 * (n + 1) = 8 + 8 * n := by ring
      have hc : (fun p => conv_hires emu table S (2 * 8 + p)) =
          conv_hires emu table (fun j => S (j + 12 * (1 : Nat))) := by
        funext p
        exact conv_hires_shift emu table S p 1
      rw [e, row_words_append, hc]
      simp only [Nat.cast_ofNat]
    · congr 1
      funext j
      congr 1
      push_cast
      ring

theorem hires_row_conv (emu : Nat → Nat) (inp : Int → Nat) (burst c : Nat) (in_ out : Int) :
    (hires_row emu inp burst c in_ out).1 =
      row_words 1 (conv_hires emu (burst * burst_entry_size) (src_row inp in_ (12 * c + 8))) out
        (8 * c + 6) := by
  have hK : (⟨burst * burst_entry_size, burst * burst_entry_size, burst * burst_entry_size,
      burst * burst_entry_size, burst * burst_entry_size, burst * burst_entry_size,
      burst * burst_entry_size,
      ENTRY (burst * burst_entry_size) (inp (in_ + 2 * 0)),
      ENTRY (burst * burst_entry_size) (inp (in_ + 2 * 1)),
      ENTRY (burst * burst_entry_size) (inp (in_ + 2 * 2)),
      ENTRY (burst * burst_entry_size) (inp (in_ + 2 * 3))⟩ : HiresTaps) =
      hires_taps_at (burst * burst_entry_size) (src_row inp in_ (12 * c + 8)) := by
    unfold hires_taps_at src_row
    have c0 : (0 : Int) < 12 * (c : Int) + 8 := by omega
    have c1 : (1 : Int) < 12 * (c : Int) + 8 := by omega
    have c2 : (2 : Int) < 12 * (c : Int) + 8 := by omega
    have c3 : (3 : Int) < 12 * (c : Int) + 8 := by omega
    simp [ENTRY_zero, c0, c1, c2, c3]
  have hin : ∀ i : Nat, i < 12 * c →
      inp (in_ + 2 * 4 + 2 * i) = src_row inp in_ (12 * c + 8) (4 + i) := by
    intro i hi
    unfold src_row
    have c1 : (0 : Int) ≤ 4 + (i : Int) ∧ 4 + (i : Int) < ((12 * c + 8 : Nat) : Int) := by
      push_cast; omega
    rw [if_pos c1]
    congr 1
    ring
  obtain ⟨g1, g2⟩ := hires_chunks_conv emu inp (burst * burst_entry_size) c (in_ + 2 * 4) out
    (src_row inp in_ (12 * c + 8)) hin
  obtain ⟨p1, p2⟩ := hires_chunks_ptr emu inp (burst * burst_entry_size) c (in_ + 2 * 4) out
    (hires_taps_at (burst * burst_entry_size) (src_row inp in_ (12 * c + 8)))
  unfold hires_row
  dsimp only
  rw [hK, g1, g2, p1, p2]
  have inrow : ∀ i : Nat, i < 4 →
      (fun a => src_row inp in_ (12 * c + 8) ((a - in_) / 2)) (in_ + 2 * 4 + 24 * c + 2 * i) =
        inp (in_ + 2 * 4 + 24 * c + 2 * i) := by
    intro i hi
    have e : (in_ + 2 * 4 + 24 * (c : Int) + 2 * (i : Int) - in_) / 2 = 12 * c + 4 + i := by omega
    have c1 : (0 : Int) ≤ 12 * c + 4 + i ∧ (12 * (c : Int) + 4 + i) < ((12 * c + 8 : Nat) : Int) := by
      push_cast; omega
    simp only [e, src_row, if_pos c1]
    congr 1
    ring
  have outrow : ∀ i : Nat, 4 ≤ i → i < 9 →
      (fun a => src_row inp in_ (12 * c + 8) ((a - in_) / 2)) (in_ + 2 * 4 + 24 * c + 2 * i) = 0 := by
    intro i h1 h2
    have e : (in_ + 2 * 4 + 24 * (c : Int) + 2 * (i : Int) - in_) / 2 = 12 * c + 4 + i := by omega
    have c1 : ¬ ((0 : Int) ≤ 12 * c + 4 + i ∧
        (12 * (c : Int) + 4 + i) < ((12 * c + 8 : Nat) : Int)) := by
      push_cast; omega
    simp only [e, src_row, if_neg c1]
  have ht := hires_tail_eq_take emu inp
    (fun a => src_row inp in_ (12 * c + 8) ((a - in_) / 2)) (burst * burst_entry_size)
    (in_ + 2 * 4 + 24 * c) (out + 32 * c)
    (hires_taps_at (burst * burst_entry_size) (fun j => src_row inp in_ (12 * c + 8) (j + 12 * c)))
    (inrow 0 (by omega)) (inrow 1 (by omega)) (inrow 2 (by omega)) (inrow 3 (by omega))
    (outrow 4 (by omega) (by omega)) (outrow 5 (by omega) (by omega))
    (outrow 6 (by omega) (by omega)) (outrow 7 (by omega) (by omega))
    (outrow 8 (by omega) (by omega))
  rw [ht, hires_chunk_conv emu _ (burst * burst_entry_size) (in_ + 2 * 4 + 24 * c) (out + 32 * c)
    (fun j => src_row inp in_ (12 * c + 8) (j + 12 * c)) (fun i hi => by
      have e : (in_ + 2 * 4 + 24 * (c : Int) + 2 * (i : Int) - in_) / 2 = 4 + i + 12 * c := by omega
      simp only [e])]
  dsimp only
  have e8 : ∀ (raw : Nat → Nat) (o : Int), (row_words 1 raw o 8).take 6 = row_words 1 raw o 6 :=
    fun _ _ => rfl
  have hc : (fun p => conv_hires emu (burst * burst_entry_size) (src_row inp in_ (12 * c + 8))
      (2 * (8 * c) + p)) =
      conv_hires emu (burst * burst_entry_size)
        (fun j => src_row inp in_ (12 * c + 8) (j + 12 * c)) := by
    funext p
    have e : 2 * (8 * c) + p = 16 * c + p := by ring
    rw [e]
    exact conv_hires_shift emu _ _ p c
  rw [e8, row_words_append, hc]
  congr 2
  push_cast
  ring

theorem hires_rows_eq (emu : Nat → Nat) (inp : Int → Nat) (chunks : Nat) (P Q : Int) :
    ∀ (h : Nat) (in_ : Int) (b : Nat) (out : Int), b < 3 →
      hires_rows emu inp chunks (P - (chunks * 12 + 4 : Nat) * 2) (Q - (chunks : Int) * (16 * 2))
          h in_ b out =
        ((List.range h).map (fun r : Nat =>
          (hires_row emu inp ((b + r) % 3) chunks (in_ + r * P) (out + r * Q)).1)).flatten := by
  intro h
  induction h with
  | zero => intro in_ b out _; simp [hires_rows]
  | succ n ih =>
    intro in_ b out hb
    simp only [hires_rows]
    rw [hires_row_ptr, ih _ _ _ (Nat.mod_lt _ (by omega)), List.range_succ_eq_map n,
      List.map_cons, List.flatten_cons, List.map_map]
    simp only [Nat.add_zero, Nat.mod_eq_of_lt hb, Nat.cast_zero, zero_mul, add_zero]
    congr 2
    apply List.map_congr_left
    intro r _
    simp only [Function.comp]
    have e1 : ((b + 1) % 3 + r) % 3 = (b + (r + 1)) % 3 := by omega
    have e2 : in_ + 8 + 24 * (chunks : Int) + (P - ((chunks * 12 + 4 : Nat) : Int) * 2) + r * P =
        in_ + ((r + 1 : Nat) : Int) * P := by push_cast; ring
    have e3 : out + 32 * (chunks : Int) + (Q - (chunks : Int) * (16 * 2)) + r * Q =
        out + ((r + 1 : Nat) : Int) * Q := by push_cast; ring
    rw [e1, e2, e3]

theorem hires_tables : ∀ i < 12, ∀ x < 16,
    ((([0, 1, 2, 4, 5, 6, 8, 9, 10, 12, 13, 14] : List Nat).getD i 0 ≤ x ↔
        i ≤ ([0, 1, 2, 2, 3, 4, 5, 5, 6, 7, 8, 8, 9, 10, 11, 11] : List Nat).getD x 0) ∧
      ([0, 1, 2, 4, 5, 6, 8, 9, 10, 12, 13, 14] : List Nat).getD i 0 < 16 ∧
      ([0, 1, 2, 2, 3, 4, 5, 5, 6, 7, 8, 8, 9, 10, 11, 11] : List Nat).getD x 0 < 12) := by
  decide

theorem started_hires_iff (p : Nat) (j : Int) : start_hires j ≤ p ↔ j ≤ last_hires p := by
  unfold start_hires last_hires
  have hi : ((j - 4) % 12).toNat < 12 := by omega
  have hx : p % 16 < 16 := Nat.mod_lt _ (by omega)
  obtain ⟨h1, h2, h3⟩ := hires_tables _ hi _ hx
  generalize ([0, 1, 2, 4, 5, 6, 8, 9, 10, 12, 13, 14] : List Nat).getD ((j - 4) % 12).toNat 0 = X
    at *
  generalize ([0, 1, 2, 2, 3, 4, 5, 5, 6, 7, 8, 8, 9, 10, 11, 11] : List Nat).getD (p % 16) 0 = L
    at *
  omega

theorem window_hires_iff (p : Nat) (j : Int) :
    (start_hires j ≤ p ∧ (p : Int) ≤ start_hires j + 15) ↔
      (last_hires p - 11 ≤ j ∧ j ≤ last_hires p) := by
  have h1 := started_hires_iff p j
  have h2 := started_hires_iff p (j + 12)
  have h3 := start_hires_shift j 1
  simp only [Nat.cast_one, mul_one] at h3
  rw [h3] at h2
  omega

/-- C17 (sliding window, hires blitter).  Let `c` be the chunk count of `width`.
`snes_ntsc_blit_hires` takes `12 c + 8` source pixels from each row, twice the `6 c + 4` of
`snes_ntsc_blit`, black (code 0) before and after, and stores row after row the `8 c + 6`
words of the row; the word of output samples `2 w` and `2 w + 1` is made (clamp with
`adj = 1`, then left and right pixel) of the sliding-window sums `conv_hires` of the two
samples in burst slice `(burst + r) mod 3`.  The sum for sample `p` adds tap `p - start (j)`
of alignment `[0, 2, 1][(j - 4) mod 3]` of the entry of source pixel `j` over the twelve
consecutive `j` from `last_hires p - 11` to `last_hires p`, and these are the `j` whose window
`start (j) .. start (j) + 15` contains `p`. -/
theorem hires_window_sum (emu : Nat → Nat) (inp : Int → Nat) (in_ in_pitch : Int)
    (burst : Nat) (width : Int) (height : Nat) (vout out_pitch : Int) (hb : burst < 3) :
    snes_ntsc_blit_hires_stores emu inp in_ in_pitch burst width height vout out_pitch =
      ((List.range height).map (fun r : Nat =>
        (List.range (8 * chunk_count width + 6)).map (fun w : Nat =>
          (vout + r * out_pitch + 4 * (w : Int),
            pixel_pair 1
              (conv_hires emu ((burst + r) % 3 * burst_entry_size)
                (src_row inp (in_ + r * in_pitch) (12 * chunk_count width + 8)) (2 * w))
              (conv_hires emu ((burst + r) % 3 * burst_entry_size)
                (src_row inp (in_ + r * in_pitch) (12 * chunk_count width + 8))
                (2 * w + 1)))))).flatten ∧
    12 * chunk_count width + 8 = 2 * (6 * chunk_count width + 4) ∧
    (∀ (table : Nat) (S : Int → Nat) (p : Nat),
      conv_hires emu table S p =
        (List.range 12).foldl (fun acc t => add32 acc
          (emu (ENTRY table (S (last_hires p - 11 + (t : Nat))) +
            (16 * ((([0, 2, 1] : List Nat).getD
                ((last_hires p - 11 + (t : Nat) - 4) % 3).toNat 0 : Nat) : Int) +
              ((p : Int) - start_hires (last_hires p - 11 + (t : Nat)))).toNat))) 0) ∧
    ∀ (p : Nat) (j : Int),
      (start_hires j ≤ p ∧ (p : Int) ≤ start_hires j + 15) ↔
        (last_hires p - 11 ≤ j ∧ j ≤ last_hires p) := by
  refine ⟨?_, by ring, fun _ _ _ => rfl, window_hires_iff⟩
  unfold snes_ntsc_blit_hires_stores
  dsimp only
  rw [hires_rows_eq _ _ _ _ _ _ _ _ _ hb]
  congr 1
  apply List.map_congr_left
  intro r _
  rw [hires_row_conv]
  rfl

/-- Witness of C17: two rows of width 28 from burst phase 2. -/
theorem hires_window_sum_witness :
    2 < 3 ∧
      snes_ntsc_blit_hires_stores (fun i => 3 * i) (fun a => a.toNat) 0 40 2 28 2 1000 64 =
        ((List.range 2).map (fun r : Nat =>
          (List.range (8 * chunk_count 28 + 6)).map (fun w : Nat =>
            ((1000 : Int) + r * 64 + 4 * (w : Int),
              pixel_pair 1
                (conv_hires (fun i => 3 * i) ((2 + r) % 3 * burst_entry_size)
                  (src_row (fun a => a.toNat) (0 + r * 40) (12 * chunk_count 28 + 8)) (2 * w))
                (conv_hires (fun i => 3 * i) ((2 + r) % 3 * burst_entry_size)
                  (src_row (fun a => a.toNat) (0 + r * 40) (12 * chunk_count 28 + 8))
                  (2 * w + 1)))))).flatten :=
  ⟨by decide, (hires_window_sum (fun i => 3 * i) (fun a => a.toNat) 0 40 2 28 2 1000 64
    (by decide)).1⟩

/-! ## C21: the normalisation of the kernel -/

theorem init_kernel_eq {F : Type} (O : FloatOps F) (ntsc : ntsc_to_rgb_t F)
    (setup : snes_ntsc_setup_t F) :
    (ntsc_to_rgb_init O ntsc setup).kernel =
      (List.range 4).foldl (normalize_phase O) (gauss_kernel O ntsc) := rfl

theorem coe_list (xs : List Nat) : ((xs : List Int)) = xs.map (fun a : Nat => (a : Int)) := by
  induction xs with
  | nil => rfl
  | cons x r ih =>
    simp at ih ⊢
    exact ih

theorem normalize_phase_eq {F : Type} (O : FloatOps F) (kernel : Arr Int F) (i : Nat) :
    normalize_phase O kernel i =
      ((phase_taps i).map (fun a : Nat => (a : Int))).foldl (fun k (x : Int) => k.set x
        (O.mul (k.get x) (O.div (O.lit 0.5) (phase_sum O kernel i)))) kernel := by
  rw [← coe_list]
  rfl

theorem phase_sum_def {F : Type} (O : FloatOps F) (kernel : Arr Int F) (i : Nat) :
    phase_sum O kernel i =
      ((phase_taps i).map (fun a : Nat => (a : Int))).foldl
        (fun sum (x : Int) => O.add sum (kernel.get x)) (O.lit 0) := by
  rw [← coe_list]
  rfl

theorem mem_phase_taps (i x : Nat) (hi : i < 4) : x ∈ phase_taps i ↔ x < 40 ∧ x % 4 = i := by
  unfold phase_taps
  have e : ntsc_kernel_size = 40 := rfl
  rw [List.mem_filter, List.mem_range, e]
  simp only [decide_eq_true_eq]
  omega

theorem phase_taps_nodup (i : Nat) :
    ((phase_taps i).map (fun a : Nat => (a : Int))).Nodup :=
  ((List.nodup_range _).filter _).map (fun a b h => by exact_mod_cast h)

theorem scale_fold {F : Type} (O : FloatOps F) (s : F) :
    ∀ (l : List Int) (K : Arr Int F), l.Nodup →
      (∀ x ∈ l, (l.foldl (fun k (x : Int) => k.set x (O.mul (k.get x) s)) K).get x =
        O.mul (K.get x) s) ∧
      ∀ j : Int, (∀ x ∈ l, j ≠ x) →
        (l.foldl (fun k (x : Int) => k.set x (O.mul (k.get x) s)) K).get j = K.get j := by
  intro l
  induction l with
  | nil => intro K _; simp
  | cons x0 rest ih =>
    intro K hnd
    have hnd' := List.nodup_cons.1 hnd
    obtain ⟨h1, h2⟩ := ih (K.set x0 (O.mul (K.get x0) s)) hnd'.2
    rw [List.foldl_cons]
    constructor
    · intro x hx
      rcases List.mem_cons.1 hx with rfl | hx
      · rw [h2 _ (fun y hy e => hnd'.1 (by rw [e]; exact hy))]
        simp [Arr.set]
      · rw [h1 x hx]
        have hne : x ≠ x0 := fun e => hnd'.1 (e ▸ hx)
        simp [Arr.set, hne]
    · intro j hj
      rw [h2 j (fun x hx => hj x (List.mem_cons_of_mem _ hx))]
      have := hj x0 (List.mem_cons_self _ _)
      simp [Arr.set, this]

theorem phase_sum_eq {F : Type} [LinearOrderedField F] (O : FloatOps F) (hO : ExactOps O)
    (K : Arr Int F) (i : Nat) :
    phase_sum O K i = ((phase_taps i).map (fun x : Nat => K.get x)).sum := by
  rw [phase_sum_def, hO.lit_zero]
  have key : ∀ (l : List Nat) (a : F),
      (l.map (fun a : Nat => (a : Int))).foldl (fun sum (x : Int) => O.add sum (K.get x)) a =
        a + (l.map (fun x : Nat => K.get x)).sum := by
    intro l
    induction l with
    | nil => intro a; simp
    | cons x rest ih =>
      intro a
      rw [List.map_cons, List.foldl_cons, ih, hO.add_eq, List.map_cons, List.sum_cons]
      ring
  rw [key, zero_add]

theorem phase_sum_congr {F : Type} (O : FloatOps F) (K K' : Arr Int F) (i : Nat)
    (h : ∀ x ∈ phase_taps i, K'.get x = K.get x) : phase_sum O K' i = phase_sum O K i := by
  rw [phase_sum_def, phase_sum_def]
  have key : ∀ (l : List Nat) (a : F), (∀ x ∈ l, K'.get x = K.get x) →
      (l.map (fun a : Nat => (a : Int))).foldl (fun sum (x : Int) => O.add sum (K'.get x)) a =
        (l.map (fun a : Nat => (a : Int))).foldl (fun sum (x : Int) => O.add sum (K.get x)) a := by
    intro l
    induction l with
    | nil => intro a _; rfl
    | cons x rest ih =>
      intro a hl
      rw [List.map_cons, List.foldl_cons, List.foldl_cons, hl x (List.mem_cons_self _ _),
        ih _ (fun y hy => hl y (List.mem_cons_of_mem _ hy))]
  exact key _ _ h

theorem phase_sum_other {F : Type} (O : FloatOps F) (K : Arr Int F) (i j : Nat) (hi : i < 4)
    (hj : j < 4) (hne : j ≠ i) : phase_sum O (normalize_phase O K j) i = phase_sum O K i := by
  apply phase_sum_congr
  intro x hx
  rw [normalize_phase_eq]
  apply (scale_fold O _ _ K (phase_taps_nodup j)).2
  intro y hy e
  obtain ⟨n, hn, rfl⟩ := List.mem_map.1 hy
  have : x = n := by exact_mod_cast e
  have h1 := (mem_phase_taps i x hi).1 hx
  have h2 := (mem_phase_taps j n hj).1 hn
  omega

theorem phase_sum_self {F : Type} [LinearOrderedField F] (O : FloatOps F) (hO : ExactOps O)
    (K : Arr Int F) (i : Nat) (hpos : phase_sum O K i ≠ 0) :
    phase_sum O (normalize_phase O K i) i = 1 / 2 := by
  rw [phase_sum_eq O hO]
  have h : ∀ x ∈ phase_taps i, (normalize_phase O K i).get x =
      K.get x * ((1 / 2) / phase_sum O K i) := by
    intro x hx
    rw [normalize_phase_eq, (scale_fold O _ _ K (phase_taps_nodup i)).1 x
      (List.mem_map.2 ⟨x, hx, rfl⟩), hO.mul_eq, hO.div_eq, hO.lit_half]
  rw [List.map_congr_left h, List.sum_map_mul_right, ← phase_sum_eq O hO]
  field_simp
  ring

set_option maxRecDepth 100000 in
theorem gauss_kernel_get {F : Type} (O : FloatOps F) (ntsc : ntsc_to_rgb_t F) (x : Nat)
    (hx : x < 40) :
    (14 ≤ x ∧ x ≤ 26 → ∃ v, (gauss_kernel O ntsc).get x = O.exp v) ∧
      (¬ (14 ≤ x ∧ x ≤ 26) → (gauss_kernel O ntsc).get x = O.lit 0) := by
  interval_cases x <;> constructor <;> intro h <;>
    first
    | exact ⟨_, rfl⟩
    | rfl
    | omega

theorem gauss_kernel_sign {F : Type} [LinearOrderedField F] (O : FloatOps F) (hO : ExactOps O)
    (ntsc : ntsc_to_rgb_t F) (x : Nat) (hx : x < 40) :
    (14 ≤ x ∧ x ≤ 26 → 0 < (gauss_kernel O ntsc).get x) ∧
      (¬ (14 ≤ x ∧ x ≤ 26) → (gauss_kernel O ntsc).get x = 0) := by
  obtain ⟨h1, h2⟩ := gauss_kernel_get O ntsc x hx
  constructor
  · intro h
    obtain ⟨v, hv⟩ := h1 h
    rw [hv]
    exact hO.exp_pos v
  · intro h
    rw [h2 h, hO.lit_zero]

theorem gauss_phase_pos {F : Type} [LinearOrderedField F] (O : FloatOps F) (hO : ExactOps O)
    (ntsc : ntsc_to_rgb_t F) (i : Nat) (hi : i < 4) : 0 < phase_sum O (gauss_kernel O ntsc) i := by
  rw [phase_sum_eq O hO]
  have hnn : ∀ v ∈ (phase_taps i).map (fun x : Nat => (gauss_kernel O ntsc).get x), (0 : F) ≤ v := by
    intro v hv
    obtain ⟨x, hx, rfl⟩ := List.mem_map.1 hv
    have hx' := (mem_phase_taps i x hi).1 hx
    obtain ⟨s1, s2⟩ := gauss_kernel_sign O hO ntsc x hx'.1
    by_cases c : 14 ≤ x ∧ x ≤ 26
    · exact le_of_lt (s1 c)
    · exact le_of_eq (s2 c).symm
  have hmem : (gauss_kernel O ntsc).get ((16 + i : Nat) : Int) ∈
      (phase_taps i).map (fun x : Nat => (gauss_kernel O ntsc).get x) :=
    List.mem_map.2 ⟨16 + i, (mem_phase_taps i (16 + i) hi).2 (by omega), rfl⟩
  exact lt_of_lt_of_le ((gauss_kernel_sign O hO ntsc (16 + i) (by omega)).1 (by omega))
    (List.single_le_sum hnn _ hmem)

/-- C21 (kernel normalisation).  Let the arithmetic be exact in an ordered field, with `exp`
positive.  Before the normalisation loop of `ntsc_to_rgb_init` the kernel is positive on the
13 taps `14 .. 26` and zero on the other taps below 40.  The sum that pass `i` of the loop
divides by is the sum of the taps `i, i + 4, i + 8, ...` below 40 of that kernel (the passes
before it leave these taps alone) and is strictly positive; and in the kernel that
`ntsc_to_rgb_init` returns these taps sum to exactly one half, for each `i` in `0 .. 3`. -/
theorem kernel_normalised {F : Type} [LinearOrderedField F] (O : FloatOps F) (hO : ExactOps O)
    (ntsc : ntsc_to_rgb_t F) (setup : snes_ntsc_setup_t F) :
    (∀ i < 4, phase_sum O (ntsc_to_rgb_init O ntsc setup).kernel i = 1 / 2) ∧
    (∀ i < 4,
      phase_sum O ((List.range i).foldl (normalize_phase O) (gauss_kernel O ntsc)) i =
          phase_sum O (gauss_kernel O ntsc) i ∧
        0 < phase_sum O (gauss_kernel O ntsc) i) ∧
    (∀ x : Nat, x < 40 → (14 ≤ x ∧ x ≤ 26 → 0 < (gauss_kernel O ntsc).get x) ∧
      (¬ (14 ≤ x ∧ x ≤ 26) → (gauss_kernel O ntsc).get x = 0)) ∧
    (∀ (K : Arr Int F) (i : Nat), i < 4 →
      phase_sum O K i = ((List.range 10).map (fun n : Nat => K.get ((i + 4 * n : Nat) : Int))).sum) ∧
    ∀ (K : Arr Int F) (i : Nat),
      normalize_phase O K i =
        ((phase_taps i).map (fun a : Nat => (a : Int))).foldl (fun k (x : Int) => k.set x
          (O.mul (k.get x) (O.div (O.lit 0.5) (phase_sum O K i)))) K := by
  have p0 := gauss_phase_pos O hO ntsc 0 (by omega)
  have p1 := gauss_phase_pos O hO ntsc 1 (by omega)
  have p2 := gauss_phase_pos O hO ntsc 2 (by omega)
  have p3 := gauss_phase_pos O hO ntsc 3 (by omega)
  have e4 : (List.range 4).foldl (normalize_phase O) (gauss_kernel O ntsc) =
      normalize_phase O (normalize_phase O (normalize_phase O
        (normalize_phase O (gauss_kernel O ntsc) 0) 1) 2) 3 := rfl
  refine ⟨?_, ?_, fun x hx => gauss_kernel_sign O hO ntsc x hx, ?_, normalize_phase_eq O⟩
  · intro i hi
    rw [init_kernel_eq, e4]
    interval_cases i
    · rw [phase_sum_other O _ 0 3 (by omega) (by omega) (by omega),
        phase_sum_other O _ 0 2 (by omega) (by omega) (by omega),
        phase_sum_other O _ 0 1 (by omega) (by omega) (by omega)]
      exact phase_sum_self O hO _ 0 (ne_of_gt p0)
    · rw [phase_sum_other O _ 1 3 (by omega) (by omega) (by omega),
        phase_sum_other O _ 1 2 (by omega) (by omega) (by omega)]
      apply phase_sum_self O hO _ 1
      rw [phase_sum_other O _ 1 0 (by omega) (by omega) (by omega)]
      exact ne_of_gt p1
    · rw [phase_sum_other O _ 2 3 (by omega) (by omega) (by omega)]
      apply phase_sum_self O hO _ 2
      rw [phase_sum_other O _ 2 1 (by omega) (by omega) (by omega),
        phase_sum_other O _ 2 0 (by omega) (by omega) (by omega)]
      exact ne_of_gt p2
    · apply phase_sum_self O hO _ 3
      rw [phase_sum_other O _ 3 2 (by omega) (by omega) (by omega),
        phase_sum_other O _ 3 1 (by omega) (by omega) (by omega),
        phase_sum_other O _ 3 0 (by omega) (by omega) (by omega)]
      exact ne_of_gt p3
  · intro i hi
    interval_cases i
    · exact ⟨rfl, p0⟩
    · refine ⟨?_, p1⟩
      show phase_sum O (normalize_phase O (gauss_kernel O ntsc) 0) 1 = _
      exact phase_sum_other O _ 1 0 (by omega) (by omega) (by omega)
    · refine ⟨?_, p2⟩
      show phase_sum O (normalize_phase O (normalize_phase O (gauss_kernel O ntsc) 0) 1) 2 = _
      rw [phase_sum_other O _ 2 1 (by omega) (by omega) (by omega),
        phase_sum_other O _ 2 0 (by omega) (by omega) (by omega)]
    · refine ⟨?_, p3⟩
      show phase_sum O (normalize_phase O (normalize_phase O
        (normalize_phase O (gauss_kernel O ntsc) 0) 1) 2) 3 = _
      rw [phase_sum_other O _ 3 2 (by omega) (by omega) (by omega),
        phase_sum_other O _ 3 1 (by omega) (by omega) (by omega),
        phase_sum_other O _ 3 0 (by omega) (by omega) (by omega)]
  · intro K i hi
    rw [phase_sum_eq O hO]
    have e : phase_taps i = (List.range 10).map (fun n : Nat => i + 4 * n) := by
      interval_cases i <;> decide
    rw [e, List.map_map]
    rfl

theorem ratOps_exact : ExactOps ratOps where
  lit_zero := rfl
  lit_half := by
    show (0.5 : ℚ) = 1 / 2
    norm_num
  add_eq := fun _ _ => rfl
  mul_eq := fun _ _ => rfl
  div_eq := fun _ _ => rfl
  exp_pos := fun _ => by
    show (0 : ℚ) < 1
    norm_num

/-- Witness of C21: exact rational arithmetic, a cleared decoder struct and the setup with
every parameter zero. -/
theorem kernel_normalised_witness :
    ExactOps ratOps ∧
      phase_sum ratOps (ntsc_to_rgb_init ratOps blank_state (zero_setup ratOps)).kernel 0 = 1 / 2 ∧
      phase_sum ratOps (ntsc_to_rgb_init ratOps blank_state (zero_setup ratOps)).kernel 1 = 1 / 2 ∧
      phase_sum ratOps (ntsc_to_rgb_init ratOps blank_state (zero_setup ratOps)).kernel 2 = 1 / 2 ∧
      phase_sum ratOps (ntsc_to_rgb_init ratOps blank_state (zero_setup ratOps)).kernel 3 = 1 / 2 :=
  ⟨ratOps_exact,
    (kernel_normalised ratOps ratOps_exact blank_state (zero_setup ratOps)).1 0 (by decide),
    (kernel_normalised ratOps ratOps_exact blank_state (zero_setup ratOps)).1 1 (by decide),
    (kernel_normalised ratOps ratOps_exact blank_state (zero_setup ratOps)).1 2 (by decide),
    (kernel_normalised ratOps ratOps_exact blank_state (zero_setup ratOps)).1 3 (by decide)⟩

/-! ## C22: the indices of the table generator -/

theorem advances_comp (w1 w2 : Int) (h1 : 0 ≤ w1) (h2 : 0 ≤ w2)
    (f g : Int × Int × Arr Int Int → Int × Int × Arr Int Int) (hf : Advances w1 f)
    (hg : Advances w2 g) : Advances (w1 + w2) (fun st => g (f st)) := by
  intro st
  obtain ⟨a1, a2⟩ := hf st
  obtain ⟨b1, b2⟩ := hg (f st)
  rw [a1] at b1 b2
  refine ⟨by rw [b1]; ring, fun j hj => ?_⟩
  rw [b2 j (by omega), a2 j (by omega)]

theorem advances_fold (w : Int) (hw : 0 ≤ w)
    (step : Int × Int × Arr Int Int → Nat → Int × Int × Arr Int Int)
    (hstep : ∀ n, Advances w (fun st => step st n)) :
    ∀ (l : List Nat), Advances (w * l.length) (fun st => l.foldl step st) := by
  intro l
  induction l with
  | nil =>
    intro st
    simp
  | cons n rest ih =>
    have h := advances_comp w (w * rest.length) hw (mul_nonneg hw (Int.natCast_nonneg _))
      (fun st => step st n) (fun st => rest.foldl step st) (hstep n) ih
    intro st
    have e : w * ((n :: rest).length : Int) = w + w * rest.length := by
      rw [List.length_cons]
      push_cast
      ring
    rw [e]
    exact h st

theorem ntsc_PIXEL_advances {F : Type} (O : FloatOps F) (ntsc : ntsc_to_rgb_t F) (f0 f1 f2 f3 : F)
    (get_y : F → F → F) : Advances 3 (ntsc_PIXEL O ntsc f0 f1 f2 f3 get_y) := by
  intro st
  refine ⟨rfl, fun j hj => ?_⟩
  unfold ntsc_PIXEL
  have e0 : j ≠ st.2.1 := by omega
  have e1 : j ≠ st.2.1 + 1 := by omega
  have e2 : j ≠ st.2.1 + 2 := by omega
  simp [Arr.set, e0, e1, e2]

theorem ntsc_to_rgb_frame {F : Type} (O : FloatOps F) (ntsc : ntsc_to_rgb_t F) (offset : Nat)
    (out j : Int) (hj : j < out ∨ out + 60 ≤ j) :
    (ntsc_to_rgb O ntsc offset out).get j = ntsc.rgb.get j := by
  unfold ntsc_to_rgb
  dsimp only
  have hstep : ∀ n : Nat, Advances 12 (fun st =>
      ntsc_PIXEL O ntsc (ntsc.composite.get offset) (ntsc.composite.get (offset + 1))
        (ntsc.composite.get (offset + 2)) (ntsc.composite.get (offset + 3))
        (fun _ q => O.sub (ntsc.composite.get (4 * n + 3)) q)
        (ntsc_PIXEL O ntsc (ntsc.composite.get offset) (ntsc.composite.get (offset + 1))
          (ntsc.composite.get (offset + 2)) (ntsc.composite.get (offset + 3))
          (fun i _ => O.sub (ntsc.composite.get (4 * n + 2)) i)
          (ntsc_PIXEL O ntsc (ntsc.composite.get offset) (ntsc.composite.get (offset + 1))
            (ntsc.composite.get (offset + 2)) (ntsc.composite.get (offset + 3))
            (fun _ q => O.sub q (ntsc.composite.get (4 * n + 1)))
            (ntsc_PIXEL O ntsc (ntsc.composite.get offset) (ntsc.composite.get (offset + 1))
              (ntsc.composite.get (offset + 2)) (ntsc.composite.get (offset + 3))
              (fun i _ => O.sub i (ntsc.composite.get (4 * n + 0))) st)))) := by
    intro n
    exact advances_comp 9 3 (by omega) (by omega) _ _
      (advances_comp 6 3 (by omega) (by omega) _ _
        (advances_comp 3 3 (by omega) (by omega) _ _ (ntsc_PIXEL_advances O ntsc _ _ _ _ _)
          (ntsc_PIXEL_advances O ntsc _ _ _ _ _))
        (ntsc_PIXEL_advances O ntsc _ _ _ _ _))
      (ntsc_PIXEL_advances O ntsc _ _ _ _ _)
  have e : composite_size / 4 = 5 := rfl
  have h := (advances_fold 12 (by omega) _ hstep (List.range (composite_size / 4))
    ((ntsc_kernel_size / 2 : Nat) - (offset : Int), out, ntsc.rgb)).2 j (by
      rw [List.length_range, e]
      dsimp only
      omega)
  exact h

theorem copy_advances :
    Advances 1 (fun st : Int × Int × Arr Int Int =>
      (st.1 + 1, st.2.1 + 1, st.2.2.set st.2.1 (st.2.2.get st.1))) := by
  intro st
  refine ⟨rfl, fun j hj => ?_⟩
  have e0 : j ≠ st.2.1 := by omega
  simp [Arr.set, e0]

theorem sharpen_frame {F : Type} (O : FloatOps F) (rgb : Arr Int Int) (inn : Int) (level : F)
    (out j : Int) (hj : j < out ∨ out + 60 ≤ j) :
    (sharpen O rgb inn level composite_size out).get j = rgb.get j := by
  have hloop : ∀ n : Nat, Advances 1 (fun st : Int × Int × Arr Int Int =>
      (st.1 + 1, st.2.1 + 1, st.2.2.set st.2.1
        (toShort ((st.2.2.get (st.1 + 0) * O.toInt (O.mul level (O.lit (2 ^ 16)))
          - st.2.2.get (st.1 + -3) * ((O.toInt (O.mul level (O.lit (2 ^ 16))) - 2 ^ 16) / 2)
          - st.2.2.get (st.1 + 3) * ((O.toInt (O.mul level (O.lit (2 ^ 16))) - 2 ^ 16) / 2))
          / 2 ^ 16)))) := by
    intro _ st
    refine ⟨rfl, fun j hj => ?_⟩
    have e0 : j ≠ st.2.1 := by omega
    simp [Arr.set, e0]
  have h3 := advances_comp 2 1 (by omega) (by omega) _ _
    (advances_comp 1 1 (by omega) (by omega) _ _ copy_advances copy_advances) copy_advances
  have hlen : (List.range ((composite_size - 2) * 3)).length = 54 := by
    rw [List.length_range]
    rfl
  unfold sharpen
  dsimp only
  generalize List.range ((composite_size - 2) * 3) = l at hlen ⊢
  have hf := advances_fold 1 (by omega) _ hloop l
  have hall := advances_comp (2 + 1 + 1 * (l.length : Int)) (2 + 1) (by omega) (by omega) _ _
    (advances_comp (2 + 1) _ (by omega) (by omega) _ _ h3 hf) h3
  exact (hall (inn, out, rgb)).2 j (by
    rw [hlen]
    dsimp only
    omega)

theorem sharpen_copy_inv {F : Type} (O : FloatOps F) (R : Arr Int Int) (level : F) (k : Int)
    (st : Int × Int × Arr Int Int) (h : SharpenInv O R level k st) (hk : k < 3 ∨ 57 ≤ k) :
    SharpenInv O R level (k + 1)
      (st.1 + 1, st.2.1 + 1, st.2.2.set st.2.1 (st.2.2.get st.1)) := by
  obtain ⟨h1, h2, h3, h4⟩ := h
  refine ⟨by dsimp only; omega, by dsimp only; omega, fun j hj => ?_, fun t ht0 ht => ?_⟩
  · have e : j ≠ st.2.1 := by omega
    simp only [Arr.set, e, if_false]
    exact h3 j (by omega)
  · by_cases e : t = st.2.1
    · simp only [Arr.set, e, if_true]
      rw [h1, h3 _ (by omega)]
      unfold sharpened
      rw [if_pos (by omega)]
      congr 1
      omega
    · simp only [Arr.set, e, if_false]
      exact h4 t ht0 (by omega)

theorem sharpen_loop_inv {F : Type} (O : FloatOps F) (R : Arr Int Int) (level : F) (k : Int)
    (st : Int × Int × Arr Int Int) (h : SharpenInv O R level k st) (hk1 : 3 ≤ k) (hk2 : k < 57) :
    SharpenInv O R level (k + 1)
      (st.1 + 1, st.2.1 + 1, st.2.2.set st.2.1
        (toShort ((st.2.2.get (st.1 + 0) * O.toInt (O.mul level (O.lit (2 ^ 16)))
          - st.2.2.get (st.1 + -3) * ((O.toInt (O.mul level (O.lit (2 ^ 16))) - 2 ^ 16) / 2)
          - st.2.2.get (st.1 + 3) * ((O.toInt (O.mul level (O.lit (2 ^ 16))) - 2 ^ 16) / 2))
          / 2 ^ 16))) := by
  obtain ⟨h1, h2, h3, h4⟩ := h
  refine ⟨by dsimp only; omega, by dsimp only; omega, fun j hj => ?_, fun t ht0 ht => ?_⟩
  · have e : j ≠ st.2.1 := by omega
    simp only [Arr.set, e, if_false]
    exact h3 j (by omega)
  · by_cases e : t = st.2.1
    · simp only [Arr.set, e, if_true]
      rw [h3 _ (by omega), h3 _ (by omega), h3 _ (by omega), h1]
      unfold sharpened
      rw [if_neg (by omega)]
      have e1 : (3 : Int) + k + 0 = st.2.1 + 3 := by omega
      have e2 : (3 : Int) + k + -3 = st.2.1 := by omega
      have e3 : (3 : Int) + k + 3 = st.2.1 + 6 := by omega
      rw [e1, e2, e3]
    · simp only [Arr.set, e, if_false]
      exact h4 t ht0 (by omega)

theorem sharpen_fold_inv {F : Type} (O : FloatOps F) (R : Arr Int Int) (level : F) :
    ∀ (l : List Nat) (k : Int) (st : Int × Int × Arr Int Int), SharpenInv O R level k st →
      3 ≤ k → k + l.length ≤ 57 →
      SharpenInv O R level (k + l.length)
        (l.foldl (fun (st : Int × Int × Arr Int Int) _ =>
          (st.1 + 1, st.2.1 + 1, st.2.2.set st.2.1
            (toShort ((st.2.2.get (st.1 + 0) * O.toInt (O.mul level (O.lit (2 ^ 16)))
              - st.2.2.get (st.1 + -3) * ((O.toInt (O.mul level (O.lit (2 ^ 16))) - 2 ^ 16) / 2)
              - st.2.2.get (st.1 + 3) * ((O.toInt (O.mul level (O.lit (2 ^ 16))) - 2 ^ 16) / 2))
              / 2 ^ 16)))) st) := by
  intro l
  induction l with
  | nil =>
    intro k st h _ _
    simpa using h
  | cons n rest ih =>
    intro k st h h1 h2
    rw [List.foldl_cons]
    rw [List.length_cons] at h2
    push_cast at h2
    have := ih (k + 1) _ (sharpen_loop_inv O R level k st h h1 (by omega)) (by omega) (by omega)
    rw [List.length_cons]
    push_cast
    have e : k + ((rest.length : Int) + 1) = k + 1 + rest.length := by ring
    rw [e]
    exact this

theorem sharpen_inv_final {F : Type} (O : FloatOps F) (R : Arr Int Int) (level : F) (t : Int)
    (ht0 : 0 ≤ t) (ht : t < 60) :
    (sharpen O R 3 level composite_size 0).get t = sharpened O R level t := by
  have hlen : (List.range ((composite_size - 2) * 3)).length = 54 := by
    rw [List.length_range]
    rfl
  have i0 : SharpenInv O R level 0 (3, 0, R) :=
    ⟨rfl, rfl, fun _ _ => rfl, fun t h0 h1 => by omega⟩
  have i1 := sharpen_copy_inv O R level 0 _ i0 (by omega)
  have i2 := sharpen_copy_inv O R level (0 + 1) _ i1 (by omega)
  have i3 := sharpen_copy_inv O R level (0 + 1 + 1) _ i2 (by omega)
  unfold sharpen
  dsimp only
  generalize List.range ((composite_size - 2) * 3) = l at hlen ⊢
  have i57 := sharpen_fold_inv O R level l (0 + 1 + 1 + 1) _ i3 (by omega) (by omega)
  rw [hlen] at i57
  have i58 := sharpen_copy_inv O R level _ _ i57 (by omega)
  have i59 := sharpen_copy_inv O R level _ _ i58 (by omega)
  have i60 := sharpen_copy_inv O R level _ _ i59 (by omega)
  exact i60.2.2.2 t ht0 (by omega)

theorem sharpen_in_place {F : Type} (O : FloatOps F) (R : Arr Int Int) (level : F) (t : Nat)
    (ht : t < 60) :
    (sharpen O R 3 level composite_size 0).get t =
      if t < 3 ∨ 57 ≤ t then R.get ((t : Int) + 3)
      else toShort ((R.get ((t : Int) + 3) * O.toInt (O.mul level (O.lit (2 ^ 16)))
        - R.get (t : Int) * ((O.toInt (O.mul level (O.lit (2 ^ 16))) - 2 ^ 16) / 2)
        - R.get ((t : Int) + 6) * ((O.toInt (O.mul level (O.lit (2 ^ 16))) - 2 ^ 16) / 2))
        / 2 ^ 16) := by
  rw [sharpen_inv_final O R level (t : Int) (by omega) (by omega)]
  unfold sharpened
  by_cases c : t < 3 ∨ 57 ≤ t
  · rw [if_pos c, if_pos (by omega)]
  · rw [if_neg c, if_neg (by omega)]

theorem gen_pixel_frame_rgb {F : Type} (O : FloatOps F) (ntsc : ntsc_to_rgb_t F) (p r : Nat)
    (mem : Arr Nat Nat) (out : Nat) (j : Int) (hj : j < 0 ∨ 63 ≤ j) :
    (gen_pixel O ntsc p r mem out).1.rgb.get j = ntsc.rgb.get j := by
  unfold gen_pixel
  dsimp only
  split
  · exact ntsc_to_rgb_frame O ntsc _ _ j (by omega)
  · dsimp only
    rw [sharpen_frame O _ _ _ _ j (by omega)]
    exact ntsc_to_rgb_frame O ntsc _ _ j (by omega)

theorem foldl_set_get (out : Nat) (f : Nat → Nat) :
    ∀ (m : Nat) (mem : Arr Nat Nat) (i : Nat), i < m →
      ((List.range m).foldl (fun (mem : Arr Nat Nat) (n : Nat) => mem.set (out + n) (f n)) mem).get
        (out + i) = f i := by
  intro m
  induction m with
  | zero => intro mem i hi; omega
  | succ m ih =>
    intro mem i hi
    rw [List.range_succ, List.foldl_append]
    simp only [List.foldl_cons, List.foldl_nil, Arr.set]
    split
    · rename_i h
      have : i = m := by omega
      rw [this]
    · rename_i h
      exact ih mem i (by omega)

theorem gen_pixel_table {F : Type} (O : FloatOps F) (ntsc : ntsc_to_rgb_t F) (p r : Nat)
    (mem : Arr Nat Nat) (out n : Nat) (hn : n < 16) :
    (gen_pixel O ntsc p r mem out).2.1.get (out + n) =
      MAKE_KRGB ((gen_pixel O ntsc p r mem out).1.rgb.get (3 * (r : Int) + 3 * n + 0))
        ((gen_pixel O ntsc p r mem out).1.rgb.get (3 * (r : Int) + 3 * n + 1))
        ((gen_pixel O ntsc p r mem out).1.rgb.get (3 * (r : Int) + 3 * n + 2)) := by
  unfold gen_pixel
  dsimp only
  have e : rgb_kernel_size = 16 := rfl
  rw [e, foldl_set_get out _ 16 mem n hn]

set_option maxRecDepth 100000 in
theorem ntsc_to_rgb_clip0 {F : Type} (O : FloatOps F) (ntsc : ntsc_to_rgb_t F) (out : Int)
    (dK dC : F) :
    ntsc_to_rgb O (clip_arrays ntsc dK dC) (composite_border + 0) out =
      ntsc_to_rgb O ntsc (composite_border + 0) out := rfl

set_option maxRecDepth 100000 in
theorem ntsc_to_rgb_clip2 {F : Type} (O : FloatOps F) (ntsc : ntsc_to_rgb_t F) (out : Int)
    (dK dC : F) :
    ntsc_to_rgb O (clip_arrays ntsc dK dC) (composite_border + 2) out =
      ntsc_to_rgb O ntsc (composite_border + 2) out := rfl

set_option maxRecDepth 100000 in
theorem ntsc_to_rgb_clip4 {F : Type} (O : FloatOps F) (ntsc : ntsc_to_rgb_t F) (out : Int)
    (dK dC : F) :
    ntsc_to_rgb O (clip_arrays ntsc dK dC) (composite_border + 4) out =
      ntsc_to_rgb O ntsc (composite_border + 4) out := rfl

theorem gen_pixel_clip {F : Type} (O : FloatOps F) (ntsc : ntsc_to_rgb_t F) (p r : Nat)
    (mem : Arr Nat Nat) (out : Nat) (dK dC : F)
    (h : ∀ o : Int, ntsc_to_rgb O (clip_arrays ntsc dK dC) (composite_border + p) o =
      ntsc_to_rgb O ntsc (composite_border + p) o) :
    (gen_pixel O (clip_arrays ntsc dK dC) p r mem out).2 = (gen_pixel O ntsc p r mem out).2 ∧
      (gen_pixel O (clip_arrays ntsc dK dC) p r mem out).1.rgb =
        (gen_pixel O ntsc p r mem out).1.rgb := by
  unfold gen_pixel
  have e : (clip_arrays ntsc dK dC).sharpness = ntsc.sharpness := rfl
  dsimp only
  rw [e, h, h]
  cases O.eq ntsc.sharpness (O.lit 1.0)
  · exact ⟨rfl, rfl⟩
  · exact ⟨rfl, rfl⟩

/-- C22 (index safety of the table generator).  For the three calls of `gen_pixel` in
`gen_pixel_phases`, with `(ntsc_pos, rgb_pos)` being `(0, 0)`, `(2, 2)` and `(4, 5)`: the table
values, the returned pointer and `ntsc->rgb` are the same when `ntsc->kernel` is replaced by
anything outside the indices `0 .. 39` and `ntsc->composite` by anything outside `0 .. 19`
(no read leaves the arrays); `ntsc->rgb` keeps its contents outside the shorts `0 .. 62` of
its 21 rows (no write of `ntsc_to_rgb` or `sharpen` leaves them); and the 16 table values are
made of the rows `rgb_pos .. rgb_pos + 15`, the last of which is at most row 20.  `sharpen`,
called with `in` one row above `out`, gives each short `t` of `out` the value computed from
the shorts `t`, `t + 3` and `t + 6` that the array held before the call (it never reads a
short it has overwritten), and writes the shorts `0 .. 59` only. -/
theorem index_safety {F : Type} (O : FloatOps F) (ntsc : ntsc_to_rgb_t F) (mem : Arr Nat Nat)
    (out : Nat) (dK dC : F) :
    (∀ p ∈ phase_calls,
      (gen_pixel O (clip_arrays ntsc dK dC) p.1 p.2 mem out).2 =
        (gen_pixel O ntsc p.1 p.2 mem out).2 ∧
      (gen_pixel O (clip_arrays ntsc dK dC) p.1 p.2 mem out).1.rgb =
        (gen_pixel O ntsc p.1 p.2 mem out).1.rgb ∧
      (∀ j : Int, (j < 0 ∨ 3 * ((composite_size : Int) + 1) ≤ j) →
        (gen_pixel O ntsc p.1 p.2 mem out).1.rgb.get j = ntsc.rgb.get j) ∧
      p.2 + 15 ≤ composite_size ∧
      ∀ n < 16, (gen_pixel O ntsc p.1 p.2 mem out).2.1.get (out + n) =
        MAKE_KRGB ((gen_pixel O ntsc p.1 p.2 mem out).1.rgb.get (3 * (p.2 : Int) + 3 * n + 0))
          ((gen_pixel O ntsc p.1 p.2 mem out).1.rgb.get (3 * (p.2 : Int) + 3 * n + 1))
          ((gen_pixel O ntsc p.1 p.2 mem out).1.rgb.get (3 * (p.2 : Int) + 3 * n + 2))) ∧
    (∀ (R : Arr Int Int) (level : F) (t : Nat), t < 60 →
      (sharpen O R 3 level composite_size 0).get t =
        if t < 3 ∨ 57 ≤ t then R.get ((t : Int) + 3)
        else toShort ((R.get ((t : Int) + 3) * O.toInt (O.mul level (O.lit (2 ^ 16)))
          - R.get (t : Int) * ((O.toInt (O.mul level (O.lit (2 ^ 16))) - 2 ^ 16) / 2)
          - R.get ((t : Int) + 6) * ((O.toInt (O.mul level (O.lit (2 ^ 16))) - 2 ^ 16) / 2))
          / 2 ^ 16)) ∧
    ∀ (R : Arr Int Int) (level : F) (j : Int), (j < 0 ∨ 60 ≤ j) →
      (sharpen O R 3 level composite_size 0).get j = R.get j := by
  have hcs : (composite_size : Int) = 20 := rfl
  refine ⟨?_, fun R level t ht => sharpen_in_place O R level t ht,
    fun R level j hj => sharpen_frame O R 3 level 0 j (by omega)⟩
  intro p hp
  simp only [phase_calls, List.mem_cons, List.mem_singleton, List.not_mem_nil, or_false] at hp
  rcases hp with rfl | rfl | rfl
  · exact ⟨(gen_pixel_clip O ntsc 0 0 mem out dK dC (fun o => ntsc_to_rgb_clip0 O ntsc o dK dC)).1,
      (gen_pixel_clip O ntsc 0 0 mem out dK dC (fun o => ntsc_to_rgb_clip0 O ntsc o dK dC)).2,
      fun j hj => gen_pixel_frame_rgb O ntsc 0 0 mem out j (by omega), by decide,
      fun n hn => gen_pixel_table O ntsc 0 0 mem out n hn⟩
  · exact ⟨(gen_pixel_clip O ntsc 2 2 mem out dK dC (fun o => ntsc_to_rgb_clip2 O ntsc o dK dC)).1,
      (gen_pixel_clip O ntsc 2 2 mem out dK dC (fun o => ntsc_to_rgb_clip2 O ntsc o dK dC)).2,
      fun j hj => gen_pixel_frame_rgb O ntsc 2 2 mem out j (by omega), by decide,
      fun n hn => gen_pixel_table O ntsc 2 2 mem out n hn⟩
  · exact ⟨(gen_pixel_clip O ntsc 4 5 mem out dK dC (fun o => ntsc_to_rgb_clip4 O ntsc o dK dC)).1,
      (gen_pixel_clip O ntsc 4 5 mem out dK dC (fun o => ntsc_to_rgb_clip4 O ntsc o dK dC)).2,
      fun j hj => gen_pixel_frame_rgb O ntsc 4 5 mem out j (by omega), by decide,
      fun n hn => gen_pixel_table O ntsc 4 5 mem out n hn⟩

end SnesNtsc
